import Mathlib

/-!
TeensyStep: the motion engine of `StepControlBase.h`.

A shallow embedding of `src/src/StepControlBase.h` (`doMove`, `pitISR`,
`delayISR`, `moveAsync`, `stopAsync`) and theorems about it.

* Axis objects live in a heap `Ptr → Stepper`; the active-axis list
  `motorList` is a list of nullable pointers, so aliasing and the null
  sentinel are represented as in the C++ code.
* Everything the engine does to its collaborators (timer, delay facility,
  speed-profile hooks, pins, callback) is appended to an event trace, in
  program order.
* A null dereference or a scan past the end of `motorList` is undefined
  behaviour and is the result `none`.
* `int32_t` arithmetic is `Int` arithmetic followed by `wrapInt32`.
* `std::sort` is the algorithm of the library of the GCC toolchain
  (`bits/stl_algo.h`, `bits/stl_heap.h`; line numbers are those of GCC 12): an
  introsort pass on ranges of more than 16 elements, then an insertion sort.
  The order it leaves equal elements in is not fixed by the C++ standard.
-/

namespace TeensyStep

/-! ## Machine integers -/

/-- The value of an integer stored into an `int32_t` (two's complement). -/
def wrapInt32 (x : Int) : Int := (x + 2147483648) % 4294967296 - 2147483648

/-- The value of a non-negative integer stored into a `uint32_t`. -/
def wrapUInt32 (x : Nat) : Nat := x % 4294967296

/-- The predicate "fits an `int32_t`". -/
def isInt32 (x : Int) : Prop := -2147483648 ≤ x ∧ x < 2147483648

/-! ## Collaborators that are not part of `StepControlBase.h` -/

/-- The address of an axis object. -/
abbrev Ptr := Nat

/-- Modelled from the spec: `Stepper.h` is not among the sources. The axis
state of spec section 3: `current`, `target`, `distance`, the error term `B`,
the signed `vMax`, the acceleration limit `a`; `dir` is the unit by which a
step advances the position and `stepPin` the level of the step pin. -/
structure Stepper where
  current : Int
  target : Int
  distance : Int
  B : Int
  vMax : Int
  a : Nat
  dir : Int
  stepPin : Bool
  deriving DecidableEq, Repr

/-- Modelled from the spec: `Stepper::doStep`, absent from the sources, is the
`step()` of spec section 6: advance the position by one unit and assert the
step pin. -/
def Stepper.doStep (s : Stepper) : Stepper :=
  { s with current := wrapInt32 (s.current + s.dir), stepPin := true }

/-- Modelled from the spec: `Stepper::clearStepPin`, absent from the sources,
is the `deassertPin()` of spec section 6. -/
def Stepper.clearStepPin (s : Stepper) : Stepper :=
  { s with stepPin := false }

/-- The axis objects, by address. -/
abbrev Heap := Ptr → Stepper

/-- Store an axis object at an address. -/
def Heap.set (h : Heap) (p : Ptr) (s : Stepper) : Heap :=
  fun q => if q = p then s else h q

/-- Modelled from the spec: `Stepper::cmpDelta`, absent from the sources, is
the "largest distance" comparison of spec section 6, by which `doMove` sorts
"by descending absolute distance" (spec section 4.2, step 1). -/
def cmpDelta (h : Heap) (x y : Ptr) : Bool :=
  decide (|(h y).distance| < |(h x).distance|)

/-- Modelled from the spec: `Stepper::cmpV`, absent from the sources, is the
"lowest max speed" comparison of spec section 6, on `vMax` magnitudes (spec
section 4.2, step 3). -/
def cmpV (h : Heap) (x y : Ptr) : Bool :=
  decide (|(h x).vMax| < |(h y).vMax|)

/-- Modelled from the spec: `Stepper::cmpAcc`, absent from the sources, is the
"lowest acceleration" comparison of spec section 6. -/
def cmpAcc (h : Heap) (x y : Ptr) : Bool :=
  decide ((h x).a < (h y).a)

/-- Modelled from the spec: the periodic timer `StepTimer` (`PIT.h` is not
among the sources), with the interface of spec section 6: `setFrequency`,
`start`, `stop`, `isRunning`. -/
structure Timer where
  running : Bool
  frequency : Nat
  deriving DecidableEq, Repr

/-- What the engine does to its collaborators, in program order. -/
inductive Event where
  | timerStop
  | timerStart
  | timerSetFrequency (f : Nat)
  | prepareMovement (currentPos targetPos : Int) (targetSpeed acceleration : Nat)
  | updateSpeed (currentPosition : Int)
  | initiateStopping (currentPosition : Int)
  | trigger (ticks channel : Nat)
  | noInterrupts
  | interrupts
  | doStep (p : Ptr)
  | clearStepPin (p : Ptr)
  | callback (f : Nat)
  deriving DecidableEq, Repr

/-- The three pure-virtual hooks of `StepControlBase` (lines 47-49), supplied
by the subclass; `σ` is the subclass's own state. Each returns a `uint32_t`. -/
structure Hooks (σ : Type) where
  prepareMovement : σ → Int → Int → Nat → Nat → Nat × σ
  updateSpeed : σ → Int → Nat × σ
  initiateStopping : σ → Int → Nat × σ

/-- The configuration of one engine: the template parameters `pulseWidth` and
`accUpdatePeriod`, the two delay channel ids of `MotorControlBase.h`, and the
hooks. -/
structure Engine (σ : Type) where
  pulseWidth : Nat
  accUpdatePeriod : Nat
  pinResetDelayChannel : Nat
  accLoopDelayChannel : Nat
  hooks : Hooks σ

/-- The mutable state of the engine and of everything it touches. -/
structure Control (σ : Type) where
  heap : Heap
  motorList : List (Option Ptr)
  leadMotor : Option Ptr
  mCnt : Nat
  callback : Option Nat
  timer : Timer
  profile : σ
  trace : List Event

variable {σ : Type}

/-- Append one event to the trace. -/
def Control.emit (c : Control σ) (e : Event) : Control σ :=
  { c with trace := c.trace ++ [e] }

/-- The call `StepTimer.stop()`. -/
def Control.timerStop (c : Control σ) : Control σ :=
  { c with timer := { c.timer with running := false },
           trace := c.trace ++ [Event.timerStop] }

/-- The call `StepTimer.start()`. -/
def Control.timerStart (c : Control σ) : Control σ :=
  { c with timer := { c.timer with running := true },
           trace := c.trace ++ [Event.timerStart] }

/-- The call `StepTimer.setFrequency(f)`. -/
def Control.timerSetFrequency (c : Control σ) (f : Nat) : Control σ :=
  { c with timer := { c.timer with frequency := f },
           trace := c.trace ++ [Event.timerSetFrequency f] }

/-- The call `p->doStep()`. -/
def Control.doStep (c : Control σ) (p : Ptr) : Control σ :=
  { c with heap := c.heap.set p (c.heap p).doStep,
           trace := c.trace ++ [Event.doStep p] }

/-- The statement `p->B = v` for an `int32_t` value. -/
def Control.setB (c : Control σ) (p : Ptr) (v : Int) : Control σ :=
  { c with heap := c.heap.set p { c.heap p with B := wrapInt32 v } }

/-! ## The standard algorithms `doMove` calls -/

/-- One insertion of `std::sort`'s insertion sort (`__unguarded_linear_insert`,
`stl_algo.h` 1782-1797, and the move to the front of `__insertion_sort`,
1811-1815): `val` is moved left past every element it must precede; `rev` is
the sorted part, last element first. -/
def linearInsert {α : Type} (lt : α → α → Bool) (val : α) : List α → List α
  | [] => [val]
  | e :: rev => if lt val e then e :: linearInsert lt val rev else val :: e :: rev

/-- The library's `__insertion_sort` (`stl_algo.h` 1802-1821) of a range; the
result last element first. -/
def insertionSortRev {α : Type} (lt : α → α → Bool) (l : List α) : List α :=
  l.foldl (fun rev x => linearInsert lt x rev) []

/-- The library's `__final_insertion_sort` (`stl_algo.h` 1844-1855): the first
16 elements by `__insertion_sort`, each later one by
`__unguarded_linear_insert` into the sorted part before it. -/
def finalInsertionSort {α : Type} (lt : α → α → Bool) (l : List α) : List α :=
  ((l.drop 16).foldl (fun rev x => linearInsert lt x rev)
    (insertionSortRev lt (l.take 16))).reverse

/-- The call `std::iter_swap(first + i, first + j)`. -/
def iterSwap {α : Type} (l : List α) (i j : Nat) : List α :=
  match l[i]?, l[j]? with
  | some a, some b => (l.set i b).set j a
  | _, _ => l

/-- The library's `__move_median_to_first` (`stl_algo.h` 82-100), the iterators
given as indices into the range. -/
def moveMedianToFirst {α : Type} (lt : α → α → Bool) (l : List α)
    (result a b c : Nat) : List α :=
  match l[a]?, l[b]?, l[c]? with
  | some va, some vb, some vc =>
    if lt va vb then
      if lt vb vc then iterSwap l result b
      else if lt va vc then iterSwap l result c
      else iterSwap l result a
    else if lt va vc then iterSwap l result a
    else if lt vb vc then iterSwap l result c
    else iterSwap l result b
  | _, _, _ => l

/-- The scan `while (comp(first, pivot)) ++first` of `__unguarded_partition`
over the elements from `first` on; it ends at the end of the range at the
latest. -/
def scanUp {α : Type} (lt : α → α → Bool) (pivot : α) : List α → Nat → Nat
  | [], first => first
  | e :: es, first => if lt e pivot then scanUp lt pivot es (first + 1) else first

/-- The scan `while (comp(pivot, last)) --last` of `__unguarded_partition`; it
ends at slot 0, where the pivot is, at the latest. -/
def scanDown {α : Type} (lt : α → α → Bool) (pivot : α) (l : List α) : Nat → Nat
  | 0 => 0
  | last + 1 =>
    match l[last + 1]? with
    | some e => if lt pivot e then scanDown lt pivot l last else last + 1
    | none => last + 1

/-- The library's `__unguarded_partition` (`stl_algo.h` 1861-1878) with the
pivot in slot 0, which it does not write; every pass of the outer loop
advances `first`, `fuel` bounds their number. The result is the range and the
cut. -/
def unguardedPartition {α : Type} (lt : α → α → Bool) (pivot : α) :
    Nat → List α → Nat → Nat → List α × Nat
  | 0, l, first, _ => (l, first)
  | fuel + 1, l, first, last =>
    let first1 := scanUp lt pivot (l.drop first) first
    let last1 := scanDown lt pivot l (last - 1)
    if first1 < last1 then
      unguardedPartition lt pivot fuel (iterSwap l first1 last1) (first1 + 1) last1
    else (l, first1)

/-- The library's `__unguarded_partition_pivot` (`stl_algo.h` 1883-1890). -/
def unguardedPartitionPivot {α : Type} (lt : α → α → Bool) (l : List α) : List α × Nat :=
  let mid := l.length / 2
  let l1 := moveMedianToFirst lt l 0 1 mid (l.length - 1)
  match l1 with
  | [] => (l1, 0)
  | pivot :: _ => unguardedPartition lt pivot l1.length l1 1 l1.length

/-- The library's `__push_heap` (`stl_heap.h` 135-148); the hole moves up at
most `fuel` times. -/
def pushHeap {α : Type} (lt : α → α → Bool) (value : α) (topIndex : Nat) :
    Nat → List α → Nat → List α
  | 0, l, holeIndex => l.set holeIndex value
  | fuel + 1, l, holeIndex =>
    let parent := (holeIndex - 1) / 2
    match l[parent]? with
    | some p =>
      if topIndex < holeIndex && lt p value then
        pushHeap lt value topIndex fuel (l.set holeIndex p) parent
      else l.set holeIndex value
    | none => l.set holeIndex value

/-- The loop of `__adjust_heap` (`stl_heap.h` 230-238), in which `holeIndex`
and `secondChild` are equal at the top of every pass: the hole moves down to
its larger child; the result is the range and the hole. -/
def adjustHeapLoop {α : Type} (lt : α → α → Bool) (len : Nat) :
    Nat → List α → Nat → List α × Nat
  | 0, l, holeIndex => (l, holeIndex)
  | fuel + 1, l, holeIndex =>
    if holeIndex < (len - 1) / 2 then
      let secondChild := 2 * (holeIndex + 1)
      match l[secondChild]?, l[secondChild - 1]? with
      | some r, some s =>
        if lt r s then adjustHeapLoop lt len fuel (l.set holeIndex s) (secondChild - 1)
        else adjustHeapLoop lt len fuel (l.set holeIndex r) secondChild
      | _, _ => (l, holeIndex)
    else (l, holeIndex)

/-- The library's `__adjust_heap` (`stl_heap.h` 224-249). -/
def adjustHeap {α : Type} (lt : α → α → Bool) (l : List α) (holeIndex len : Nat)
    (value : α) : List α :=
  let r := adjustHeapLoop lt len len l holeIndex
  let r1 :=
    if len % 2 = 0 ∧ r.2 = (len - 2) / 2 then
      match r.1[2 * (r.2 + 1) - 1]? with
      | some s => (r.1.set r.2 s, 2 * (r.2 + 1) - 1)
      | none => r
    else r
  pushHeap lt value holeIndex len r1.1 r1.2

/-- The library's `__pop_heap(first, last, last)` (`stl_heap.h` 254-266). -/
def popHeap {α : Type} (lt : α → α → Bool) (l : List α) (last : Nat) : List α :=
  match l[last]?, l[0]? with
  | some value, some top => adjustHeap lt (l.set last top) 0 last value
  | _, _ => l

/-- The loop of `__make_heap` (`stl_heap.h` 352-361), from `parent` down to 0. -/
def makeHeapLoop {α : Type} (lt : α → α → Bool) (len : Nat) : Nat → List α → List α
  | 0, l =>
    match l[0]? with
    | some value => adjustHeap lt l 0 len value
    | none => l
  | parent + 1, l =>
    match l[parent + 1]? with
    | some value => makeHeapLoop lt len parent (adjustHeap lt l (parent + 1) len value)
    | none => l

/-- The library's `__make_heap` (`stl_heap.h` 340-362). -/
def makeHeap {α : Type} (lt : α → α → Bool) (l : List α) : List α :=
  if l.length < 2 then l else makeHeapLoop lt l.length ((l.length - 2) / 2) l

/-- The library's `__sort_heap` (`stl_heap.h` 419-427) on the first `last`
elements. -/
def sortHeap {α : Type} (lt : α → α → Bool) : Nat → List α → List α
  | 0, l => l
  | last + 1, l => if 1 < last + 1 then sortHeap lt last (popHeap lt l last) else l

/-- The library's `__partial_sort(first, last, last)` (`stl_algo.h` 1895-1902),
a heap sort of the range: `__heap_select` with `middle = last` is
`__make_heap` alone. -/
def partialSort {α : Type} (lt : α → α → Bool) (l : List α) : List α :=
  sortHeap lt l.length (makeHeap lt l)

/-- The library's `__introsort_loop` (`stl_algo.h` 1908-1926) on a range; the
two parts a partition leaves are disjoint, so the recursive call on the right
part and the further passes of the loop on the left part are independent. -/
def introsortLoop {α : Type} (lt : α → α → Bool) : Nat → List α → List α
  | 0, l => if 16 < l.length then partialSort lt l else l
  | depthLimit + 1, l =>
    if 16 < l.length then
      let r := unguardedPartitionPivot lt l
      introsortLoop lt depthLimit (r.1.take r.2) ++ introsortLoop lt depthLimit (r.1.drop r.2)
    else l

/-- The halving loop behind `lg`; `fuel` bounds the number of halvings. -/
def lgLoop : Nat → Nat → Nat
  | 0, _ => 0
  | fuel + 1, n => if n < 2 then 0 else lgLoop fuel (n / 2) + 1

/-- The library's `__lg(n)` (`stl_algobase.h`): the position of the highest set
bit of `n`, the integer part of its binary logarithm. -/
def lg (n : Nat) : Nat := lgLoop n n

/-- The call `std::sort(first, last, comp)` as the library of the GCC toolchain
runs it (`__sort`, `stl_algo.h` 1932-1942): `__introsort_loop` with depth limit
`2 * __lg(last - first)`, which leaves a range of at most 16 elements as it
is, then `__final_insertion_sort`. -/
def stdSort {α : Type} (lt : α → α → Bool) (l : List α) : List α :=
  match l with
  | [] => []
  | _ :: _ => finalInsertionSort lt (introsortLoop lt (lg l.length * 2) l)

/-- The call `std::min_element(first, last, comp)`: the first smallest element,
`none` standing for `last` on an empty range. -/
def minElement {α : Type} (lt : α → α → Bool) : List α → Option α
  | [] => none
  | x :: xs => some (xs.foldl (fun m y => if lt y m then y else m) x)

/-- All entries of a range of nullable pointers, when none is null. -/
def allSome {α : Type} : List (Option α) → Option (List α)
  | [] => some []
  | none :: _ => none
  | some x :: l =>
    match allSome l with
    | none => none
    | some xs => some (x :: xs)

/-! ## `pitISR` (lines 81-104) -/

/-- The body of the slave loop (lines 89-94) for the slave `p`. -/
def slaveBody (lead p : Ptr) (c : Control σ) : Control σ :=
  let c1 :=
    if 0 ≤ (c.heap p).B then
      let c' := c.doStep p
      c'.setB p ((c'.heap p).B - (c'.heap lead).distance)
    else c
  c1.setB p ((c1.heap p).B + (c1.heap p).distance)

/-- The slave loop `while (*(++slave) != nullptr)` (lines 87-95), on the slots
that follow slot 0. Running off the end of the list is undefined. -/
def slaveLoop (lead : Ptr) : List (Option Ptr) → Control σ → Option (Control σ)
  | [], _ => none
  | none :: _, c => some c
  | some p :: slots, c => slaveLoop lead slots (slaveBody lead p c)

/-- The completion check of `pitISR` (lines 98-103). -/
def completionCheck (lead : Ptr) (c : Control σ) : Control σ :=
  if (c.heap lead).current = (c.heap lead).target then
    let c1 := c.timerStop
    match c1.callback with
    | none => c1
    | some f => c1.emit (Event.callback f)
  else c

/-- The step handler `pitISR` (lines 81-104). -/
def pitISR (E : Engine σ) (c : Control σ) : Option (Control σ) :=
  match c.leadMotor with
  | none => none
  | some lead =>
    match slaveLoop lead (c.motorList.drop 1) (c.doStep lead) with
    | none => none
    | some c1 =>
      some (completionCheck lead (c1.emit (Event.trigger E.pulseWidth E.pinResetDelayChannel)))

/-! ## `delayISR` (lines 106-131) -/

/-- The loop `while ((*motor) != nullptr) (*motor++)->clearStepPin()`
(lines 112-116). -/
def clearLoop : List (Option Ptr) → Control σ → Option (Control σ)
  | [], _ => none
  | none :: _, c => some c
  | some p :: slots, c =>
    clearLoop slots
      { c with heap := c.heap.set p (c.heap p).clearStepPin,
               trace := c.trace ++ [Event.clearStepPin p] }

/-- The acceleration branch of `delayISR` (lines 120-130). -/
def accLoop (E : Engine σ) (c : Control σ) : Option (Control σ) :=
  if c.timer.running then
    match c.leadMotor with
    | none => none
    | some lead =>
      let c1 := ((c.emit Event.noInterrupts).emit
        (Event.trigger E.accUpdatePeriod E.accLoopDelayChannel)).emit Event.interrupts
      let r := E.hooks.updateSpeed c1.profile (c1.heap lead).current
      let c2 := { c1 with profile := r.2,
                          trace := c1.trace ++ [Event.updateSpeed (c1.heap lead).current] }
      some (c2.timerSetFrequency r.1)
  else some c

/-- The delay handler `delayISR(channel)` (lines 106-131). -/
def delayISR (E : Engine σ) (channel : Nat) (c : Control σ) : Option (Control σ) :=
  match (if channel = E.pinResetDelayChannel then clearLoop c.motorList c else some c) with
  | none => none
  | some c1 => if channel = E.accLoopDelayChannel then accLoop E c1 else some c1

/-! ## `doMove` (lines 54-78) -/

/-- The Bresenham initialisation of one slave (line 63). -/
def initB (lead : Ptr) (c : Control σ) (p : Ptr) : Control σ :=
  c.setB p (2 * (c.heap p).distance - (c.heap lead).distance)

/-- Lines 58-64 of `doMove`: sort the first `N` slots, take slot 0 as the
lead, initialise the error term of slots `1 .. N-1`. -/
def doMoveBresenham (N : Nat) (c : Control σ) : Option (Control σ × List Ptr × Ptr) :=
  if c.motorList.length < N then none
  else
    match allSome (c.motorList.take N) with
    | none => none
    | some ptrs =>
      let sorted := stdSort (cmpDelta c.heap) ptrs
      let c1 := { c with motorList := sorted.map some ++ c.motorList.drop N }
      match c1.motorList.head? with
      | some (some lead) =>
        let c2 := { c1 with leadMotor := some lead }
        some ((sorted.drop 1).foldl (initB lead) c2, sorted, lead)
      | _ => none

/-- The target speed of line 67. -/
def targetSpeed (h : Heap) (sorted : List Ptr) (lead : Ptr) : Nat :=
  wrapUInt32 (h ((minElement (cmpV h) sorted).getD lead)).vMax.natAbs

/-- The acceleration of line 68. -/
def acceleration (h : Heap) (sorted : List Ptr) (lead : Ptr) : Nat :=
  (h ((minElement (cmpAcc h) sorted).getD lead)).a

/-- Lines 72-74 of `doMove`: stop the timer, program it with the frequency
`prepareMovement` returns, start it. -/
def startTimer (E : Engine σ) (lead : Ptr) (speed acc : Nat) (c : Control σ) : Control σ :=
  let c1 := c.timerStop
  let r := E.hooks.prepareMovement c1.profile (c1.heap lead).current (c1.heap lead).target speed acc
  let c2 := { c1 with profile := r.2,
                      trace := c1.trace ++ [Event.prepareMovement (c1.heap lead).current
                        (c1.heap lead).target speed acc] }
  (c2.timerSetFrequency r.1).timerStart

/-- The move-start operation `doMove(N)` (lines 54-78). -/
def doMove (E : Engine σ) (N : Nat) (c : Control σ) : Option (Control σ) :=
  match doMoveBresenham N c with
  | none => none
  | some (c1, sorted, lead) =>
    let speed := targetSpeed c1.heap sorted lead
    let acc := acceleration c1.heap sorted lead
    if (c1.heap lead).distance = 0 ∨ speed = 0 then some c1
    else
      match pitISR E (startTimer E lead speed acc c1) with
      | none => none
      | some c2 => delayISR E E.accLoopDelayChannel c2

/-! ## `moveAsync` and `stopAsync` -/

/-- The statement `motorList[i] = v`; a write outside the slots of the list
(`MaxMotors + 1` of them) is undefined. -/
def writeSlot (i : Nat) (v : Option Ptr) (c : Control σ) : Option (Control σ) :=
  if i < c.motorList.length then some { c with motorList := c.motorList.set i v } else none

/-- The single-axis `moveAsync(stepper)` (lines 135-142). -/
def moveAsync (E : Engine σ) (stepper : Ptr) (c : Control σ) : Option (Control σ) :=
  match writeSlot c.mCnt (some stepper) c with
  | none => none
  | some c1 =>
    let c2 := { c1 with mCnt := c1.mCnt + 1 }
    match writeSlot c2.mCnt none c2 with
    | none => none
    | some c3 =>
      match doMove E c3.mCnt c3 with
      | none => none
      | some c4 => some { c4 with mCnt := 0 }

/-- The cancellation `stopAsync()` (lines 190-195). -/
def stopAsync (E : Engine σ) (c : Control σ) : Option (Control σ) :=
  match c.leadMotor with
  | none => none
  | some lead =>
    let r := E.hooks.initiateStopping c.profile (c.heap lead).current
    let newTarget := wrapUInt32 r.1
    let c1 := { c with profile := r.2,
                       trace := c.trace ++ [Event.initiateStopping (c.heap lead).current] }
    some { c1 with heap := c1.heap.set lead { c1.heap lead with target := wrapInt32 newTarget } }

/-- The step handler invoked `k` times in a row. -/
def pitISRs (E : Engine σ) : Nat → Control σ → Option (Control σ)
  | 0, c => some c
  | k + 1, c =>
    match pitISR E c with
    | none => none
    | some c1 => pitISRs E k c1

/-- The step handler invoked for as long as the timer runs, at most `fuel`
times; `none` when the timer still runs after `fuel` invocations. -/
def runToStop (E : Engine σ) : Nat → Control σ → Option (Control σ)
  | fuel, c =>
    if c.timer.running = false then some c
    else
      match fuel with
      | 0 => none
      | fuel + 1 =>
        match pitISR E c with
        | none => none
        | some c1 => runToStop E fuel c1

/-! ## Closed forms used in the proofs -/

/-- The heap after the Bresenham initialisation (lines 61-64) of `slaves`. -/
def initHeap (h : Heap) (lead : Ptr) (slaves : List Ptr) : Heap :=
  fun q => if q ∈ slaves then
    { h q with B := wrapInt32 (2 * (h q).distance - (h lead).distance) } else h q

/-- What one pass of the slave loop does to a slave axis that is not the lead,
`D` being the lead's distance. -/
def slaveTick (D : Int) (s : Stepper) : Stepper :=
  let s1 := if 0 ≤ s.B then { s.doStep with B := wrapInt32 (s.B - D) } else s
  { s1 with B := wrapInt32 (s1.B + s1.distance) }

/-- The heap after one `pitISR` on distinct axes. -/
def tickHeap (h : Heap) (lead : Ptr) (slaves : List Ptr) : Heap :=
  fun q => if q = lead then (h q).doStep
    else if q ∈ slaves then slaveTick (h lead).distance (h q) else h q

/-- The steps the slave loop emits in one `pitISR`. -/
def slaveEvents (h : Heap) (slaves : List Ptr) : List Event :=
  (slaves.filter (fun p => decide (0 ≤ (h p).B))).map Event.doStep

/-- The state after one `pitISR` on distinct axes. -/
def tick (E : Engine σ) (lead : Ptr) (slaves : List Ptr) (c : Control σ) : Control σ :=
  completionCheck lead
    { c with heap := tickHeap c.heap lead slaves,
             trace := c.trace ++ (Event.doStep lead :: slaveEvents c.heap slaves ++
               [Event.trigger E.pulseWidth E.pinResetDelayChannel]) }

/-- The fields of the axes that the engine only reads. -/
def SameAxes (h h' : Heap) : Prop :=
  ∀ q, (h' q).distance = (h q).distance ∧ (h' q).target = (h q).target ∧
    (h' q).vMax = (h q).vMax ∧ (h' q).a = (h q).a ∧ (h' q).dir = (h q).dir

/-- The slave loop as a fold over the slaves. -/
def slaveFold (lead : Ptr) (slaves : List Ptr) (c : Control σ) : Control σ :=
  slaves.foldl (fun c p => slaveBody lead p c) c

/-- The events of one `pitISR` are steps, one trigger, and on completion a
timer stop and the callback. -/
def Event.isTickEvent : Event → Bool
  | Event.doStep _ => true
  | Event.trigger _ _ => true
  | Event.timerStop => true
  | Event.callback _ => true
  | _ => false

/-- The fields of the axes that decide the motion: everything but the pin. -/
def SameMotion (h h' : Heap) : Prop :=
  SameAxes h h' ∧ ∀ q, (h' q).current = (h q).current ∧ (h' q).B = (h q).B

/-- The events `delayISR` can emit. -/
def Event.isDelayEvent : Event → Bool
  | Event.clearStepPin _ => true
  | Event.noInterrupts => true
  | Event.interrupts => true
  | Event.trigger _ _ => true
  | Event.updateSpeed _ => true
  | Event.timerSetFrequency _ => true
  | _ => false

/-- The event is an invocation of the completion callback. -/
def Event.isCallback : Event → Bool
  | Event.callback _ => true
  | _ => false

/-- The event is a call of `prepareMovement`. -/
def Event.isPrepareMovement : Event → Bool
  | Event.prepareMovement _ _ _ _ => true
  | _ => false

/-- The state `doMove` reaches at line 65 when the sort has put `lead` first
and `slaves` after it. -/
def sortedState (c : Control σ) (lead : Ptr) (slaves : List Ptr)
    (rest : List (Option Ptr)) : Control σ :=
  { c with motorList := (lead :: slaves).map some ++ none :: rest,
           leadMotor := some lead,
           heap := initHeap c.heap lead slaves }

/-- The events of the completion check (lines 98-103) in a state whose lead
is `lead`: a timer stop and the registered callback when the lead is at its
target, nothing otherwise. -/
def completionEvents (c : Control σ) (lead : Ptr) : List Event :=
  if (c.heap lead).current = (c.heap lead).target then
    Event.timerStop :: c.callback.toList.map Event.callback
  else []

/-! ## The invariant of a running move -/

/-- An axis as a target assignment leaves it: `distance` is `|target - current|`,
`dir` points from `current` to `target`, and the `int32_t` fields hold values
of that type. -/
structure AxisReady (s : Stepper) : Prop where
  cur : isInt32 s.current
  tgt : isInt32 s.target
  dist : isInt32 s.distance
  nonneg : 0 ≤ s.distance
  dir : s.dir = 1 ∨ s.dir = -1
  geom : s.target = s.current + s.dir * s.distance
  speed : isInt32 s.vMax

/-- The axes of a move at the moment the timer is started: distinct, the lead
with a positive distance, every slave with a distance of at most the lead's
and the error term of line 63. -/
structure MoveSetup (lead : Ptr) (slaves : List Ptr) (h0 : Heap) : Prop where
  lead_notin : lead ∉ slaves
  nodup : slaves.Nodup
  pos : 0 < (h0 lead).distance
  leadOK : AxisReady (h0 lead)
  slaveOK : ∀ p ∈ slaves, AxisReady (h0 p) ∧ (h0 p).distance ≤ (h0 lead).distance ∧
    (h0 p).B = 2 * (h0 p).distance - (h0 lead).distance

/-- A slave axis after `k` step-handler invocations in which it made `n`
steps; `s0` is the axis when the timer was started, `D` the lead's distance. -/
structure SlaveInv (D : Int) (s0 : Stepper) (k n : Nat) (s : Stepper) : Prop where
  le_k : n ≤ k
  le_d : (n : Int) ≤ s0.distance
  B_eq : s.B = ((k : Int) + 2) * s0.distance - D - (n : Int) * D
  B_lo : s0.distance - D ≤ s.B
  B_hi : s.B ≤ s0.distance
  cur_eq : s.current = s0.current + (n : Int) * s0.dir

/-- The engine after `k` step-handler invocations of a move; `h0` is the heap
and `t0` the trace when the timer was started, `cb` the callback, `evs` the
events since. -/
structure MoveInv (lead : Ptr) (slaves : List Ptr) (rest : List (Option Ptr)) (h0 : Heap)
    (cb : Option Nat) (t0 : List Event) (k : Nat) (evs : List Event) (c : Control σ) :
    Prop where
  motorList : c.motorList = some lead :: (slaves.map some ++ none :: rest)
  leadMotor : c.leadMotor = some lead
  callback : c.callback = cb
  trace : c.trace = t0 ++ evs
  axes : SameAxes h0 c.heap
  running : c.timer.running = decide ((k : Int) < (h0 lead).distance)
  leadCur : (c.heap lead).current = (h0 lead).current + (k : Int) * (h0 lead).dir
  leadSteps : evs.count (Event.doStep lead) = k
  slave : ∀ p ∈ slaves,
    SlaveInv (h0 lead).distance (h0 p) k (evs.count (Event.doStep p)) (c.heap p)
  others : ∀ q, q ≠ lead → q ∉ slaves → (c.heap q).current = (h0 q).current
  callbacks : evs.filter Event.isCallback =
    if (k : Int) = (h0 lead).distance then cb.toList.map Event.callback else []
  stops : evs.count Event.timerStop = if (k : Int) = (h0 lead).distance then 1 else 0

/-! ## Concrete moves -/

/-- An axis at position 0 that was asked to go `d` steps forward. -/
def axisAt0 (d vMax : Int) (a : Nat) : Stepper :=
  { current := 0, target := d, distance := d, B := 0, vMax := vMax, a := a, dir := 1,
    stepPin := false }

/-- A speed profile that runs at the target speed and stops one step ahead. -/
def flatHooks : Hooks Unit :=
  { prepareMovement := fun _ _ _ speed _ => (speed, ()),
    updateSpeed := fun _ _ => (1000, ()),
    initiateStopping := fun _ cur => ((cur + 1).toNat, ()) }

/-- An engine with pulse width 5 and update period 5000. -/
def flatEngine : Engine Unit :=
  { pulseWidth := 5, accUpdatePeriod := 5000, pinResetDelayChannel := 0,
    accLoopDelayChannel := 1, hooks := flatHooks }

/-- An idle engine state with the given axes and active-axis list. -/
def idle (h : Heap) (motorList : List (Option Ptr)) (callback : Option Nat) : Control Unit :=
  { heap := h, motorList := motorList, leadMotor := none, mCnt := 0, callback := callback,
    timer := { running := false, frequency := 0 }, profile := (), trace := [] }

/-- Three axes with distances 50, 50 and 10 (and a fourth, unused). -/
def heap505010 : Heap := fun p =>
  if p = 0 then axisAt0 50 1000 2000 else if p = 1 then axisAt0 50 800 3000
  else axisAt0 10 900 1500

/-- The three axes staged in the order 0, 1, 2. -/
def staged505010 : Control Unit :=
  idle heap505010 [some 0, some 1, some 2, none, none] (some 7)

/-- Two axes with distances 3 and 10; the first has `vMax` 0. -/
def heapAbort : Heap := fun p =>
  if p = 0 then axisAt0 3 0 2000 else axisAt0 10 1000 2000

/-- The two axes staged in the order 0, 1. -/
def stagedAbort : Control Unit :=
  idle heapAbort [some 0, some 1, none] (some 7)

/-- One axis that has nowhere to go. -/
def heapZero : Heap := fun _ => axisAt0 0 1000 2000

/-- The axis with distance 0 staged alone. -/
def stagedZero : Control Unit :=
  idle heapZero [some 0, none, none] (some 7)

/-- One axis with distance 10, staged alone, callback 7 registered. -/
def stagedTen : Control Unit :=
  idle (fun _ => axisAt0 10 1000 2000) [some 0, none, none] (some 7)

/-- What a run shows of the completion: whether the timer runs and how often
callback `f` has been invoked. -/
def completionReport (f : Nat) (c : Control σ) : Bool × Nat :=
  (c.timer.running, c.trace.count (Event.callback f))

/-- The event is a trigger of a delay channel. -/
def Event.isTrigger : Event → Bool
  | Event.trigger _ _ => true
  | _ => false

/-- The move of one axis by 10 steps, under way: lead set, timer running. -/
def runningTen : Control Unit :=
  { stagedTen with leadMotor := some 0, timer := { running := true, frequency := 800 } }

/-- One axis with distance 1, staged alone, callback 7 registered. -/
def stagedOne : Control Unit :=
  idle (fun _ => axisAt0 1 1000 2000) [some 0, none, none] (some 7)

/-- The events of the acceleration branch of `delayISR` when the timer runs,
the lead being at `cur` and `updateSpeed` returning `f`. -/
def accEvents (E : Engine σ) (cur : Int) (f : Nat) : List Event :=
  [Event.noInterrupts, Event.trigger E.accUpdatePeriod E.accLoopDelayChannel,
    Event.interrupts, Event.updateSpeed cur, Event.timerSetFrequency f]

/-- Two axes with distances 100 and 30, equal `vMax` and acceleration. -/
def heap10030 : Heap := fun p =>
  if p = 0 then axisAt0 100 1000 2000 else axisAt0 30 1000 2000

/-- The two axes staged in the order 0, 1. -/
def staged10030 : Control Unit :=
  idle heap10030 [some 0, some 1, none] (some 7)

/-- The error term `B` of a slave with distance `d`, the lead's being `D`, is
within its bounds, and the `int32_t` computations the slave loop makes on it
(`B - D` and then `+ d` when `B ≥ 0`, `B + d` otherwise) stay within `[-D, d]`
and are exact. -/
def ErrorTermSafe (d D B : Int) : Prop :=
  d - D ≤ B ∧ B ≤ d ∧
  (0 ≤ B → -D ≤ B - D ∧ B - D ≤ d ∧ wrapInt32 (B - D) = B - D ∧
    wrapInt32 (B - D + d) = B - D + d) ∧
  (B < 0 → wrapInt32 (B + d) = B + d)

/-! ## The variadic and the array form of `moveAsync` -/

/-- The variadic `moveAsync(stepper, steppers...)` (lines 144-152):
`motorList[mCnt++] = &stepper`, then the call on the rest of the arguments,
which is the single-axis `moveAsync` when one argument is left. Its
`static_assert` bounds the number of arguments at compile time. -/
def moveAsyncVariadic (E : Engine σ) : Ptr → List Ptr → Control σ → Option (Control σ)
  | stepper, [], c => moveAsync E stepper c
  | stepper, s :: steppers, c =>
    match writeSlot c.mCnt (some stepper) c with
    | none => none
    | some c1 => moveAsyncVariadic E s steppers { c1 with mCnt := c1.mCnt + 1 }

/-- The loop `for (i = 0; i < N; i++) motorList[i] = motors[i]` (lines 160-163),
from index `i` on. -/
def writeSlots : Nat → List (Option Ptr) → Control σ → Option (Control σ)
  | _, [], c => some c
  | i, v :: vs, c =>
    match writeSlot i v c with
    | none => none
    | some c1 => writeSlots (i + 1) vs c1

/-- The array form `moveAsync(motors)` (lines 154-166) for an array of `N`
axis pointers. Its `static_assert` bounds `N` at compile time. -/
def moveAsyncArray (E : Engine σ) (motors : List (Option Ptr)) (c : Control σ) :
    Option (Control σ) :=
  match writeSlots 0 motors c with
  | none => none
  | some c1 =>
    match writeSlot motors.length none c1 with
    | none => none
    | some c2 => doMove E motors.length c2

/-- The state with `mCnt` replaced. -/
def Control.withMCnt (c : Control σ) (m : Nat) : Control σ :=
  { c with mCnt := m }

/-- An idle engine with five slots, none in use. -/
def idleFive : Control Unit :=
  idle heap505010 [none, none, none, none, none] (some 7)

/-- A speed profile that runs at the target speed and stops three steps ahead. -/
def aheadHooks : Hooks Unit :=
  { prepareMovement := fun _ _ _ speed _ => (speed, ()),
    updateSpeed := fun _ _ => (1000, ()),
    initiateStopping := fun _ cur => ((cur + 3).toNat, ()) }

/-- An engine with pulse width 5 and update period 5000 whose profile stops
three steps ahead. -/
def aheadEngine : Engine Unit :=
  { pulseWidth := 5, accUpdatePeriod := 5000, pinResetDelayChannel := 0,
    accLoopDelayChannel := 1, hooks := aheadHooks }

/-- Seventeen axes: axes 0 and 1 have distance 50, the others distance 10. -/
def heap17 : Heap := fun p =>
  if p = 0 then axisAt0 50 1000 2000 else if p = 1 then axisAt0 50 1000 2000
  else axisAt0 10 1000 2000

/-- The seventeen axes staged in the order 0, 1, ..., 16. -/
def staged17 : Control Unit :=
  idle heap17 [some 0, some 1, some 2, some 3, some 4, some 5, some 6, some 7, some 8,
    some 9, some 10, some 11, some 12, some 13, some 14, some 15, some 16, none] (some 7)

/-! ## Sorting and minimum selection -/

theorem linearInsert_perm {α : Type} (lt : α → α → Bool) (v : α) (l : List α) :
    (linearInsert lt v l).Perm (v :: l) := by
  induction l with
  | nil => exact List.Perm.refl _
  | cons e l ih =>
    unfold linearInsert
    split
    · exact (List.Perm.cons e ih).trans (List.Perm.swap v e l)
    · exact List.Perm.refl _

theorem foldl_linearInsert_perm {α : Type} (lt : α → α → Bool) (l rev : List α) :
    (l.foldl (fun rev x => linearInsert lt x rev) rev).Perm (l ++ rev) := by
  induction l generalizing rev with
  | nil => exact List.Perm.refl _
  | cons x l ih =>
    simp only [List.foldl_cons, List.cons_append]
    refine (ih _).trans ?_
    refine (List.Perm.append_left l (linearInsert_perm lt x rev)).trans ?_
    exact List.perm_middle

/-- The final insertion sort is one insertion sort of the whole range. -/
theorem finalInsertionSort_eq {α : Type} (lt : α → α → Bool) (l : List α) :
    finalInsertionSort lt l = (insertionSortRev lt l).reverse := by
  unfold finalInsertionSort insertionSortRev
  rw [← List.foldl_append, List.take_append_drop]

theorem set_cons_perm {α : Type} (l : List α) (j : Nat) (a b : α) (hj : l[j]? = some b) :
    (b :: l.set j a).Perm (a :: l) := by
  induction l generalizing j with
  | nil => simp at hj
  | cons c t ih =>
    cases j with
    | zero =>
      simp only [List.getElem?_cons_zero, Option.some.injEq] at hj
      subst hj
      exact List.Perm.swap _ _ _
    | succ j =>
      simp only [List.getElem?_cons_succ] at hj
      simp only [List.set_cons_succ]
      exact ((List.Perm.swap c b _).trans (List.Perm.cons c (ih j hj))).trans
        (List.Perm.swap a c t)

theorem set_set_perm {α : Type} (l : List α) (i j : Nat) (a b : α) (hi : l[i]? = some a)
    (hj : l[j]? = some b) : ((l.set i b).set j a).Perm l := by
  induction l generalizing i j with
  | nil => simp at hi
  | cons c t ih =>
    cases i with
    | zero =>
      simp only [List.getElem?_cons_zero, Option.some.injEq] at hi
      subst hi
      cases j with
      | zero =>
        simp only [List.getElem?_cons_zero, Option.some.injEq] at hj
        subst hj
        simp
      | succ j =>
        simp only [List.getElem?_cons_succ] at hj
        simp only [List.set_cons_zero, List.set_cons_succ]
        exact set_cons_perm t j c b hj
    | succ i =>
      simp only [List.getElem?_cons_succ] at hi
      cases j with
      | zero =>
        simp only [List.getElem?_cons_zero, Option.some.injEq] at hj
        subst hj
        simp only [List.set_cons_zero, List.set_cons_succ]
        exact set_cons_perm t i c a hi
      | succ j =>
        simp only [List.getElem?_cons_succ] at hj
        simp only [List.set_cons_succ]
        exact List.Perm.cons c (ih i j hi hj)

theorem iterSwap_perm {α : Type} (l : List α) (i j : Nat) : (iterSwap l i j).Perm l := by
  unfold iterSwap
  split
  · rename_i a b hi hj
    exact set_set_perm l i j a b hi hj
  · exact List.Perm.refl _

theorem moveMedianToFirst_perm {α : Type} (lt : α → α → Bool) (l : List α)
    (result a b c : Nat) : (moveMedianToFirst lt l result a b c).Perm l := by
  unfold moveMedianToFirst
  split
  · split_ifs <;> exact iterSwap_perm _ _ _
  · exact List.Perm.refl _

theorem unguardedPartition_perm {α : Type} (lt : α → α → Bool) (pivot : α) (fuel : Nat)
    (l : List α) (first last : Nat) :
    (unguardedPartition lt pivot fuel l first last).1.Perm l := by
  induction fuel generalizing l first last with
  | zero => exact List.Perm.refl _
  | succ fuel ih =>
    unfold unguardedPartition
    dsimp only
    split
    · exact (ih _ _ _).trans (iterSwap_perm _ _ _)
    · exact List.Perm.refl _

theorem unguardedPartitionPivot_perm {α : Type} (lt : α → α → Bool) (l : List α) :
    (unguardedPartitionPivot lt l).1.Perm l := by
  unfold unguardedPartitionPivot
  dsimp only
  split
  · exact moveMedianToFirst_perm _ _ _ _ _ _
  · exact (unguardedPartition_perm _ _ _ _ _ _).trans (moveMedianToFirst_perm _ _ _ _ _ _)

/-- Moving the element of slot `j` into the hole and the hole to slot `j`
permutes the range in which the hole holds `value`. -/
theorem set_move_perm {α : Type} (l : List α) (hole j : Nat) (p value : α)
    (hh : hole < l.length) (hj : l[j]? = some p) :
    ((l.set hole p).set j value).Perm (l.set hole value) := by
  by_cases hjh : j = hole
  · subst hjh
    rw [List.set_set]
  · have h1 : (l.set hole value)[hole]? = some value := by
      simp [List.getElem?_set, hh]
    have h2 : (l.set hole value)[j]? = some p := by
      rw [List.getElem?_set_ne (fun h => hjh h.symm)]
      exact hj
    have := set_set_perm (l.set hole value) hole j value p h1 h2
    rwa [List.set_set] at this

theorem pushHeap_perm {α : Type} (lt : α → α → Bool) (value : α) (topIndex fuel : Nat)
    (l : List α) (holeIndex : Nat) (hh : holeIndex < l.length) :
    (pushHeap lt value topIndex fuel l holeIndex).Perm (l.set holeIndex value) := by
  induction fuel generalizing l holeIndex with
  | zero => exact List.Perm.refl _
  | succ fuel ih =>
    unfold pushHeap
    dsimp only
    split
    · rename_i p hp
      split
      · have hlen : (holeIndex - 1) / 2 < (l.set holeIndex p).length := by
          rw [List.length_set]
          omega
        exact (ih (l.set holeIndex p) ((holeIndex - 1) / 2) hlen).trans
          (set_move_perm l holeIndex _ p value hh hp)
      · exact List.Perm.refl _
    · exact List.Perm.refl _

theorem adjustHeapLoop_perm {α : Type} (lt : α → α → Bool) (len fuel : Nat) (l : List α)
    (holeIndex : Nat) (value : α) (hh : holeIndex < l.length) :
    (adjustHeapLoop lt len fuel l holeIndex).2 < (adjustHeapLoop lt len fuel l holeIndex).1.length ∧
    ((adjustHeapLoop lt len fuel l holeIndex).1.set
      (adjustHeapLoop lt len fuel l holeIndex).2 value).Perm (l.set holeIndex value) := by
  induction fuel generalizing l holeIndex with
  | zero => exact ⟨hh, List.Perm.refl _⟩
  | succ fuel ih =>
    unfold adjustHeapLoop
    split
    · dsimp only
      split
      · rename_i r s hr hs
        have hs1 : 2 * (holeIndex + 1) - 1 < l.length := (List.getElem?_eq_some.1 hs).1
        have hr1 : 2 * (holeIndex + 1) < l.length := (List.getElem?_eq_some.1 hr).1
        split
        · obtain ⟨a1, a2⟩ := ih (l.set holeIndex s) (2 * (holeIndex + 1) - 1)
            (by rw [List.length_set]; exact hs1)
          exact ⟨a1, a2.trans (set_move_perm l holeIndex _ s value hh hs)⟩
        · obtain ⟨a1, a2⟩ := ih (l.set holeIndex r) (2 * (holeIndex + 1))
            (by rw [List.length_set]; exact hr1)
          exact ⟨a1, a2.trans (set_move_perm l holeIndex _ r value hh hr)⟩
      · exact ⟨hh, List.Perm.refl _⟩
    · exact ⟨hh, List.Perm.refl _⟩

theorem adjustHeap_perm {α : Type} (lt : α → α → Bool) (l : List α) (holeIndex len : Nat)
    (value : α) (hh : holeIndex < l.length) :
    (adjustHeap lt l holeIndex len value).Perm (l.set holeIndex value) := by
  obtain ⟨a1, a2⟩ := adjustHeapLoop_perm lt len len l holeIndex value hh
  unfold adjustHeap
  dsimp only
  split
  · split
    · rename_i s hs
      have hs1 := (List.getElem?_eq_some.1 hs).1
      refine (pushHeap_perm lt value holeIndex len _ _ ?_).trans ?_
      · rw [List.length_set]; exact hs1
      · exact (set_move_perm _ _ _ s value a1 hs).trans a2
    · exact (pushHeap_perm lt value holeIndex len _ _ a1).trans a2
  · exact (pushHeap_perm lt value holeIndex len _ _ a1).trans a2

theorem set_of_getElem_some {α : Type} (l : List α) (i : Nat) (v : α) (h : l[i]? = some v) :
    l.set i v = l := by
  induction l generalizing i with
  | nil => rfl
  | cons c t ih =>
    cases i with
    | zero =>
      simp only [List.getElem?_cons_zero, Option.some.injEq] at h
      subst h
      rfl
    | succ i =>
      simp only [List.getElem?_cons_succ] at h
      simp only [List.set_cons_succ, ih i h]

theorem popHeap_perm {α : Type} (lt : α → α → Bool) (l : List α) (last : Nat) :
    (popHeap lt l last).Perm l := by
  unfold popHeap
  split
  · rename_i value top hv ht
    have h0 : 0 < (l.set last top).length := by
      rw [List.length_set]
      exact (List.getElem?_eq_some.1 ht).1
    exact (adjustHeap_perm lt _ 0 last value h0).trans (set_set_perm l last 0 value top hv ht)
  · exact List.Perm.refl _

theorem makeHeapLoop_perm {α : Type} (lt : α → α → Bool) (len parent : Nat) (l : List α) :
    (makeHeapLoop lt len parent l).Perm l := by
  induction parent generalizing l with
  | zero =>
    unfold makeHeapLoop
    split
    · rename_i value hv
      have := adjustHeap_perm lt l 0 len value (List.getElem?_eq_some.1 hv).1
      rwa [set_of_getElem_some l 0 value hv] at this
    · exact List.Perm.refl _
  | succ parent ih =>
    unfold makeHeapLoop
    split
    · rename_i value hv
      have := adjustHeap_perm lt l (parent + 1) len value (List.getElem?_eq_some.1 hv).1
      rw [set_of_getElem_some l _ value hv] at this
      exact (ih _).trans this
    · exact List.Perm.refl _

theorem makeHeap_perm {α : Type} (lt : α → α → Bool) (l : List α) :
    (makeHeap lt l).Perm l := by
  unfold makeHeap
  split
  · exact List.Perm.refl _
  · exact makeHeapLoop_perm _ _ _ _

theorem sortHeap_perm {α : Type} (lt : α → α → Bool) (last : Nat) (l : List α) :
    (sortHeap lt last l).Perm l := by
  induction last generalizing l with
  | zero => exact List.Perm.refl _
  | succ last ih =>
    unfold sortHeap
    split
    · exact (ih _).trans (popHeap_perm lt l last)
    · exact List.Perm.refl _

theorem partialSort_perm {α : Type} (lt : α → α → Bool) (l : List α) :
    (partialSort lt l).Perm l :=
  (sortHeap_perm lt _ _).trans (makeHeap_perm lt l)

theorem introsortLoop_perm {α : Type} (lt : α → α → Bool) (depthLimit : Nat) (l : List α) :
    (introsortLoop lt depthLimit l).Perm l := by
  induction depthLimit generalizing l with
  | zero =>
    unfold introsortLoop
    split
    · exact partialSort_perm lt l
    · exact List.Perm.refl _
  | succ d ih =>
    unfold introsortLoop
    split
    · dsimp only
      refine ((ih _).append (ih _)).trans ?_
      rw [List.take_append_drop]
      exact unguardedPartitionPivot_perm lt l
    · exact List.Perm.refl _

/-- A range of at most 16 elements is left to the final insertion sort. -/
theorem introsortLoop_short {α : Type} (lt : α → α → Bool) (depthLimit : Nat) (l : List α)
    (h : l.length ≤ 16) : introsortLoop lt depthLimit l = l := by
  cases depthLimit <;> simp [introsortLoop, Nat.not_lt.2 h]

/-- On a range of at most 16 elements `std::sort` is the insertion sort. -/
theorem stdSort_short {α : Type} (lt : α → α → Bool) (l : List α) (h : l.length ≤ 16) :
    stdSort lt l = (insertionSortRev lt l).reverse := by
  cases l with
  | nil => rfl
  | cons x l =>
    unfold stdSort
    rw [introsortLoop_short lt _ _ h, finalInsertionSort_eq]

theorem stdSort_perm {α : Type} (lt : α → α → Bool) (l : List α) :
    (stdSort lt l).Perm l := by
  cases l with
  | nil => exact List.Perm.refl _
  | cons x l =>
    unfold stdSort
    rw [finalInsertionSort_eq]
    unfold insertionSortRev
    refine (List.reverse_perm _).trans ?_
    refine (foldl_linearInsert_perm lt _ []).trans ?_
    rw [List.append_nil]
    exact introsortLoop_perm lt _ _

theorem linearInsert_sorted {α : Type} (lt : α → α → Bool) (key : α → Int)
    (hlt : ∀ x y, lt x y = true ↔ key x < key y) (v : α) (rev : List α)
    (h : rev.Pairwise (fun x y => key y ≤ key x)) :
    (linearInsert lt v rev).Pairwise (fun x y => key y ≤ key x) := by
  induction rev with
  | nil => simp [linearInsert]
  | cons e rev ih =>
    rw [List.pairwise_cons] at h
    unfold linearInsert
    split
    · rename_i hve
      rw [List.pairwise_cons]
      refine ⟨?_, ih h.2⟩
      intro y hy
      rcases List.mem_cons.1 ((linearInsert_perm lt v rev).mem_iff.1 hy) with rfl | hy
      · exact le_of_lt ((hlt _ _).1 hve)
      · exact h.1 y hy
    · rename_i hve
      have hev : key e ≤ key v := by
        by_contra hc
        exact hve ((hlt _ _).2 (lt_of_not_le hc))
      rw [List.pairwise_cons]
      refine ⟨?_, List.pairwise_cons.2 h⟩
      intro y hy
      rcases List.mem_cons.1 hy with rfl | hy
      · exact hev
      · exact le_trans (h.1 y hy) hev

theorem insertionSortRev_sorted {α : Type} (lt : α → α → Bool) (key : α → Int)
    (hlt : ∀ x y, lt x y = true ↔ key x < key y) (l : List α) :
    (insertionSortRev lt l).reverse.Pairwise (fun x y => key x ≤ key y) := by
  unfold insertionSortRev
  rw [List.pairwise_reverse]
  suffices h : ∀ rev : List α, rev.Pairwise (fun x y => key y ≤ key x) →
      (l.foldl (fun rev x => linearInsert lt x rev) rev).Pairwise
        (fun x y => key y ≤ key x) from h [] List.Pairwise.nil
  induction l with
  | nil => intro rev h; exact h
  | cons x l ih =>
    intro rev h
    exact ih _ (linearInsert_sorted lt key hlt x rev h)

theorem stdSort_sorted {α : Type} (lt : α → α → Bool) (key : α → Int)
    (hlt : ∀ x y, lt x y = true ↔ key x < key y) (l : List α) :
    (stdSort lt l).Pairwise (fun x y => key x ≤ key y) := by
  cases l with
  | nil => exact List.Pairwise.nil
  | cons x l =>
    unfold stdSort
    rw [finalInsertionSort_eq]
    exact insertionSortRev_sorted lt key hlt _

theorem linearInsert_all_lt {α : Type} (lt : α → α → Bool) (v : α) (rev : List α)
    (h : ∀ e ∈ rev, lt v e = true) : linearInsert lt v rev = rev ++ [v] := by
  induction rev with
  | nil => rfl
  | cons e rev ih =>
    unfold linearInsert
    rw [if_pos (h e (List.mem_cons_self _ _)),
      ih (fun x hx => h x (List.mem_cons_of_mem _ hx))]
    rfl

theorem linearInsert_keeps_last {α : Type} (lt : α → α → Bool) (v p : α)
    (h : lt v p = false) (a : List α) :
    ∃ s, linearInsert lt v (a ++ [p]) = s ++ [p] := by
  induction a with
  | nil => exact ⟨[v], by simp [linearInsert, h]⟩
  | cons e a ih =>
    obtain ⟨s, hs⟩ := ih
    simp only [List.cons_append]
    unfold linearInsert
    split
    · exact ⟨e :: s, by rw [hs]; rfl⟩
    · exact ⟨v :: e :: a, rfl⟩

theorem foldl_linearInsert_keeps_last {α : Type} (lt : α → α → Bool) (p : α)
    (post : List α) (h : ∀ q ∈ post, lt q p = false) (a : List α) :
    ∃ s, post.foldl (fun rev x => linearInsert lt x rev) (a ++ [p]) = s ++ [p] := by
  induction post generalizing a with
  | nil => exact ⟨a, rfl⟩
  | cons q post ih =>
    obtain ⟨s, hs⟩ := linearInsert_keeps_last lt q p (h q (List.mem_cons_self _ _)) a
    simp only [List.foldl_cons, hs]
    exact ih (fun x hx => h x (List.mem_cons_of_mem _ hx)) s

/-- On a range of at most 16 elements the sort puts first the earliest element
that every earlier element must follow and no later element must precede. -/
theorem stdSort_head {α : Type} (lt : α → α → Bool) (pre post : List α) (p : α)
    (hN : (pre ++ p :: post).length ≤ 16)
    (hpre : ∀ q ∈ pre, lt p q = true) (hpost : ∀ q ∈ post, lt q p = false) :
    ∃ t, stdSort lt (pre ++ p :: post) = p :: t := by
  rw [stdSort_short lt _ hN]
  unfold insertionSortRev
  rw [List.foldl_append, List.foldl_cons]
  have h1 : linearInsert lt p (pre.foldl (fun rev x => linearInsert lt x rev) []) =
      pre.foldl (fun rev x => linearInsert lt x rev) [] ++ [p] := by
    apply linearInsert_all_lt
    intro e he
    have := (foldl_linearInsert_perm lt pre []).mem_iff.1 he
    exact hpre e (by simpa using this)
  rw [h1]
  obtain ⟨s, hs⟩ := foldl_linearInsert_keeps_last lt p post hpost
    (pre.foldl (fun rev x => linearInsert lt x rev) [])
  rw [hs]
  exact ⟨s.reverse, by simp⟩

theorem minElement_fold_spec {α : Type} (lt : α → α → Bool) (key : α → Nat)
    (hlt : ∀ x y, lt x y = true ↔ key x < key y) (xs : List α) (x : α) :
    (xs.foldl (fun m y => if lt y m then y else m) x ∈ x :: xs) ∧
    ∀ y ∈ x :: xs, key (xs.foldl (fun m y => if lt y m then y else m) x) ≤ key y := by
  induction xs generalizing x with
  | nil => simp
  | cons z xs ih =>
    simp only [List.foldl_cons]
    by_cases hz : lt z x = true
    · rw [if_pos hz]
      obtain ⟨h1, h2⟩ := ih z
      have hzx := (hlt _ _).1 hz
      refine ⟨List.mem_cons_of_mem _ h1, ?_⟩
      intro y hy
      rcases List.mem_cons.1 hy with rfl | hy
      · exact le_trans (h2 z (List.mem_cons_self _ _)) (le_of_lt hzx)
      · exact h2 y hy
    · rw [if_neg hz]
      obtain ⟨h1, h2⟩ := ih x
      have hxz : key x ≤ key z := by
        by_contra hc
        exact hz ((hlt _ _).2 (lt_of_not_le hc))
      refine ⟨?_, ?_⟩
      · rcases List.mem_cons.1 h1 with h | h
        · rw [h]; exact List.mem_cons_self _ _
        · exact List.mem_cons_of_mem _ (List.mem_cons_of_mem _ h)
      · intro y hy
        rcases List.mem_cons.1 hy with rfl | hy
        · exact h2 _ (List.mem_cons_self _ _)
        · rcases List.mem_cons.1 hy with rfl | hy
          · exact le_trans (h2 x (List.mem_cons_self _ _)) hxz
          · exact h2 y (List.mem_cons_of_mem _ hy)

/-- The element `std::min_element` returns is in the range and has the least key. -/
theorem minElement_spec {α : Type} (lt : α → α → Bool) (key : α → Nat)
    (hlt : ∀ x y, lt x y = true ↔ key x < key y) (l : List α) (hl : l ≠ []) :
    ∃ m, minElement lt l = some m ∧ m ∈ l ∧ ∀ y ∈ l, key m ≤ key y := by
  cases l with
  | nil => exact absurd rfl hl
  | cons x xs =>
    exact ⟨_, rfl, (minElement_fold_spec lt key hlt xs x).1,
      (minElement_fold_spec lt key hlt xs x).2⟩

/-! ## `doMove`: sorting and Bresenham initialisation -/

theorem allSome_map_some {α : Type} (l : List α) : allSome (l.map some) = some l := by
  induction l with
  | nil => rfl
  | cons x l ih => simp [allSome, ih]

theorem initHeap_nil (h : Heap) (lead : Ptr) : initHeap h lead [] = h := by
  funext q
  simp [initHeap]

theorem initHeap_cons (h : Heap) (lead p : Ptr) (L : List Ptr) :
    initHeap (h.set p { h p with B := wrapInt32 (2 * (h p).distance - (h lead).distance) })
      lead L = initHeap h lead (p :: L) := by
  funext q
  have hl : (Heap.set h p { h p with
      B := wrapInt32 (2 * (h p).distance - (h lead).distance) } lead).distance =
      (h lead).distance := by
    unfold Heap.set
    split
    · rename_i hq; rw [hq]
    · rfl
  unfold initHeap
  rw [hl]
  by_cases hqp : q = p
  · subst hqp
    by_cases hqL : q ∈ L <;> simp [Heap.set, hqL]
  · by_cases hqL : q ∈ L <;> simp [Heap.set, hqL, hqp]

theorem foldl_initB (lead : Ptr) (L : List Ptr) (c : Control σ) :
    L.foldl (initB lead) c = { c with heap := initHeap c.heap lead L } := by
  induction L generalizing c with
  | nil => simp [initHeap_nil]
  | cons p L ih =>
    rw [List.foldl_cons, ih]
    simp only [initB, Control.setB]
    rw [initHeap_cons]

theorem doMoveBresenham_staged (c : Control σ) (ptrs : List Ptr) (rest : List (Option Ptr))
    (hm : c.motorList = ptrs.map some ++ none :: rest) (hne : ptrs ≠ []) :
    ∃ lead slaves, stdSort (cmpDelta c.heap) ptrs = lead :: slaves ∧
      doMoveBresenham ptrs.length c =
        some ({ c with motorList := (lead :: slaves).map some ++ none :: rest,
                       leadMotor := some lead,
                       heap := initHeap c.heap lead slaves }, lead :: slaves, lead) := by
  have hsne : stdSort (cmpDelta c.heap) ptrs ≠ [] := by
    intro h
    have := (stdSort_perm (cmpDelta c.heap) ptrs).length_eq
    rw [h] at this
    exact hne (List.length_eq_zero.1 this.symm)
  obtain ⟨lead, slaves, hs⟩ := List.exists_cons_of_ne_nil hsne
  refine ⟨lead, slaves, hs, ?_⟩
  have htake : c.motorList.take ptrs.length = ptrs.map some := by
    rw [hm]
    have : ptrs.length = (ptrs.map some).length := by simp
    rw [this, List.take_left]
  have hdrop : c.motorList.drop ptrs.length = none :: rest := by
    rw [hm]
    have : ptrs.length = (ptrs.map some).length := by simp
    rw [this, List.drop_left]
  have hlen : ¬ c.motorList.length < ptrs.length := by
    rw [hm]; simp
  unfold doMoveBresenham
  rw [if_neg hlen, htake, allSome_map_some]
  simp only [hdrop, hs, List.map_cons, List.cons_append, List.head?_cons, List.drop_one,
    List.tail_cons, foldl_initB]

/-! ## `pitISR`: what it leaves alone -/

theorem sameAxes_refl (h : Heap) : SameAxes h h := fun _ => ⟨rfl, rfl, rfl, rfl, rfl⟩

theorem sameAxes_trans {h1 h2 h3 : Heap} (a : SameAxes h1 h2) (b : SameAxes h2 h3) :
    SameAxes h1 h3 := by
  intro q
  obtain ⟨a1, a2, a3, a4, a5⟩ := a q
  obtain ⟨b1, b2, b3, b4, b5⟩ := b q
  exact ⟨b1.trans a1, b2.trans a2, b3.trans a3, b4.trans a4, b5.trans a5⟩

theorem sameAxes_set (h : Heap) (p : Ptr) (s : Stepper) (hd : s.distance = (h p).distance)
    (ht : s.target = (h p).target) (hv : s.vMax = (h p).vMax) (ha : s.a = (h p).a)
    (hr : s.dir = (h p).dir) : SameAxes h (h.set p s) := by
  intro q
  unfold Heap.set
  split
  · rename_i hq; subst hq; exact ⟨hd, ht, hv, ha, hr⟩
  · exact ⟨rfl, rfl, rfl, rfl, rfl⟩

theorem sameAxes_doStep (c : Control σ) (p : Ptr) : SameAxes c.heap (c.doStep p).heap :=
  sameAxes_set _ _ _ rfl rfl rfl rfl rfl

theorem sameAxes_setB (c : Control σ) (p : Ptr) (v : Int) :
    SameAxes c.heap (c.setB p v).heap :=
  sameAxes_set _ _ _ rfl rfl rfl rfl rfl

theorem sameAxes_initHeap (h : Heap) (lead : Ptr) (L : List Ptr) :
    SameAxes h (initHeap h lead L) := by
  intro q
  unfold initHeap
  split <;> exact ⟨rfl, rfl, rfl, rfl, rfl⟩

theorem slaveBody_frame (lead p : Ptr) (c : Control σ) :
    (slaveBody lead p c).motorList = c.motorList ∧
    (slaveBody lead p c).leadMotor = c.leadMotor ∧
    (slaveBody lead p c).mCnt = c.mCnt ∧
    (slaveBody lead p c).callback = c.callback ∧
    (slaveBody lead p c).timer = c.timer ∧
    (slaveBody lead p c).profile = c.profile ∧
    SameAxes c.heap (slaveBody lead p c).heap ∧
    (∀ q, ((slaveBody lead p c).heap q).current ≠ (c.heap q).current →
      0 ≤ (c.heap p).B) ∧
    ∃ evs, (slaveBody lead p c).trace = c.trace ++ evs ∧
      ∀ e ∈ evs, e = Event.doStep p := by
  unfold slaveBody
  by_cases hB : 0 ≤ (c.heap p).B
  · simp only [hB, if_true]
    refine ⟨rfl, rfl, rfl, rfl, rfl, rfl, ?_, fun _ _ => trivial, [Event.doStep p], rfl, ?_⟩
    · exact sameAxes_trans (sameAxes_trans (sameAxes_doStep c p) (sameAxes_setB _ _ _))
        (sameAxes_setB _ _ _)
    · intro e he; simpa using he
  · simp only [hB, if_false]
    refine ⟨rfl, rfl, rfl, rfl, rfl, rfl, sameAxes_setB _ _ _, ?_, [], by simp [Control.setB], ?_⟩
    · intro q hq
      exfalso
      apply hq
      simp only [Control.setB, Heap.set]
      split
      · rename_i h; rw [h]
      · rfl
    · intro e he; simp at he

theorem slaveFold_frame (lead : Ptr) (slaves : List Ptr) (c : Control σ) :
    (slaveFold lead slaves c).motorList = c.motorList ∧
    (slaveFold lead slaves c).leadMotor = c.leadMotor ∧
    (slaveFold lead slaves c).mCnt = c.mCnt ∧
    (slaveFold lead slaves c).callback = c.callback ∧
    (slaveFold lead slaves c).timer = c.timer ∧
    (slaveFold lead slaves c).profile = c.profile ∧
    SameAxes c.heap (slaveFold lead slaves c).heap ∧
    ∃ evs, (slaveFold lead slaves c).trace = c.trace ++ evs ∧
      ∀ e ∈ evs, ∃ p ∈ slaves, e = Event.doStep p := by
  induction slaves generalizing c with
  | nil =>
    exact ⟨rfl, rfl, rfl, rfl, rfl, rfl, sameAxes_refl _, [], by simp [slaveFold], by simp⟩
  | cons p L ih =>
    obtain ⟨a1, a2, a3, a4, a5, a6, a7, -, e1, a8, a9⟩ := slaveBody_frame lead p c
    obtain ⟨b1, b2, b3, b4, b5, b6, b7, e2, b8, b9⟩ := ih (slaveBody lead p c)
    have hf : slaveFold lead (p :: L) c = slaveFold lead L (slaveBody lead p c) := rfl
    rw [hf]
    refine ⟨b1.trans a1, b2.trans a2, b3.trans a3, b4.trans a4, b5.trans a5, b6.trans a6,
      sameAxes_trans a7 b7, e1 ++ e2, by rw [b8, a8, List.append_assoc], ?_⟩
    intro e he
    rcases List.mem_append.1 he with h | h
    · exact ⟨p, List.mem_cons_self _ _, a9 e h⟩
    · obtain ⟨q, hq, hqe⟩ := b9 e h
      exact ⟨q, List.mem_cons_of_mem _ hq, hqe⟩

theorem slaveLoop_staged (lead : Ptr) (slaves : List Ptr) (rest : List (Option Ptr))
    (c : Control σ) :
    slaveLoop lead (slaves.map some ++ none :: rest) c = some (slaveFold lead slaves c) := by
  induction slaves generalizing c with
  | nil => rfl
  | cons p L ih =>
    simp only [List.map_cons, List.cons_append, slaveLoop]
    exact ih _

/-- The step handler on a list whose slots after slot 0 are `slaves` and the
null sentinel. -/
theorem pitISR_staged (E : Engine σ) (c : Control σ) (lead : Ptr) (x : Option Ptr)
    (slaves : List Ptr) (rest : List (Option Ptr)) (hl : c.leadMotor = some lead)
    (hm : c.motorList = x :: (slaves.map some ++ none :: rest)) :
    pitISR E c = some (completionCheck lead ((slaveFold lead slaves (c.doStep lead)).emit
      (Event.trigger E.pulseWidth E.pinResetDelayChannel))) := by
  unfold pitISR
  rw [hl]
  simp only [hm, List.drop_one, List.tail_cons, slaveLoop_staged]

/-! ## `pitISR` on distinct axes -/

theorem Heap.set_apply (h : Heap) (p q : Ptr) (s : Stepper) :
    (h.set p s) q = if q = p then s else h q := rfl

theorem Heap.set_same (h : Heap) (p : Ptr) (s : Stepper) : (h.set p s) p = s := by
  simp [Heap.set_apply]

theorem Heap.set_ne (h : Heap) (p q : Ptr) (s : Stepper) (hq : q ≠ p) :
    (h.set p s) q = h q := by
  simp [Heap.set_apply, hq]

theorem Heap.set_set (h : Heap) (p : Ptr) (s s' : Stepper) :
    (h.set p s).set p s' = h.set p s' := by
  funext q
  by_cases hq : q = p <;> simp [Heap.set_apply, hq]

theorem slaveBody_eq (lead p : Ptr) (c : Control σ) (hp : p ≠ lead) :
    slaveBody lead p c =
      { c with heap := c.heap.set p (slaveTick (c.heap lead).distance (c.heap p)),
               trace := c.trace ++ slaveEvents c.heap [p] } := by
  have hlp : lead ≠ p := fun h => hp h.symm
  unfold slaveBody slaveTick slaveEvents
  by_cases hB : 0 ≤ (c.heap p).B
  · simp only [hB, if_true, Control.setB, Control.doStep, Heap.set_same, Heap.set_set,
      Heap.set_ne _ _ _ _ hlp, Stepper.doStep, List.filter_cons, decide_True,
      List.filter_nil, List.map_cons, List.map_nil]
  · simp [hB, Control.setB, List.filter_cons]

theorem slaveEvents_congr (h h' : Heap) (L : List Ptr) (hh : ∀ q ∈ L, h' q = h q) :
    slaveEvents h' L = slaveEvents h L := by
  unfold slaveEvents
  congr 1
  apply List.filter_congr
  intro q hq
  rw [hh q hq]

theorem slaveEvents_cons (h : Heap) (p : Ptr) (L : List Ptr) :
    slaveEvents h (p :: L) = slaveEvents h [p] ++ slaveEvents h L := by
  unfold slaveEvents
  by_cases hB : 0 ≤ (h p).B <;> simp [List.filter_cons, hB]

theorem slaveFold_eq (lead : Ptr) (slaves : List Ptr) (c : Control σ)
    (hl : lead ∉ slaves) (hn : slaves.Nodup) :
    slaveFold lead slaves c =
      { c with heap := fun q => if q ∈ slaves then
                 slaveTick (c.heap lead).distance (c.heap q) else c.heap q,
               trace := c.trace ++ slaveEvents c.heap slaves } := by
  induction slaves generalizing c with
  | nil => simp [slaveFold, slaveEvents]
  | cons p L ih =>
    have hp : p ≠ lead := fun h => hl (h ▸ List.mem_cons_self _ _)
    have hlL : lead ∉ L := fun h => hl (List.mem_cons_of_mem _ h)
    have hpL : p ∉ L := (List.nodup_cons.1 hn).1
    have hf : slaveFold lead (p :: L) c = slaveFold lead L (slaveBody lead p c) := rfl
    rw [hf, ih _ hlL (List.nodup_cons.1 hn).2, slaveBody_eq lead p c hp]
    have hev : slaveEvents (c.heap.set p (slaveTick (c.heap lead).distance (c.heap p))) L =
        slaveEvents c.heap L := by
      apply slaveEvents_congr
      intro q hq
      have : q ≠ p := fun h => hpL (h ▸ hq)
      simp [Heap.set, this]
    simp only [hev, slaveEvents_cons c.heap p L, List.append_assoc]
    congr 1
    funext q
    have hlp : ¬ lead = p := fun h => hp h.symm
    by_cases hq : q = p
    · subst hq
      simp [Heap.set, hpL, hlp]
    · by_cases hqL : q ∈ L <;> simp [Heap.set, hq, hqL, hlp]

/-- The step handler on distinct axes is the closed form `tick`. -/
theorem pitISR_eq_tick (E : Engine σ) (c : Control σ) (lead : Ptr) (x : Option Ptr)
    (slaves : List Ptr) (rest : List (Option Ptr)) (hl : c.leadMotor = some lead)
    (hm : c.motorList = x :: (slaves.map some ++ none :: rest))
    (hls : lead ∉ slaves) (hn : slaves.Nodup) :
    pitISR E c = some (tick E lead slaves c) := by
  rw [pitISR_staged E c lead x slaves rest hl hm, slaveFold_eq lead slaves _ hls hn]
  unfold tick tickHeap
  have hev : slaveEvents (c.doStep lead).heap slaves = slaveEvents c.heap slaves := by
    apply slaveEvents_congr
    intro q hq
    have : q ≠ lead := fun h => hls (h ▸ hq)
    simp [Control.doStep, Heap.set, this]
  rw [hev]
  congr 2
  simp only [Control.emit, Control.doStep, List.append_assoc, List.singleton_append,
    List.cons_append]
  congr 1
  funext q
  by_cases hq : q = lead
  · subst hq
    simp [Heap.set, hls]
  · by_cases hqL : q ∈ slaves <;> simp [Heap.set, hq, hqL, Stepper.doStep]

/-! ## `delayISR`: what it leaves alone -/

theorem sameMotion_refl (h : Heap) : SameMotion h h :=
  ⟨sameAxes_refl h, fun _ => ⟨rfl, rfl⟩⟩

theorem sameMotion_trans {h1 h2 h3 : Heap} (a : SameMotion h1 h2) (b : SameMotion h2 h3) :
    SameMotion h1 h3 :=
  ⟨sameAxes_trans a.1 b.1, fun q => ⟨(b.2 q).1.trans (a.2 q).1, (b.2 q).2.trans (a.2 q).2⟩⟩

theorem sameMotion_clearStepPin (h : Heap) (p : Ptr) :
    SameMotion h (h.set p (h p).clearStepPin) := by
  refine ⟨sameAxes_set _ _ _ rfl rfl rfl rfl rfl, fun q => ?_⟩
  by_cases hq : q = p
  · subst hq; simp [Heap.set_same, Stepper.clearStepPin]
  · simp [Heap.set_ne _ _ _ _ hq]

theorem clearLoop_staged (L : List Ptr) (rest : List (Option Ptr)) (c : Control σ) :
    ∃ c' evs, clearLoop (L.map some ++ none :: rest) c = some c' ∧
      c'.motorList = c.motorList ∧ c'.leadMotor = c.leadMotor ∧ c'.mCnt = c.mCnt ∧
      c'.callback = c.callback ∧ c'.timer = c.timer ∧ c'.profile = c.profile ∧
      SameMotion c.heap c'.heap ∧ c'.trace = c.trace ++ evs ∧
      ∀ e ∈ evs, e.isDelayEvent = true := by
  induction L generalizing c with
  | nil =>
    exact ⟨c, [], rfl, rfl, rfl, rfl, rfl, rfl, rfl, sameMotion_refl _, by simp, by simp⟩
  | cons p L ih =>
    obtain ⟨c', evs, h1, h2, h3, h4, h5, h6, h7, h8, h9, h10⟩ := ih
      { c with heap := c.heap.set p (c.heap p).clearStepPin,
               trace := c.trace ++ [Event.clearStepPin p] }
    refine ⟨c', Event.clearStepPin p :: evs, ?_, h2, h3, h4, h5, h6, h7,
      sameMotion_trans (sameMotion_clearStepPin c.heap p) h8, ?_, ?_⟩
    · simpa [clearLoop] using h1
    · rw [h9]; simp
    · intro e he
      rcases List.mem_cons.1 he with rfl | he
      · rfl
      · exact h10 e he

theorem accLoop_staged (E : Engine σ) (c : Control σ) (lead : Ptr)
    (hl : c.leadMotor = some lead) :
    ∃ c' evs, accLoop E c = some c' ∧
      c'.motorList = c.motorList ∧ c'.leadMotor = c.leadMotor ∧ c'.mCnt = c.mCnt ∧
      c'.callback = c.callback ∧ c'.timer.running = c.timer.running ∧
      c'.heap = c.heap ∧ c'.trace = c.trace ++ evs ∧
      ∀ e ∈ evs, e.isDelayEvent = true := by
  unfold accLoop
  by_cases hr : c.timer.running = true
  · rw [if_pos hr, hl]
    refine ⟨_, [Event.noInterrupts, Event.trigger E.accUpdatePeriod E.accLoopDelayChannel,
      Event.interrupts, Event.updateSpeed (c.heap lead).current,
      Event.timerSetFrequency (E.hooks.updateSpeed c.profile (c.heap lead).current).1],
      rfl, rfl, hl, rfl, rfl, rfl, rfl, ?_, ?_⟩
    · simp [Control.timerSetFrequency, Control.emit]
    · intro e he
      simp only [List.mem_cons, List.mem_singleton, List.not_mem_nil, or_false] at he
      rcases he with rfl | rfl | rfl | rfl | rfl <;> rfl
  · rw [if_neg hr]
    exact ⟨c, [], rfl, rfl, rfl, rfl, rfl, rfl, rfl, by simp, by simp⟩

/-- The delay handler, on either channel, changes no position, no error term
and nothing of the list; it emits neither steps nor timer stops. -/
theorem delayISR_staged (E : Engine σ) (channel : Nat) (c : Control σ) (lead : Ptr)
    (L : List Ptr) (rest : List (Option Ptr)) (hl : c.leadMotor = some lead)
    (hm : c.motorList = L.map some ++ none :: rest) :
    ∃ c' evs, delayISR E channel c = some c' ∧
      c'.motorList = c.motorList ∧ c'.leadMotor = c.leadMotor ∧ c'.mCnt = c.mCnt ∧
      c'.callback = c.callback ∧ c'.timer.running = c.timer.running ∧
      SameMotion c.heap c'.heap ∧ c'.trace = c.trace ++ evs ∧
      ∀ e ∈ evs, e.isDelayEvent = true := by
  have hstep : ∃ c1 evs1, (if channel = E.pinResetDelayChannel then clearLoop c.motorList c
      else some c) = some c1 ∧
      c1.motorList = c.motorList ∧ c1.leadMotor = c.leadMotor ∧ c1.mCnt = c.mCnt ∧
      c1.callback = c.callback ∧ c1.timer = c.timer ∧
      SameMotion c.heap c1.heap ∧ c1.trace = c.trace ++ evs1 ∧
      ∀ e ∈ evs1, e.isDelayEvent = true := by
    by_cases hc : channel = E.pinResetDelayChannel
    · rw [if_pos hc, hm]
      obtain ⟨c1, evs1, h1, h2, h3, h4, h5, h6, -, h8, h9, h10⟩ := clearLoop_staged L rest c
      exact ⟨c1, evs1, h1, h2.trans hm, h3, h4, h5, h6, h8, h9, h10⟩
    · rw [if_neg hc]
      exact ⟨c, [], rfl, rfl, rfl, rfl, rfl, rfl, sameMotion_refl _, by simp, by simp⟩
  obtain ⟨c1, evs1, h1, h2, h3, h4, h5, h6, h8, h9, h10⟩ := hstep
  unfold delayISR
  rw [h1]
  by_cases ha : channel = E.accLoopDelayChannel
  · obtain ⟨c2, evs2, g1, g2, g3, g4, g5, g6, g7, g8, g9⟩ :=
      accLoop_staged E c1 lead (h3.trans hl)
    refine ⟨c2, evs1 ++ evs2, ?_, g2.trans h2, g3.trans h3, g4.trans h4, g5.trans h5,
      ?_, ?_, ?_, ?_⟩
    · simp only [if_pos ha]; exact g1
    · rw [g6, h6]
    · rw [g7]; exact h8
    · rw [g8, h9, List.append_assoc]
    · intro e he
      rcases List.mem_append.1 he with h | h
      · exact h10 e h
      · exact g9 e h
  · refine ⟨c1, evs1, ?_, h2, h3, h4, h5, by rw [h6], h8, h9, h10⟩
    simp only [if_neg ha]

/-! ## `doMove`: the two ways out -/

theorem cmpV_sameAxes (h h' : Heap) (hh : SameAxes h h') : cmpV h' = cmpV h := by
  funext x y
  unfold cmpV
  rw [(hh x).2.2.1, (hh y).2.2.1]

theorem cmpAcc_sameAxes (h h' : Heap) (hh : SameAxes h h') : cmpAcc h' = cmpAcc h := by
  funext x y
  unfold cmpAcc
  rw [(hh x).2.2.2.1, (hh y).2.2.2.1]

theorem targetSpeed_sameAxes (h h' : Heap) (hh : SameAxes h h') (L : List Ptr) (lead : Ptr) :
    targetSpeed h' L lead = targetSpeed h L lead := by
  unfold targetSpeed
  rw [cmpV_sameAxes h h' hh, (hh _).2.2.1]

theorem acceleration_sameAxes (h h' : Heap) (hh : SameAxes h h') (L : List Ptr) (lead : Ptr) :
    acceleration h' L lead = acceleration h L lead := by
  unfold acceleration
  rw [cmpAcc_sameAxes h h' hh, (hh _).2.2.2.1]

theorem doMoveBresenham_sorted (c : Control σ) (ptrs : List Ptr) (rest : List (Option Ptr))
    (lead : Ptr) (slaves : List Ptr)
    (hm : c.motorList = ptrs.map some ++ none :: rest) (hne : ptrs ≠ [])
    (hs : stdSort (cmpDelta c.heap) ptrs = lead :: slaves) :
    doMoveBresenham ptrs.length c =
      some (sortedState c lead slaves rest, lead :: slaves, lead) := by
  obtain ⟨lead', slaves', hs', h⟩ := doMoveBresenham_staged c ptrs rest hm hne
  rw [hs] at hs'
  injection hs' with h1 h2
  subst h1 h2
  exact h

/-- The degenerate way out of `doMove` (line 69). -/
theorem doMove_degenerate (E : Engine σ) (c : Control σ) (ptrs : List Ptr)
    (rest : List (Option Ptr)) (lead : Ptr) (slaves : List Ptr)
    (hm : c.motorList = ptrs.map some ++ none :: rest) (hne : ptrs ≠ [])
    (hs : stdSort (cmpDelta c.heap) ptrs = lead :: slaves)
    (hdeg : (c.heap lead).distance = 0 ∨ targetSpeed c.heap (lead :: slaves) lead = 0) :
    doMove E ptrs.length c = some (sortedState c lead slaves rest) := by
  unfold doMove
  rw [doMoveBresenham_sorted c ptrs rest lead slaves hm hne hs]
  have hax : SameAxes c.heap (sortedState c lead slaves rest).heap :=
    sameAxes_initHeap c.heap lead slaves
  simp only [targetSpeed_sameAxes _ _ hax, (hax lead).1, hdeg, if_true]

/-- The way of `doMove` through lines 72-77. -/
theorem doMove_run (E : Engine σ) (c : Control σ) (ptrs : List Ptr)
    (rest : List (Option Ptr)) (lead : Ptr) (slaves : List Ptr)
    (hm : c.motorList = ptrs.map some ++ none :: rest) (hne : ptrs ≠ [])
    (hs : stdSort (cmpDelta c.heap) ptrs = lead :: slaves)
    (hrun : ¬ ((c.heap lead).distance = 0 ∨ targetSpeed c.heap (lead :: slaves) lead = 0)) :
    doMove E ptrs.length c =
      match pitISR E (startTimer E lead (targetSpeed c.heap (lead :: slaves) lead)
        (acceleration c.heap (lead :: slaves) lead) (sortedState c lead slaves rest)) with
      | none => none
      | some c2 => delayISR E E.accLoopDelayChannel c2 := by
  unfold doMove
  rw [doMoveBresenham_sorted c ptrs rest lead slaves hm hne hs]
  have hax : SameAxes c.heap (sortedState c lead slaves rest).heap :=
    sameAxes_initHeap c.heap lead slaves
  simp only [targetSpeed_sameAxes _ _ hax, acceleration_sameAxes _ _ hax, (hax lead).1, hrun,
    if_false]

theorem completionCheck_frame (lead : Ptr) (c : Control σ) :
    (completionCheck lead c).motorList = c.motorList ∧
    (completionCheck lead c).leadMotor = c.leadMotor ∧
    (completionCheck lead c).mCnt = c.mCnt ∧
    (completionCheck lead c).callback = c.callback ∧
    (completionCheck lead c).heap = c.heap ∧
    (completionCheck lead c).profile = c.profile := by
  unfold completionCheck
  split
  · simp only [Control.timerStop]
    split <;> exact ⟨rfl, rfl, rfl, rfl, rfl, rfl⟩
  · exact ⟨rfl, rfl, rfl, rfl, rfl, rfl⟩

/-- Whichever way `doMove` leaves, it returns, the list holds the sorted axes
before the sentinel, the lead is slot 0, and the fields it only reads are as
before. -/
theorem doMove_frame (E : Engine σ) (c : Control σ) (ptrs : List Ptr)
    (rest : List (Option Ptr)) (lead : Ptr) (slaves : List Ptr)
    (hm : c.motorList = ptrs.map some ++ none :: rest) (hne : ptrs ≠ [])
    (hs : stdSort (cmpDelta c.heap) ptrs = lead :: slaves) :
    ∃ c', doMove E ptrs.length c = some c' ∧
      c'.motorList = (lead :: slaves).map some ++ none :: rest ∧
      c'.leadMotor = some lead ∧ c'.mCnt = c.mCnt ∧ c'.callback = c.callback ∧
      SameAxes c.heap c'.heap := by
  by_cases hdeg : (c.heap lead).distance = 0 ∨ targetSpeed c.heap (lead :: slaves) lead = 0
  · exact ⟨_, doMove_degenerate E c ptrs rest lead slaves hm hne hs hdeg, rfl, rfl, rfl, rfl,
      sameAxes_initHeap c.heap lead slaves⟩
  · rw [doMove_run E c ptrs rest lead slaves hm hne hs hdeg]
    rw [pitISR_staged E _ lead (some lead) slaves rest rfl rfl]
    obtain ⟨a1, a2, a3, a4, a5, -⟩ := completionCheck_frame lead
      ((slaveFold lead slaves ((startTimer E lead (targetSpeed c.heap (lead :: slaves) lead)
        (acceleration c.heap (lead :: slaves) lead)
        (sortedState c lead slaves rest)).doStep lead)).emit
        (Event.trigger E.pulseWidth E.pinResetDelayChannel))
    obtain ⟨b1, b2, b3, b4, -, -, b7, -⟩ := slaveFold_frame lead slaves
      ((startTimer E lead (targetSpeed c.heap (lead :: slaves) lead)
        (acceleration c.heap (lead :: slaves) lead)
        (sortedState c lead slaves rest)).doStep lead)
    obtain ⟨c', evs, d1, d2, d3, d4, d5, -, d7, -, -⟩ := delayISR_staged E
      E.accLoopDelayChannel _ lead (lead :: slaves) rest (a2.trans b2) (a1.trans b1)
    refine ⟨c', d1, d2.trans (a1.trans b1), d3.trans (a2.trans b2), d4.trans (a3.trans b3),
      d5.trans (a4.trans b4), ?_⟩
    rw [a5] at d7
    have h0 : SameAxes c.heap ((startTimer E lead (targetSpeed c.heap (lead :: slaves) lead)
        (acceleration c.heap (lead :: slaves) lead)
        (sortedState c lead slaves rest)).doStep lead).heap :=
      sameAxes_trans (sameAxes_initHeap c.heap lead slaves) (sameAxes_doStep _ lead)
    exact sameAxes_trans (sameAxes_trans h0 b7) d7.1

theorem cmpDelta_iff (h : Heap) (x y : Ptr) :
    cmpDelta h x y = true ↔ -|(h x).distance| < -|(h y).distance| := by
  unfold cmpDelta
  simp

/-! ## `pitISR`: its events -/

theorem completionCheck_spec (lead : Ptr) (c : Control σ) :
    (completionCheck lead c).trace = c.trace ++ completionEvents c lead ∧
    (completionCheck lead c).timer.running =
      (if (c.heap lead).current = (c.heap lead).target then false else c.timer.running) := by
  unfold completionCheck completionEvents
  by_cases h : (c.heap lead).current = (c.heap lead).target
  · simp only [h, if_true, Control.timerStop]
    cases hc : c.callback with
    | none => simp
    | some f => simp [Control.emit]
  · simp [h]

/-- One invocation of the step handler, whether or not the axes are distinct:
it returns, and its events are the lead's step, steps of slaves, the pin-reset
trigger and the events of the completion check. -/
theorem pitISR_general (E : Engine σ) (c : Control σ) (lead : Ptr) (x : Option Ptr)
    (slaves : List Ptr) (rest : List (Option Ptr)) (hl : c.leadMotor = some lead)
    (hm : c.motorList = x :: (slaves.map some ++ none :: rest)) :
    ∃ c' evs, pitISR E c = some c' ∧
      c'.motorList = c.motorList ∧ c'.leadMotor = c.leadMotor ∧ c'.mCnt = c.mCnt ∧
      c'.callback = c.callback ∧ c'.profile = c.profile ∧ SameAxes c.heap c'.heap ∧
      c'.trace = c.trace ++ (Event.doStep lead :: evs ++
        Event.trigger E.pulseWidth E.pinResetDelayChannel :: completionEvents c' lead) ∧
      (∀ e ∈ evs, ∃ p ∈ slaves, e = Event.doStep p) ∧
      c'.timer.running =
        (if (c'.heap lead).current = (c'.heap lead).target then false
         else c.timer.running) := by
  rw [pitISR_staged E c lead x slaves rest hl hm]
  obtain ⟨b1, b2, b3, b4, b5, b6, b7, evs, b8, b9⟩ := slaveFold_frame lead slaves (c.doStep lead)
  obtain ⟨a1, a2, a3, a4, a5, a6⟩ := completionCheck_frame lead
    ((slaveFold lead slaves (c.doStep lead)).emit
      (Event.trigger E.pulseWidth E.pinResetDelayChannel))
  obtain ⟨s1, s2⟩ := completionCheck_spec lead
    ((slaveFold lead slaves (c.doStep lead)).emit
      (Event.trigger E.pulseWidth E.pinResetDelayChannel))
  refine ⟨_, evs, rfl, a1.trans b1, a2.trans b2, a3.trans b3, a4.trans b4, a6.trans b6,
    ?_, ?_, b9, ?_⟩
  · rw [a5]
    exact sameAxes_trans (sameAxes_doStep c lead) b7
  · rw [s1]
    have hce : completionEvents (completionCheck lead ((slaveFold lead slaves
        (c.doStep lead)).emit (Event.trigger E.pulseWidth E.pinResetDelayChannel))) lead =
        completionEvents ((slaveFold lead slaves (c.doStep lead)).emit
          (Event.trigger E.pulseWidth E.pinResetDelayChannel)) lead := by
      unfold completionEvents
      rw [a5, a4]
    rw [hce]
    have he : ((slaveFold lead slaves (c.doStep lead)).emit
        (Event.trigger E.pulseWidth E.pinResetDelayChannel)).trace =
        (slaveFold lead slaves (c.doStep lead)).trace ++
          [Event.trigger E.pulseWidth E.pinResetDelayChannel] := rfl
    have ht : (c.doStep lead).trace = c.trace ++ [Event.doStep lead] := rfl
    rw [he, b8, ht]
    simp only [List.append_assoc, List.singleton_append, List.cons_append, List.nil_append]
  · rw [s2, a5]
    have he : ((slaveFold lead slaves (c.doStep lead)).emit
        (Event.trigger E.pulseWidth E.pinResetDelayChannel)).timer =
        (slaveFold lead slaves (c.doStep lead)).timer := rfl
    have ht : (c.doStep lead).timer = c.timer := rfl
    rw [he, b5, ht]

/-! ## The lead axis (C2, C3) -/

/-- C2: `doMove` on `N ≥ 1` staged axes returns with the staged axes, permuted
and sorted by descending distance magnitude, in the first `N` slots; the lead
is slot 0, its distance magnitude is at least that of every axis of the list,
and for non-negative distances its distance is at least every other. -/
theorem doMove_lead_is_max (E : Engine σ) (c : Control σ) (ptrs : List Ptr)
    (rest : List (Option Ptr))
    (hm : c.motorList = ptrs.map some ++ none :: rest) (hne : ptrs ≠ []) :
    ∃ c' lead slaves, doMove E ptrs.length c = some c' ∧
      c'.motorList = (lead :: slaves).map some ++ none :: rest ∧
      c'.leadMotor = some lead ∧
      (lead :: slaves).Perm ptrs ∧
      (lead :: slaves).Pairwise
        (fun x y => |(c'.heap y).distance| ≤ |(c'.heap x).distance|) ∧
      (∀ p ∈ lead :: slaves, |(c'.heap p).distance| ≤ |(c'.heap lead).distance|) ∧
      ((∀ p ∈ ptrs, 0 ≤ (c.heap p).distance) →
        ∀ p ∈ lead :: slaves, (c'.heap p).distance ≤ (c'.heap lead).distance) := by
  obtain ⟨lead, slaves, hs, -⟩ := doMoveBresenham_staged c ptrs rest hm hne
  obtain ⟨c', h1, h2, h3, -, -, hax⟩ := doMove_frame E c ptrs rest lead slaves hm hne hs
  have hperm : (lead :: slaves).Perm ptrs := hs ▸ stdSort_perm (cmpDelta c.heap) ptrs
  have hsorted := stdSort_sorted (cmpDelta c.heap) (fun p => -|(c.heap p).distance|)
    (cmpDelta_iff c.heap) ptrs
  rw [hs] at hsorted
  have hpw : (lead :: slaves).Pairwise
      (fun x y => |(c'.heap y).distance| ≤ |(c'.heap x).distance|) := by
    refine hsorted.imp ?_
    intro x y hxy
    rw [(hax x).1, (hax y).1]
    exact neg_le_neg_iff.1 hxy
  have hmax : ∀ p ∈ lead :: slaves, |(c'.heap p).distance| ≤ |(c'.heap lead).distance| := by
    intro p hp
    rcases List.mem_cons.1 hp with rfl | hp
    · exact le_refl _
    · exact (List.pairwise_cons.1 hpw).1 p hp
  refine ⟨c', lead, slaves, h1, h2, h3, hperm, hpw, hmax, ?_⟩
  intro hnn p hp
  have h := hmax p hp
  rw [(hax p).1, (hax lead).1] at h ⊢
  rw [abs_of_nonneg (hnn p (hperm.mem_iff.1 hp)),
    abs_of_nonneg (hnn lead (hperm.mem_iff.1 (List.mem_cons_self _ _)))] at h
  exact h

/-- C2 at the axes with distances 50, 50, 10. -/
theorem doMove_lead_is_max_witness :
    ∃ c' lead slaves, doMove flatEngine 3 staged505010 = some c' ∧
      c'.motorList = (lead :: slaves).map some ++ none :: [none] ∧
      c'.leadMotor = some lead ∧
      (lead :: slaves).Perm [0, 1, 2] ∧
      (lead :: slaves).Pairwise
        (fun x y => |(c'.heap y).distance| ≤ |(c'.heap x).distance|) ∧
      (∀ p ∈ lead :: slaves, |(c'.heap p).distance| ≤ |(c'.heap lead).distance|) ∧
      ((∀ p ∈ [0, 1, 2], 0 ≤ (staged505010.heap p).distance) →
        ∀ p ∈ lead :: slaves, (c'.heap p).distance ≤ (c'.heap lead).distance) :=
  doMove_lead_is_max flatEngine staged505010 [0, 1, 2] [none] rfl (by simp)

/-- C3: when the staged axes are `pre`, then `p`, then `post`, every axis of
`pre` has a smaller distance magnitude than `p` and no axis of `post` a larger
one, `doMove` makes `p`, the first axis of maximal distance in input order,
the lead and puts it in slot 0, provided at most 16 axes are staged: such a
range `std::sort` sorts by insertion alone, which keeps equal elements in
input order. -/
theorem doMove_lead_is_first_max (E : Engine σ) (c : Control σ) (pre post : List Ptr)
    (p : Ptr) (rest : List (Option Ptr))
    (hm : c.motorList = (pre ++ p :: post).map some ++ none :: rest)
    (hN : (pre ++ p :: post).length ≤ 16)
    (hpre : ∀ q ∈ pre, |(c.heap q).distance| < |(c.heap p).distance|)
    (hpost : ∀ q ∈ post, |(c.heap q).distance| ≤ |(c.heap p).distance|) :
    ∃ c', doMove E (pre ++ p :: post).length c = some c' ∧
      c'.leadMotor = some p ∧ c'.motorList.head? = some (some p) := by
  obtain ⟨t, ht⟩ := stdSort_head (cmpDelta c.heap) pre post p hN
    (fun q hq => by simpa [cmpDelta] using hpre q hq)
    (fun q hq => by simpa [cmpDelta] using hpost q hq)
  obtain ⟨c', h1, h2, h3, -⟩ := doMove_frame E c (pre ++ p :: post) rest p t hm (by simp) ht
  exact ⟨c', h1, h3, by rw [h2]; rfl⟩

/-- C3 at the axes with distances 50, 50, 10 staged in this order: the lead is
the first axis of distance 50. -/
theorem doMove_lead_is_first_max_witness :
    ∃ c', doMove flatEngine 3 staged505010 = some c' ∧
      c'.leadMotor = some 0 ∧ c'.motorList.head? = some (some 0) :=
  doMove_lead_is_first_max flatEngine staged505010 [] [1, 2] 0 [none] rfl (by decide)
    (by simp) (by decide)

/-! ## Target speed and acceleration -/

theorem cmpV_iff (h : Heap) (x y : Ptr) :
    cmpV h x y = true ↔ (h x).vMax.natAbs < (h y).vMax.natAbs := by
  unfold cmpV
  rw [decide_eq_true_iff, Int.abs_eq_natAbs, Int.abs_eq_natAbs]
  exact Int.ofNat_lt

theorem cmpAcc_iff (h : Heap) (x y : Ptr) :
    cmpAcc h x y = true ↔ (h x).a < (h y).a := by
  unfold cmpAcc
  exact decide_eq_true_iff

/-- The target speed of line 67 is the least `vMax` magnitude of the range. -/
theorem targetSpeed_spec (h : Heap) (L : List Ptr) (lead : Ptr) (hL : L ≠ []) :
    ∃ m ∈ L, targetSpeed h L lead = wrapUInt32 (h m).vMax.natAbs ∧
      ∀ q ∈ L, (h m).vMax.natAbs ≤ (h q).vMax.natAbs := by
  obtain ⟨m, hm, hmem, hmin⟩ :=
    minElement_spec (cmpV h) (fun p => (h p).vMax.natAbs) (cmpV_iff h) L hL
  exact ⟨m, hmem, by unfold targetSpeed; rw [hm]; rfl, hmin⟩

/-- The acceleration of line 68 is the least `a` of the range. -/
theorem acceleration_spec (h : Heap) (L : List Ptr) (lead : Ptr) (hL : L ≠ []) :
    ∃ m ∈ L, acceleration h L lead = (h m).a ∧ ∀ q ∈ L, (h m).a ≤ (h q).a := by
  obtain ⟨m, hm, hmem, hmin⟩ :=
    minElement_spec (cmpAcc h) (fun p => (h p).a) (cmpAcc_iff h) L hL
  exact ⟨m, hmem, by unfold acceleration; rw [hm]; rfl, hmin⟩

theorem targetSpeed_zero (h : Heap) (L : List Ptr) (lead p : Ptr) (hp : p ∈ L)
    (hv : (h p).vMax = 0) : targetSpeed h L lead = 0 := by
  obtain ⟨m, -, hm, hmin⟩ := targetSpeed_spec h L lead (List.ne_nil_of_mem hp)
  have h0 := hmin p hp
  rw [hv] at h0
  have : (h m).vMax.natAbs = 0 := Nat.le_zero.1 h0
  rw [hm, this]
  rfl

theorem initHeap_current (h : Heap) (lead : Ptr) (L : List Ptr) (q : Ptr) :
    (initHeap h lead L q).current = (h q).current ∧
    (initHeap h lead L q).stepPin = (h q).stepPin := by
  unfold initHeap
  split <;> exact ⟨rfl, rfl⟩

/-! ## The degenerate move (C6, C7) -/

/-- C6: when the lead axis after sorting has distance 0, or some staged axis
has `vMax` 0 (the minimum magnitude is then 0), `doMove` returns with the timer
untouched, with nothing called (no timer stop or start, no `prepareMovement`,
no step, no callback: the trace is as before), and with every axis at its
position. -/
theorem doMove_degenerate_is_noop (E : Engine σ) (c : Control σ) (ptrs : List Ptr)
    (rest : List (Option Ptr))
    (hm : c.motorList = ptrs.map some ++ none :: rest) (hne : ptrs ≠ [])
    (hdeg : (∃ lead slaves, stdSort (cmpDelta c.heap) ptrs = lead :: slaves ∧
        (c.heap lead).distance = 0) ∨ (∃ p ∈ ptrs, (c.heap p).vMax = 0)) :
    ∃ c', doMove E ptrs.length c = some c' ∧
      c'.timer = c.timer ∧ c'.trace = c.trace ∧ c'.profile = c.profile ∧
      c'.callback = c.callback ∧
      ∀ q, (c'.heap q).current = (c.heap q).current ∧
        (c'.heap q).stepPin = (c.heap q).stepPin := by
  obtain ⟨lead, slaves, hs, -⟩ := doMoveBresenham_staged c ptrs rest hm hne
  have hperm : (lead :: slaves).Perm ptrs := hs ▸ stdSort_perm (cmpDelta c.heap) ptrs
  have hd : (c.heap lead).distance = 0 ∨ targetSpeed c.heap (lead :: slaves) lead = 0 := by
    rcases hdeg with ⟨l, sl, hs', h0⟩ | ⟨p, hp, hv⟩
    · rw [hs] at hs'
      injection hs' with h1 _
      subst h1
      exact Or.inl h0
    · exact Or.inr (targetSpeed_zero c.heap _ lead p (hperm.mem_iff.2 hp) hv)
  exact ⟨_, doMove_degenerate E c ptrs rest lead slaves hm hne hs hd, rfl, rfl, rfl, rfl,
    fun q => initHeap_current c.heap lead slaves q⟩

/-- C6 at a single axis with distance 0. -/
theorem doMove_degenerate_is_noop_witness :
    ∃ c', doMove flatEngine 1 stagedZero = some c' ∧
      c'.timer = stagedZero.timer ∧ c'.trace = stagedZero.trace ∧
      c'.profile = stagedZero.profile ∧ c'.callback = stagedZero.callback ∧
      ∀ q, (c'.heap q).current = (stagedZero.heap q).current ∧
        (c'.heap q).stepPin = (stagedZero.heap q).stepPin :=
  doMove_degenerate_is_noop flatEngine stagedZero [0] [none] rfl (by simp)
    (Or.inl ⟨0, [], rfl, rfl⟩)

/-- The single-axis `moveAsync` of an axis with distance 0 or `vMax` 0, from
`mCnt == 0` and a list of at least two slots: it returns, nothing is called,
the timer is untouched and no axis moves. -/
theorem moveAsync_degenerate (E : Engine σ) (c : Control σ) (p : Ptr)
    (hc : c.mCnt = 0) (hlen : 2 ≤ c.motorList.length)
    (hdeg : (c.heap p).distance = 0 ∨ (c.heap p).vMax = 0) :
    ∃ c', moveAsync E p c = some c' ∧ c'.timer = c.timer ∧ c'.trace = c.trace ∧
      c'.callback = c.callback ∧ c'.mCnt = 0 ∧
      ∀ q, (c'.heap q).current = (c.heap q).current := by
  obtain ⟨x, y, rest, hml⟩ : ∃ x y rest, c.motorList = x :: y :: rest := by
    match hm : c.motorList, hlen with
    | x :: y :: rest, _ => exact ⟨x, y, rest, rfl⟩
    | [_], h => rw [hm] at hlen; simp at hlen
    | [], h => rw [hm] at hlen; simp at hlen
  have hd : ((c.heap p).distance = 0 ∨ targetSpeed c.heap [p] p = 0) := by
    rcases hdeg with h | h
    · exact Or.inl h
    · exact Or.inr (targetSpeed_zero c.heap [p] p p (List.mem_singleton_self p) h)
  have h1 := doMove_degenerate E
    { c with motorList := some p :: none :: rest, mCnt := 1 } [p] rest p [] rfl (by simp)
    rfl hd
  refine ⟨{ sortedState { c with motorList := some p :: none :: rest, mCnt := 1 } p [] rest
    with mCnt := 0 }, ?_, rfl, rfl, rfl, rfl, fun q => (initHeap_current c.heap p [] q).1⟩
  unfold moveAsync writeSlot
  simp only [hc, hml, List.length_cons, Nat.zero_lt_succ, if_true, List.set_cons_zero,
    Nat.zero_add, Nat.lt_add_left_iff_pos, List.set_cons_succ]
  simp only [List.length_singleton] at h1
  rw [h1]

/-- C7, refuted as stated: two axes with distances 3 and 10, the first with
`vMax` 0, staged in this order. `doMove` aborts (target speed 0, nothing
called), yet the list order, the lead reference and the error term of the
first axis have changed. -/
theorem doMove_abort_changes_state :
    ∃ c', doMove flatEngine 2 stagedAbort = some c' ∧
      targetSpeed stagedAbort.heap [1, 0] 1 = 0 ∧
      c'.trace = stagedAbort.trace ∧
      stagedAbort.motorList = [some 0, some 1, none] ∧
      c'.motorList = [some 1, some 0, none] ∧
      stagedAbort.leadMotor = none ∧ c'.leadMotor = some 1 ∧
      (stagedAbort.heap 0).B = 0 ∧ (c'.heap 0).B = -4 :=
  ⟨sortedState stagedAbort 1 [0] [],
    doMove_degenerate flatEngine stagedAbort [0, 1] [] 1 [0] rfl (by simp) (by decide)
      (Or.inr (by decide)),
    by decide, rfl, rfl, rfl, rfl, rfl, rfl, by decide⟩

/-- C7, amended: when `doMove` aborts, the state it returns differs from the
one it was given in this only: the first `N` slots hold the staged axes sorted
(the lead first), the lead reference is slot 0, and the error term of every
axis in slots `1 .. N-1` is `2 * distance - lead.distance` as a 32-bit value.
The timer, the callback, `mCnt`, the profile, the trace (nothing is called),
the slots from `N` on and every other field of every axis are as before. -/
theorem doMove_abort_state (E : Engine σ) (c : Control σ) (ptrs : List Ptr)
    (rest : List (Option Ptr)) (lead : Ptr) (slaves : List Ptr)
    (hm : c.motorList = ptrs.map some ++ none :: rest) (hne : ptrs ≠ [])
    (hs : stdSort (cmpDelta c.heap) ptrs = lead :: slaves)
    (hdeg : (c.heap lead).distance = 0 ∨ targetSpeed c.heap (lead :: slaves) lead = 0) :
    ∃ c', doMove E ptrs.length c = some c' ∧
      c'.timer = c.timer ∧ c'.callback = c.callback ∧ c'.mCnt = c.mCnt ∧
      c'.profile = c.profile ∧ c'.trace = c.trace ∧
      c'.motorList = (lead :: slaves).map some ++ none :: rest ∧
      (lead :: slaves).Perm ptrs ∧
      c'.leadMotor = some lead ∧
      ∀ q, c'.heap q =
        if q ∈ slaves then
          { c.heap q with
            B := wrapInt32 (2 * (c.heap q).distance - (c.heap lead).distance) }
        else c.heap q :=
  ⟨_, doMove_degenerate E c ptrs rest lead slaves hm hne hs hdeg, rfl, rfl, rfl, rfl, rfl, rfl,
    hs ▸ stdSort_perm (cmpDelta c.heap) ptrs, rfl, fun _ => rfl⟩

/-- C7, amended, at the two axes with distances 3 and 10. -/
theorem doMove_abort_state_witness :
    ∃ c', doMove flatEngine 2 stagedAbort = some c' ∧
      c'.timer = stagedAbort.timer ∧ c'.callback = stagedAbort.callback ∧
      c'.mCnt = stagedAbort.mCnt ∧
      c'.profile = stagedAbort.profile ∧ c'.trace = stagedAbort.trace ∧
      c'.motorList = [some 1, some 0] ++ none :: [] ∧
      [1, 0].Perm [0, 1] ∧
      c'.leadMotor = some 1 ∧
      ∀ q, c'.heap q =
        if q ∈ [0] then
          { stagedAbort.heap q with
            B := wrapInt32 (2 * (stagedAbort.heap q).distance -
              (stagedAbort.heap 1).distance) }
        else stagedAbort.heap q :=
  doMove_abort_state flatEngine stagedAbort [0, 1] [] 1 [0] rfl (by simp) (by decide)
    (Or.inr (by decide))

/-! ## Arming the timer (C8) -/

theorem completionEvents_tick (c : Control σ) (lead : Ptr) :
    ∀ e ∈ completionEvents c lead, e.isTickEvent = true := by
  intro e he
  unfold completionEvents at he
  split at he
  · rcases List.mem_cons.1 he with rfl | he
    · rfl
    · obtain ⟨f, -, rfl⟩ := List.mem_map.1 he
      rfl
  · simp at he

theorem tickEvent_not_prepare (e : Event) (h : e.isTickEvent = true) :
    e.isPrepareMovement = false ∧ e ≠ Event.timerStart := by
  cases e <;> simp [Event.isTickEvent, Event.isPrepareMovement] at h ⊢

theorem delayEvent_not_prepare (e : Event) (h : e.isDelayEvent = true) :
    e.isPrepareMovement = false ∧ e ≠ Event.timerStart := by
  cases e <;> simp [Event.isDelayEvent, Event.isPrepareMovement] at h ⊢

theorem startTimer_sortedState_trace (E : Engine σ) (c : Control σ) (lead : Ptr)
    (slaves : List Ptr) (rest : List (Option Ptr)) (speed acc : Nat) :
    (startTimer E lead speed acc (sortedState c lead slaves rest)).trace =
      c.trace ++ [Event.timerStop,
        Event.prepareMovement (c.heap lead).current (c.heap lead).target speed acc,
        Event.timerSetFrequency (E.hooks.prepareMovement c.profile (c.heap lead).current
          (c.heap lead).target speed acc).1,
        Event.timerStart] := by
  have h1 : (initHeap c.heap lead slaves lead).current = (c.heap lead).current :=
    (initHeap_current c.heap lead slaves lead).1
  have h2 : (initHeap c.heap lead slaves lead).target = (c.heap lead).target :=
    (sameAxes_initHeap c.heap lead slaves lead).2.1
  simp only [startTimer, sortedState, Control.timerStop, Control.timerSetFrequency,
    Control.timerStart, h1, h2, List.append_assoc, List.singleton_append, List.cons_append,
    List.nil_append]

/-- C8: on a non-degenerate move `doMove` stops the timer, calls
`prepareMovement(lead.current, lead.target, targetSpeed, acceleration)`,
programs the timer with the frequency returned and starts it, in this order;
it calls `prepareMovement` no second time; `targetSpeed` is the least `|vMax|`
and `acceleration` the least `a` over all staged axes. -/
theorem doMove_prepares_once (E : Engine σ) (c : Control σ) (ptrs : List Ptr)
    (rest : List (Option Ptr)) (lead : Ptr) (slaves : List Ptr)
    (hm : c.motorList = ptrs.map some ++ none :: rest) (hne : ptrs ≠ [])
    (hs : stdSort (cmpDelta c.heap) ptrs = lead :: slaves)
    (hdist : (c.heap lead).distance ≠ 0)
    (hspeed : targetSpeed c.heap (lead :: slaves) lead ≠ 0) :
    ∃ c' evs speed acc, doMove E ptrs.length c = some c' ∧
      c'.trace = c.trace ++ ([Event.timerStop,
        Event.prepareMovement (c.heap lead).current (c.heap lead).target speed acc,
        Event.timerSetFrequency (E.hooks.prepareMovement c.profile (c.heap lead).current
          (c.heap lead).target speed acc).1,
        Event.timerStart] ++ evs) ∧
      (∀ e ∈ evs, e.isPrepareMovement = false ∧ e ≠ Event.timerStart) ∧
      c'.trace.countP Event.isPrepareMovement =
        c.trace.countP Event.isPrepareMovement + 1 ∧
      (∃ m ∈ ptrs, speed = wrapUInt32 (c.heap m).vMax.natAbs ∧
        ∀ q ∈ ptrs, (c.heap m).vMax.natAbs ≤ (c.heap q).vMax.natAbs) ∧
      (∃ m ∈ ptrs, acc = (c.heap m).a ∧ ∀ q ∈ ptrs, (c.heap m).a ≤ (c.heap q).a) := by
  have hperm : (lead :: slaves).Perm ptrs := hs ▸ stdSort_perm (cmpDelta c.heap) ptrs
  have hrun : ¬ ((c.heap lead).distance = 0 ∨
      targetSpeed c.heap (lead :: slaves) lead = 0) := by
    rintro (h | h)
    · exact hdist h
    · exact hspeed h
  obtain ⟨c2, evs1, p1, p2, p3, -, -, -, -, p8, p9, -⟩ := pitISR_general E
    (startTimer E lead (targetSpeed c.heap (lead :: slaves) lead)
      (acceleration c.heap (lead :: slaves) lead) (sortedState c lead slaves rest))
    lead (some lead) slaves rest rfl rfl
  obtain ⟨c3, evs2, d1, -, -, -, -, -, -, d8, d9⟩ := delayISR_staged E
    E.accLoopDelayChannel c2 lead (lead :: slaves) rest (p3.trans rfl) (p2.trans rfl)
  have hevs : ∀ e ∈ Event.doStep lead :: evs1 ++
      Event.trigger E.pulseWidth E.pinResetDelayChannel :: completionEvents c2 lead ++ evs2,
      e.isPrepareMovement = false ∧ e ≠ Event.timerStart := by
    intro e he
    rcases List.mem_append.1 he with he | he
    · rcases List.mem_append.1 he with he | he
      · rcases List.mem_cons.1 he with rfl | he
        · exact tickEvent_not_prepare _ rfl
        · obtain ⟨q, -, rfl⟩ := p9 e he
          exact tickEvent_not_prepare _ rfl
      · rcases List.mem_cons.1 he with rfl | he
        · exact tickEvent_not_prepare _ rfl
        · exact tickEvent_not_prepare _ (completionEvents_tick c2 lead e he)
    · exact delayEvent_not_prepare _ (d9 e he)
  have htrace : c3.trace = c.trace ++ ([Event.timerStop,
      Event.prepareMovement (c.heap lead).current (c.heap lead).target
        (targetSpeed c.heap (lead :: slaves) lead) (acceleration c.heap (lead :: slaves) lead),
      Event.timerSetFrequency (E.hooks.prepareMovement c.profile (c.heap lead).current
        (c.heap lead).target (targetSpeed c.heap (lead :: slaves) lead)
        (acceleration c.heap (lead :: slaves) lead)).1,
      Event.timerStart] ++ (Event.doStep lead :: evs1 ++
      Event.trigger E.pulseWidth E.pinResetDelayChannel :: completionEvents c2 lead ++
      evs2)) := by
    rw [d8, p8, startTimer_sortedState_trace]
    simp only [List.append_assoc]
  refine ⟨c3, _, targetSpeed c.heap (lead :: slaves) lead,
    acceleration c.heap (lead :: slaves) lead, ?_, htrace, hevs, ?_, ?_, ?_⟩
  · rw [doMove_run E c ptrs rest lead slaves hm hne hs hrun, p1]
    exact d1
  · rw [htrace, List.countP_append, List.countP_append]
    have h0 : List.countP Event.isPrepareMovement (Event.doStep lead :: evs1 ++
        Event.trigger E.pulseWidth E.pinResetDelayChannel :: completionEvents c2 lead ++
        evs2) = 0 := by
      rw [List.countP_eq_zero]
      intro e he
      rw [(hevs e he).1]
      simp
    rw [h0]
    rfl
  · obtain ⟨m, hmem, h1, h2⟩ := targetSpeed_spec c.heap (lead :: slaves) lead (by simp)
    exact ⟨m, hperm.mem_iff.1 hmem, h1, fun q hq => h2 q (hperm.mem_iff.2 hq)⟩
  · obtain ⟨m, hmem, h1, h2⟩ := acceleration_spec c.heap (lead :: slaves) lead (by simp)
    exact ⟨m, hperm.mem_iff.1 hmem, h1, fun q hq => h2 q (hperm.mem_iff.2 hq)⟩

/-- C8 at the axes with distances 50, 50, 10: speed 800 and acceleration 1500
come from the second and the third axis, not from the lead. -/
theorem doMove_prepares_once_witness :
    ∃ c' evs speed acc, doMove flatEngine 3 staged505010 = some c' ∧
      c'.trace = staged505010.trace ++ ([Event.timerStop,
        Event.prepareMovement (staged505010.heap 0).current (staged505010.heap 0).target
          speed acc,
        Event.timerSetFrequency (flatEngine.hooks.prepareMovement staged505010.profile
          (staged505010.heap 0).current (staged505010.heap 0).target speed acc).1,
        Event.timerStart] ++ evs) ∧
      (∀ e ∈ evs, e.isPrepareMovement = false ∧ e ≠ Event.timerStart) ∧
      c'.trace.countP Event.isPrepareMovement =
        staged505010.trace.countP Event.isPrepareMovement + 1 ∧
      (∃ m ∈ [0, 1, 2], speed = wrapUInt32 (staged505010.heap m).vMax.natAbs ∧
        ∀ q ∈ [0, 1, 2],
          (staged505010.heap m).vMax.natAbs ≤ (staged505010.heap q).vMax.natAbs) ∧
      (∃ m ∈ [0, 1, 2], acc = (staged505010.heap m).a ∧
        ∀ q ∈ [0, 1, 2], (staged505010.heap m).a ≤ (staged505010.heap q).a) :=
  doMove_prepares_once flatEngine staged505010 [0, 1, 2] [none] 0 [1, 2] rfl (by simp)
    (by decide) (by decide) (by decide)

/-! ## `stopAsync` (C9, C10) -/

/-- The state `stopAsync` returns when the lead reference is `lead`. -/
theorem stopAsync_eq (E : Engine σ) (c : Control σ) (lead : Ptr)
    (hl : c.leadMotor = some lead) :
    stopAsync E c = some
      { c with profile := (E.hooks.initiateStopping c.profile (c.heap lead).current).2,
               trace := c.trace ++ [Event.initiateStopping (c.heap lead).current],
               heap := c.heap.set lead { c.heap lead with
                 target := wrapInt32 (wrapUInt32
                   (E.hooks.initiateStopping c.profile (c.heap lead).current).1) } } := by
  unfold stopAsync
  rw [hl]

/-- C10: `stopAsync` calls `initiateStopping` once, with the lead's current
position, stores the result, as a 32-bit unsigned value converted to the signed
target, in the lead's target, and changes nothing else of the engine: timer,
list, lead reference, callback, `mCnt`, every other field of the lead and all
other axes are as before; the one event is the call of the hook, so the
callback is not invoked. (The hook may update the subclass's own state.) -/
theorem stopAsync_only_redirects (E : Engine σ) (c : Control σ) (lead : Ptr)
    (hl : c.leadMotor = some lead) :
    ∃ c', stopAsync E c = some c' ∧
      c'.trace = c.trace ++ [Event.initiateStopping (c.heap lead).current] ∧
      c'.heap lead = { c.heap lead with
        target := wrapInt32
          (wrapUInt32 (E.hooks.initiateStopping c.profile (c.heap lead).current).1) } ∧
      (∀ q, q ≠ lead → c'.heap q = c.heap q) ∧
      c'.timer = c.timer ∧ c'.motorList = c.motorList ∧ c'.leadMotor = c.leadMotor ∧
      c'.callback = c.callback ∧ c'.mCnt = c.mCnt ∧
      c'.profile = (E.hooks.initiateStopping c.profile (c.heap lead).current).2 := by
  exact ⟨_, stopAsync_eq E c lead hl, rfl, Heap.set_same _ _ _,
    fun q hq => Heap.set_ne _ _ _ _ hq, rfl, rfl, rfl, rfl, rfl, rfl⟩

/-- C10 in the middle of the move of one axis by 10 steps: the target
becomes 2. -/
theorem stopAsync_only_redirects_witness :
    ∃ c1, doMove flatEngine 1 stagedTen = some c1 ∧ c1.leadMotor = some 0 ∧
      ∃ c', stopAsync flatEngine c1 = some c' ∧
      c'.trace = c1.trace ++ [Event.initiateStopping (c1.heap 0).current] ∧
      c'.heap 0 = { c1.heap 0 with
        target := wrapInt32 (wrapUInt32
          (flatEngine.hooks.initiateStopping c1.profile (c1.heap 0).current).1) } ∧
      (∀ q, q ≠ 0 → c'.heap q = c1.heap q) ∧
      c'.timer = c1.timer ∧ c'.motorList = c1.motorList ∧ c'.leadMotor = c1.leadMotor ∧
      c'.callback = c1.callback ∧ c'.mCnt = c1.mCnt ∧
      c'.profile = (flatEngine.hooks.initiateStopping c1.profile (c1.heap 0).current).2 :=
  ⟨_, rfl, rfl, stopAsync_only_redirects flatEngine _ 0 rfl⟩

/-- C9, refuted as stated: one axis is to move 10 steps; after the first step
`stopAsync` redirects the target to position 2; the next step handler finds the
lead there, stops the timer and invokes the registered callback 7. -/
theorem callback_invoked_after_stopAsync :
    Option.map (completionReport 7) (doMove flatEngine 1 stagedTen) = some (true, 0) ∧
    Option.map (fun c => (c.heap 0).target)
      ((doMove flatEngine 1 stagedTen).bind (stopAsync flatEngine)) = some 2 ∧
    Option.map (completionReport 7)
      ((doMove flatEngine 1 stagedTen).bind (stopAsync flatEngine)) = some (true, 0) ∧
    Option.map (completionReport 7)
      (((doMove flatEngine 1 stagedTen).bind (stopAsync flatEngine)).bind
        (pitISR flatEngine)) = some (false, 1) := by
  refine ⟨?_, ?_, ?_, ?_⟩ <;> decide

/-! ## Bresenham arithmetic -/

theorem wrapInt32_id (x : Int) (h : isInt32 x) : wrapInt32 x = x := by
  unfold wrapInt32
  unfold isInt32 at h
  omega

theorem bres_step (D d B k n : Int) (h0 : 0 ≤ d) (hnk : n ≤ k) (hkD : k < D)
    (hB : B = (k + 2) * d - D - n * D) (hB0 : 0 ≤ B) : n + 1 ≤ d := by
  by_contra hc
  have hnd : d ≤ n := by omega
  have h1 : (k + 1) * d ≤ D * d := mul_le_mul_of_nonneg_right (by omega) h0
  have h2 : d * D ≤ n * D := mul_le_mul_of_nonneg_right hnd (by omega)
  nlinarith

theorem bres_final (D d B n : Int) (hn0 : 0 ≤ n)
    (hnd : n ≤ d) (hB : B = (D + 2) * d - D - n * D) (hhi : B ≤ d) (hD : 0 < D) : n = d := by
  by_contra hc
  have hlt : n + 1 ≤ d := by omega
  have h2 : (n + 1) * D ≤ d * D := mul_le_mul_of_nonneg_right hlt (by omega)
  nlinarith

theorem cur_range (cur dir d m : Int) (hc : isInt32 cur) (ht : isInt32 (cur + dir * d))
    (hdir : dir = 1 ∨ dir = -1) (hm0 : 0 ≤ m) (hmd : m ≤ d) : isInt32 (cur + m * dir) := by
  unfold isInt32 at *
  rcases hdir with h | h <;> subst h <;> constructor <;> omega

theorem slaveTick_step (D : Int) (s : Stepper) (hB : 0 ≤ s.B) :
    (slaveTick D s).B = wrapInt32 (wrapInt32 (s.B - D) + s.distance) ∧
    (slaveTick D s).current = wrapInt32 (s.current + s.dir) := by
  simp [slaveTick, hB, Stepper.doStep]

theorem slaveTick_rest (D : Int) (s : Stepper) (hB : ¬ 0 ≤ s.B) :
    (slaveTick D s).B = wrapInt32 (s.B + s.distance) ∧
    (slaveTick D s).current = s.current := by
  simp [slaveTick, hB]

/-- One pass of the slave loop keeps the invariant of a slave axis. -/
theorem slaveTick_inv (D : Int) (s0 s : Stepper) (k n : Nat) (hs0 : AxisReady s0)
    (hdD : s0.distance ≤ D) (hD : isInt32 D) (hk : (k : Int) < D)
    (hdist : s.distance = s0.distance) (hdir : s.dir = s0.dir)
    (inv : SlaveInv D s0 k n s) :
    SlaveInv D s0 (k + 1) (n + if 0 ≤ s.B then 1 else 0) (slaveTick D s) := by
  obtain ⟨le_k, le_d, B_eq, B_lo, B_hi, cur_eq⟩ := inv
  have hd0 := hs0.nonneg
  have hDr := hD
  unfold isInt32 at hDr
  by_cases hB : 0 ≤ s.B
  · have hn1 : (n : Int) + 1 ≤ s0.distance :=
      bres_step D s0.distance s.B k n hd0 (by exact_mod_cast le_k) hk B_eq hB
    have hw1 : wrapInt32 (s.B - D) = s.B - D :=
      wrapInt32_id _ (by unfold isInt32; constructor <;> omega)
    have hw2 : wrapInt32 (s.B - D + s0.distance) = s.B - D + s0.distance :=
      wrapInt32_id _ (by unfold isInt32; constructor <;> omega)
    have hcr : isInt32 (s0.current + ((n : Int) + 1) * s0.dir) :=
      cur_range s0.current s0.dir s0.distance _ hs0.cur (hs0.geom ▸ hs0.tgt) hs0.dir
        (by omega) hn1
    have hw3 : wrapInt32 (s.current + s.dir) = s0.current + ((n : Int) + 1) * s0.dir := by
      rw [cur_eq, hdir]
      have : s0.current + (n : Int) * s0.dir + s0.dir =
          s0.current + ((n : Int) + 1) * s0.dir := by ring
      rw [this]
      exact wrapInt32_id _ hcr
    obtain ⟨hBt, hct⟩ := slaveTick_step D s hB
    rw [hdist, hw1, hw2] at hBt
    rw [hw3] at hct
    rw [if_pos hB]
    refine ⟨by omega, by push_cast; exact hn1, ?_, by rw [hBt]; omega, by rw [hBt]; omega,
      by rw [hct]; push_cast; rfl⟩
    rw [hBt, B_eq]
    push_cast
    ring
  · have hw : wrapInt32 (s.B + s0.distance) = s.B + s0.distance :=
      wrapInt32_id _ (by unfold isInt32; constructor <;> omega)
    obtain ⟨hBt, hct⟩ := slaveTick_rest D s hB
    rw [hdist, hw] at hBt
    rw [if_neg hB, Nat.add_zero]
    refine ⟨by omega, le_d, ?_, by rw [hBt]; omega, by rw [hBt]; omega, by rw [hct]; exact cur_eq⟩
    rw [hBt, B_eq]
    push_cast
    ring

/-! ## The invariant is kept -/

theorem slaveEvents_mem (h : Heap) (L : List Ptr) :
    ∀ e ∈ slaveEvents h L, ∃ q ∈ L, e = Event.doStep q := by
  intro e he
  unfold slaveEvents at he
  obtain ⟨q, hq, rfl⟩ := List.mem_map.1 he
  exact ⟨q, (List.mem_filter.1 hq).1, rfl⟩

theorem count_doStep_slaveEvents (h : Heap) (L : List Ptr) (p : Ptr) (hn : L.Nodup) :
    (slaveEvents h L).count (Event.doStep p) = if p ∈ L ∧ 0 ≤ (h p).B then 1 else 0 := by
  induction L with
  | nil => simp [slaveEvents]
  | cons q L ih =>
    have hqL : q ∉ L := (List.nodup_cons.1 hn).1
    rw [slaveEvents_cons, List.count_append, ih (List.nodup_cons.1 hn).2]
    by_cases hpq : p = q
    · subst hpq
      by_cases hB : 0 ≤ (h p).B <;> simp [slaveEvents, List.filter_cons, hB, hqL]
    · have hqp : ¬ q = p := fun h => hpq h.symm
      by_cases hB : 0 ≤ (h q).B <;> simp [slaveEvents, List.filter_cons, hB, hpq, hqp]

theorem count_other_slaveEvents (h : Heap) (L : List Ptr) (e : Event)
    (he : ∀ q, e ≠ Event.doStep q) : (slaveEvents h L).count e = 0 := by
  rw [List.count_eq_zero]
  intro hmem
  obtain ⟨q, -, hq⟩ := slaveEvents_mem h L e hmem
  exact he q hq

theorem filter_isCallback_slaveEvents (h : Heap) (L : List Ptr) :
    (slaveEvents h L).filter Event.isCallback = [] := by
  rw [List.filter_eq_nil_iff]
  intro e hmem
  obtain ⟨q, -, rfl⟩ := slaveEvents_mem h L e hmem
  simp [Event.isCallback]

/-- The fields of the closed form `tick`. -/
theorem tick_spec (E : Engine σ) (lead : Ptr) (slaves : List Ptr) (c : Control σ) :
    (tick E lead slaves c).heap = tickHeap c.heap lead slaves ∧
    (tick E lead slaves c).motorList = c.motorList ∧
    (tick E lead slaves c).leadMotor = c.leadMotor ∧
    (tick E lead slaves c).callback = c.callback ∧
    (tick E lead slaves c).trace = c.trace ++ (Event.doStep lead :: slaveEvents c.heap slaves ++
      Event.trigger E.pulseWidth E.pinResetDelayChannel ::
      (if (c.heap lead).doStep.current = (c.heap lead).target then
        Event.timerStop :: c.callback.toList.map Event.callback else [])) ∧
    (tick E lead slaves c).timer.running =
      (if (c.heap lead).doStep.current = (c.heap lead).target then false
       else c.timer.running) := by
  have hl : tickHeap c.heap lead slaves lead = (c.heap lead).doStep := by
    simp [tickHeap]
  obtain ⟨a1, a2, -, a4, a5, -⟩ := completionCheck_frame lead
    { c with heap := tickHeap c.heap lead slaves,
             trace := c.trace ++ (Event.doStep lead :: slaveEvents c.heap slaves ++
               [Event.trigger E.pulseWidth E.pinResetDelayChannel]) }
  obtain ⟨s1, s2⟩ := completionCheck_spec lead
    { c with heap := tickHeap c.heap lead slaves,
             trace := c.trace ++ (Event.doStep lead :: slaveEvents c.heap slaves ++
               [Event.trigger E.pulseWidth E.pinResetDelayChannel]) }
  refine ⟨a5, a1, a2, a4, ?_, ?_⟩
  · unfold tick
    rw [s1]
    simp only [completionEvents, hl, Stepper.doStep, List.append_assoc, List.cons_append,
      List.singleton_append, List.nil_append]
  · unfold tick
    rw [s2]
    simp only [hl, Stepper.doStep]

theorem lead_done_iff (cur dir D : Int) (k : Nat) (hdir : dir = 1 ∨ dir = -1) :
    cur + ((k : Int) + 1) * dir = cur + dir * D ↔ (k : Int) + 1 = D := by
  rcases hdir with h | h <;> subst h <;> constructor <;> intro h <;> omega

theorem moveInv_init (lead : Ptr) (slaves : List Ptr) (rest : List (Option Ptr))
    (c : Control σ) (hm : c.motorList = some lead :: (slaves.map some ++ none :: rest))
    (hl : c.leadMotor = some lead) (hr : c.timer.running = true)
    (hset : MoveSetup lead slaves c.heap) :
    MoveInv lead slaves rest c.heap c.callback c.trace 0 [] c := by
  have hpos := hset.pos
  refine ⟨hm, hl, rfl, by simp, sameAxes_refl _, ?_, by simp, by simp, ?_, fun _ _ _ => rfl,
    ?_, ?_⟩
  · rw [hr]
    simp [hpos]
  · intro p hp
    obtain ⟨ok, hle, hB⟩ := hset.slaveOK p hp
    have := ok.nonneg
    refine ⟨by simp, by simpa using ok.nonneg, ?_, by omega, by omega, by simp⟩
    rw [hB, List.count_nil]
    push_cast
    ring
  · have : ¬ ((0 : Int) = (c.heap lead).distance) := by omega
    simp [this]
  · have : ¬ ((0 : Int) = (c.heap lead).distance) := by omega
    simp [this]

/-- One step-handler invocation before the lead's last step keeps the
invariant and counts one tick. -/
theorem moveInv_tick (E : Engine σ) (lead : Ptr) (slaves : List Ptr)
    (rest : List (Option Ptr)) (h0 : Heap) (cb : Option Nat) (t0 : List Event) (k : Nat)
    (evs : List Event) (c : Control σ) (hset : MoveSetup lead slaves h0)
    (inv : MoveInv lead slaves rest h0 cb t0 k evs c) (hk : (k : Int) < (h0 lead).distance) :
    ∃ c' evs', pitISR E c = some c' ∧
      MoveInv lead slaves rest h0 cb t0 (k + 1) (evs ++ evs') c' := by
  have hp := pitISR_eq_tick E c lead (some lead) slaves rest inv.leadMotor inv.motorList
    hset.lead_notin hset.nodup
  obtain ⟨t1, t2, t3, t4, t5, t6⟩ := tick_spec E lead slaves c
  have hax := inv.axes
  have hcb := inv.callback
  have hlok := hset.leadOK
  have hDr := hlok.dist
  -- the lead's step
  have hdirL : (c.heap lead).dir = (h0 lead).dir := (hax lead).2.2.2.2
  have htgtL : (c.heap lead).target = (h0 lead).current + (h0 lead).dir * (h0 lead).distance := by
    rw [(hax lead).2.1, hlok.geom]
  have hcurR : isInt32 ((h0 lead).current + ((k : Int) + 1) * (h0 lead).dir) :=
    cur_range _ _ (h0 lead).distance _ hlok.cur (hlok.geom ▸ hlok.tgt) hlok.dir (by omega)
      (by omega)
  have hcurL : (c.heap lead).doStep.current =
      (h0 lead).current + ((k : Int) + 1) * (h0 lead).dir := by
    show wrapInt32 ((c.heap lead).current + (c.heap lead).dir) = _
    rw [inv.leadCur, hdirL]
    have : (h0 lead).current + (k : Int) * (h0 lead).dir + (h0 lead).dir =
        (h0 lead).current + ((k : Int) + 1) * (h0 lead).dir := by ring
    rw [this]
    exact wrapInt32_id _ hcurR
  have hdone : (c.heap lead).doStep.current = (c.heap lead).target ↔
      (k : Int) + 1 = (h0 lead).distance := by
    rw [hcurL, htgtL]
    exact lead_done_iff _ _ _ k hlok.dir
  have hnotk : ¬ ((k : Int) = (h0 lead).distance) := by omega
  refine ⟨tick E lead slaves c, Event.doStep lead :: slaveEvents c.heap slaves ++
    Event.trigger E.pulseWidth E.pinResetDelayChannel ::
    (if (c.heap lead).doStep.current = (c.heap lead).target then
      Event.timerStop :: c.callback.toList.map Event.callback else []), hp, ?_⟩
  refine ⟨t2.trans inv.motorList, t3.trans inv.leadMotor, t4.trans hcb, ?_, ?_, ?_, ?_, ?_, ?_,
    ?_, ?_, ?_⟩
  · rw [t5, inv.trace, List.append_assoc]
  · -- axes
    rw [t1]
    intro q
    obtain ⟨a1, a2, a3, a4, a5⟩ := hax q
    unfold tickHeap
    by_cases hq : q = lead
    · simp only [hq, if_true, Stepper.doStep]
      subst hq
      exact ⟨a1, a2, a3, a4, a5⟩
    · by_cases hqs : q ∈ slaves
      · simp only [hq, hqs, if_true, if_false, slaveTick]
        split <;> exact ⟨a1, a2, a3, a4, a5⟩
      · simp only [hq, hqs, if_false]
        exact ⟨a1, a2, a3, a4, a5⟩
  · -- running
    rw [t6, inv.running]
    by_cases hd : (c.heap lead).doStep.current = (c.heap lead).target
    · have := hdone.1 hd
      simp only [hd, if_true]
      symm
      rw [decide_eq_false_iff_not]
      push_cast
      omega
    · have := fun h => hd (hdone.2 h)
      simp only [hd, if_false]
      have h1 : (k : Int) + 1 < (h0 lead).distance := by omega
      simp [hk, h1]
  · -- the lead's position
    rw [t1]
    have : tickHeap c.heap lead slaves lead = (c.heap lead).doStep := by simp [tickHeap]
    rw [this, hcurL]
    push_cast
    rfl
  · -- the lead's steps
    simp only [List.count_append, List.count_cons, inv.leadSteps,
      count_doStep_slaveEvents _ _ _ hset.nodup]
    have h1 : List.count (Event.doStep lead)
        (if (c.heap lead).doStep.current = (c.heap lead).target then
          Event.timerStop :: c.callback.toList.map Event.callback else []) = 0 := by
      rw [List.count_eq_zero]
      intro hmem
      split at hmem
      · rcases List.mem_cons.1 hmem with h | h
        · cases h
        · obtain ⟨f, -, hf⟩ := List.mem_map.1 h
          cases hf
      · simp at hmem
    rw [h1]
    simp [hset.lead_notin]
  · -- the slaves
    intro p hps
    have hpl : p ≠ lead := fun h => hset.lead_notin (h ▸ hps)
    obtain ⟨ok, hle, -⟩ := hset.slaveOK p hps
    have hdL : (c.heap lead).distance = (h0 lead).distance := (hax lead).1
    have hheap : (tick E lead slaves c).heap p = slaveTick (h0 lead).distance (c.heap p) := by
      rw [t1]
      simp [tickHeap, hpl, hps, hdL]
    have hcount : List.count (Event.doStep p) (evs ++ (Event.doStep lead ::
        slaveEvents c.heap slaves ++ Event.trigger E.pulseWidth E.pinResetDelayChannel ::
        (if (c.heap lead).doStep.current = (c.heap lead).target then
          Event.timerStop :: c.callback.toList.map Event.callback else []))) =
        evs.count (Event.doStep p) + if 0 ≤ (c.heap p).B then 1 else 0 := by
      simp only [List.count_append, List.count_cons,
        count_doStep_slaveEvents _ _ _ hset.nodup]
      have h1 : List.count (Event.doStep p)
          (if (c.heap lead).doStep.current = (c.heap lead).target then
            Event.timerStop :: c.callback.toList.map Event.callback else []) = 0 := by
        rw [List.count_eq_zero]
        intro hmem
        split at hmem
        · rcases List.mem_cons.1 hmem with h | h
          · cases h
          · obtain ⟨f, -, hf⟩ := List.mem_map.1 h
            cases hf
        · simp at hmem
      rw [h1]
      have hlp : ¬ lead = p := fun h => hpl h.symm
      by_cases hB : 0 ≤ (c.heap p).B <;> simp [hps, hB, hlp]
    rw [hheap, hcount]
    exact slaveTick_inv (h0 lead).distance (h0 p) (c.heap p) k _ ok hle hDr hk
      (hax p).1 (hax p).2.2.2.2 (inv.slave p hps)
  · -- the other axes
    intro q hq hqs
    rw [t1]
    simp only [tickHeap, hq, hqs, if_false]
    exact inv.others q hq hqs
  · -- callbacks
    simp only [List.filter_append, List.filter_cons, inv.callbacks,
      filter_isCallback_slaveEvents, hnotk, if_false, Event.isCallback, List.nil_append]
    push_cast
    by_cases hd : (c.heap lead).doStep.current = (c.heap lead).target
    · have h1 := hdone.1 hd
      rw [hcb]
      cases cb <;> simp [hd, h1, List.filter_cons, Event.isCallback]
    · have h1 : ¬ ((k : Int) + 1 = (h0 lead).distance) := fun h => hd (hdone.2 h)
      simp [hd, h1]
  · -- timer stops
    have hts : List.count Event.timerStop (slaveEvents c.heap slaves) = 0 :=
      count_other_slaveEvents _ _ Event.timerStop (fun q h => by cases h)
    simp only [List.count_append, List.count_cons, inv.stops, hts, hnotk, if_false]
    push_cast
    by_cases hd : (c.heap lead).doStep.current = (c.heap lead).target
    · have h1 := hdone.1 hd
      have h2 : List.count Event.timerStop (c.callback.toList.map Event.callback) = 0 := by
        rw [List.count_eq_zero]
        intro hmem
        obtain ⟨f, -, hf⟩ := List.mem_map.1 hmem
        cases hf
      simp [hd, h1, List.count_cons, h2]
    · have h1 : ¬ ((k : Int) + 1 = (h0 lead).distance) := fun h => hd (hdone.2 h)
      simp [hd, h1]

theorem delayEvent_counts (evs : List Event) (h : ∀ e ∈ evs, e.isDelayEvent = true) :
    (∀ p, evs.count (Event.doStep p) = 0) ∧ evs.count Event.timerStop = 0 ∧
    evs.filter Event.isCallback = [] := by
  refine ⟨fun p => ?_, ?_, ?_⟩
  · rw [List.count_eq_zero]
    intro hmem
    have := h _ hmem
    simp [Event.isDelayEvent] at this
  · rw [List.count_eq_zero]
    intro hmem
    have := h _ hmem
    simp [Event.isDelayEvent] at this
  · rw [List.filter_eq_nil_iff]
    intro e hmem
    have := h _ hmem
    cases e <;> simp [Event.isDelayEvent, Event.isCallback] at this ⊢

/-- The delay handler, on either channel, keeps the invariant. -/
theorem moveInv_delay (E : Engine σ) (channel : Nat) (lead : Ptr) (slaves : List Ptr)
    (rest : List (Option Ptr)) (h0 : Heap) (cb : Option Nat) (t0 : List Event) (k : Nat)
    (evs : List Event) (c : Control σ)
    (inv : MoveInv lead slaves rest h0 cb t0 k evs c) :
    ∃ c' evs', delayISR E channel c = some c' ∧
      MoveInv lead slaves rest h0 cb t0 k (evs ++ evs') c' := by
  obtain ⟨c', evs', d1, d2, d3, -, d5, d6, d7, d8, d9⟩ := delayISR_staged E channel c lead
    (lead :: slaves) rest inv.leadMotor inv.motorList
  obtain ⟨n1, n2, n3⟩ := delayEvent_counts evs' d9
  refine ⟨c', evs', d1, d2.trans inv.motorList, d3.trans inv.leadMotor, d5.trans inv.callback,
    ?_, sameAxes_trans inv.axes d7.1, d6.trans inv.running, ?_, ?_, ?_, ?_, ?_, ?_⟩
  · rw [d8, inv.trace, List.append_assoc]
  · rw [(d7.2 lead).1]
    exact inv.leadCur
  · rw [List.count_append, n1, inv.leadSteps]
    rfl
  · intro p hp
    obtain ⟨i1, i2, i3, i4, i5, i6⟩ := inv.slave p hp
    rw [List.count_append, n1, Nat.add_zero]
    refine ⟨i1, i2, ?_, ?_, ?_, ?_⟩
    · rw [(d7.2 p).2]; exact i3
    · rw [(d7.2 p).2]; exact i4
    · rw [(d7.2 p).2]; exact i5
    · rw [(d7.2 p).1]; exact i6
  · intro q hq hqs
    rw [(d7.2 q).1]
    exact inv.others q hq hqs
  · rw [List.filter_append, n3, List.append_nil]
    exact inv.callbacks
  · rw [List.count_append, n2, Nat.add_zero]
    exact inv.stops

/-- Any number of step-handler invocations up to the lead's last step keeps
the invariant. -/
theorem moveInv_ticks (E : Engine σ) (lead : Ptr) (slaves : List Ptr)
    (rest : List (Option Ptr)) (h0 : Heap) (cb : Option Nat) (t0 : List Event)
    (hset : MoveSetup lead slaves h0) (j : Nat) :
    ∀ (k : Nat) (evs : List Event) (c : Control σ),
      MoveInv lead slaves rest h0 cb t0 k evs c → ((k + j : Nat) : Int) ≤ (h0 lead).distance →
      ∃ c' evs', pitISRs E j c = some c' ∧
        MoveInv lead slaves rest h0 cb t0 (k + j) (evs ++ evs') c' := by
  induction j with
  | zero =>
    intro k evs c inv _
    exact ⟨c, [], rfl, by simpa using inv⟩
  | succ j ih =>
    intro k evs c inv hk
    obtain ⟨c1, e1, hp, inv1⟩ := moveInv_tick E lead slaves rest h0 cb t0 k evs c hset inv
      (by push_cast at hk; omega)
    obtain ⟨c2, e2, hp2, inv2⟩ := ih (k + 1) (evs ++ e1) c1 inv1
      (by push_cast at hk ⊢; omega)
    refine ⟨c2, e1 ++ e2, ?_, ?_⟩
    · simp only [pitISRs, hp]
      exact hp2
    · have : k + (j + 1) = k + 1 + j := by omega
      rw [this, ← List.append_assoc]
      exact inv2

/-- The step handler, invoked while the timer runs, brings the move to its
last tick provided the fuel covers the remaining ticks. -/
theorem moveInv_runToStop (E : Engine σ) (lead : Ptr) (slaves : List Ptr)
    (rest : List (Option Ptr)) (h0 : Heap) (cb : Option Nat) (t0 : List Event)
    (hset : MoveSetup lead slaves h0) (D : Nat) (hD : (D : Int) = (h0 lead).distance)
    (fuel : Nat) :
    ∀ (k : Nat) (evs : List Event) (c : Control σ),
      MoveInv lead slaves rest h0 cb t0 k evs c → k ≤ D → D ≤ k + fuel →
      ∃ c' evs', runToStop E fuel c = some c' ∧
        MoveInv lead slaves rest h0 cb t0 D (evs ++ evs') c' := by
  induction fuel with
  | zero =>
    intro k evs c inv hk hf
    have hkD : k = D := by omega
    subst hkD
    have hr : c.timer.running = false := by
      rw [inv.running, ← hD]
      simp
    refine ⟨c, [], ?_, by simpa using inv⟩
    unfold runToStop
    simp [hr]
  | succ fuel ih =>
    intro k evs c inv hk hf
    by_cases hkD : k = D
    · subst hkD
      have hr : c.timer.running = false := by
        rw [inv.running, ← hD]
        simp
      refine ⟨c, [], ?_, by simpa using inv⟩
      unfold runToStop
      simp [hr]
    · have hlt : (k : Int) < (h0 lead).distance := by rw [← hD]; exact_mod_cast (by omega)
      have hr : c.timer.running = true := by
        rw [inv.running]
        simp [hlt]
      obtain ⟨c1, e1, hp, inv1⟩ := moveInv_tick E lead slaves rest h0 cb t0 k evs c hset inv hlt
      obtain ⟨c2, e2, hp2, inv2⟩ := ih (k + 1) (evs ++ e1) c1 inv1 (by omega) (by omega)
      refine ⟨c2, e1 ++ e2, ?_, by rw [← List.append_assoc]; exact inv2⟩
      unfold runToStop
      simp only [hr, Bool.true_eq_false, if_false, hp]
      exact hp2

/-! ## From the staged axes to the running move -/

theorem axisReady_initHeap (h : Heap) (lead : Ptr) (L : List Ptr) (q : Ptr)
    (ok : AxisReady (h q)) : AxisReady (initHeap h lead L q) := by
  obtain ⟨a1, a2, a3, a4, a5, a6, a7⟩ := ok
  unfold initHeap
  split <;> exact ⟨a1, a2, a3, a4, a5, a6, a7⟩

theorem targetSpeed_ne_zero (h : Heap) (L : List Ptr) (lead : Ptr) (hL : L ≠ [])
    (hv : ∀ p ∈ L, (h p).vMax ≠ 0 ∧ isInt32 (h p).vMax) : targetSpeed h L lead ≠ 0 := by
  obtain ⟨m, hmem, hm, -⟩ := targetSpeed_spec h L lead hL
  obtain ⟨h1, h2⟩ := hv m hmem
  rw [hm]
  unfold wrapUInt32
  unfold isInt32 at h2
  omega

/-- The axes of a non-degenerate move of distinct, ready axes satisfy the
setup of the invariant once `doMove` has sorted them and initialised the
error terms. -/
theorem moveSetup_of_sorted (c : Control σ) (ptrs : List Ptr) (lead : Ptr)
    (slaves : List Ptr) (hnd : ptrs.Nodup) (hok : ∀ p ∈ ptrs, AxisReady (c.heap p))
    (hs : stdSort (cmpDelta c.heap) ptrs = lead :: slaves)
    (hpos : 0 < (c.heap lead).distance) :
    MoveSetup lead slaves (initHeap c.heap lead slaves) := by
  have hperm : (lead :: slaves).Perm ptrs := hs ▸ stdSort_perm (cmpDelta c.heap) ptrs
  have hnd' : (lead :: slaves).Nodup := hperm.nodup_iff.2 hnd
  have hln : lead ∉ slaves := (List.nodup_cons.1 hnd').1
  have hsorted := stdSort_sorted (cmpDelta c.heap) (fun p => -|(c.heap p).distance|)
    (cmpDelta_iff c.heap) ptrs
  rw [hs] at hsorted
  have hlead : initHeap c.heap lead slaves lead = c.heap lead := by
    simp [initHeap, hln]
  have hokL : AxisReady (c.heap lead) := hok lead (hperm.mem_iff.1 (List.mem_cons_self _ _))
  refine ⟨hln, (List.nodup_cons.1 hnd').2, by rw [hlead]; exact hpos, by rw [hlead]; exact hokL,
    ?_⟩
  intro p hp
  have hokp : AxisReady (c.heap p) := hok p (hperm.mem_iff.1 (List.mem_cons_of_mem _ hp))
  have hle : (c.heap p).distance ≤ (c.heap lead).distance := by
    have := (List.pairwise_cons.1 hsorted).1 p hp
    simp only [neg_le_neg_iff] at this
    rw [abs_of_nonneg hokp.nonneg, abs_of_nonneg hokL.nonneg] at this
    exact this
  refine ⟨axisReady_initHeap _ _ _ _ hokp, ?_, ?_⟩
  · rw [hlead, (sameAxes_initHeap c.heap lead slaves p).1]
    exact hle
  · rw [hlead]
    have hd0 := hokp.nonneg
    have hDr := hokL.dist
    unfold isInt32 at hDr
    simp only [initHeap, hp, if_true]
    exact wrapInt32_id _ (by unfold isInt32; constructor <;> omega)

/-- A non-degenerate `doMove` of distinct, ready axes followed by `j` further
step-handler invocations, the lead's last step not passed: the invariant
holds with `j + 1` ticks counted. -/
theorem doMove_then_ticks (E : Engine σ) (c : Control σ) (ptrs : List Ptr)
    (rest : List (Option Ptr)) (lead : Ptr) (slaves : List Ptr)
    (hm : c.motorList = ptrs.map some ++ none :: rest)
    (hnd : ptrs.Nodup) (hok : ∀ p ∈ ptrs, AxisReady (c.heap p))
    (hv : ∀ p ∈ ptrs, (c.heap p).vMax ≠ 0)
    (hs : stdSort (cmpDelta c.heap) ptrs = lead :: slaves)
    (hpos : 0 < (c.heap lead).distance) :
    MoveSetup lead slaves (initHeap c.heap lead slaves) ∧
    ∃ c1 evs1 pre, doMove E ptrs.length c = some c1 ∧
      pre = [Event.timerStop,
        Event.prepareMovement (c.heap lead).current (c.heap lead).target
          (targetSpeed c.heap (lead :: slaves) lead) (acceleration c.heap (lead :: slaves) lead),
        Event.timerSetFrequency (E.hooks.prepareMovement c.profile (c.heap lead).current
          (c.heap lead).target (targetSpeed c.heap (lead :: slaves) lead)
          (acceleration c.heap (lead :: slaves) lead)).1,
        Event.timerStart] ∧
      MoveInv lead slaves rest (initHeap c.heap lead slaves) c.callback (c.trace ++ pre)
        1 evs1 c1 := by
  have hne : ptrs ≠ [] := by
    intro h
    rw [h] at hs
    cases hs
  have hperm : (lead :: slaves).Perm ptrs := hs ▸ stdSort_perm (cmpDelta c.heap) ptrs
  have hset := moveSetup_of_sorted c ptrs lead slaves hnd hok hs hpos
  have hspeed : targetSpeed c.heap (lead :: slaves) lead ≠ 0 :=
    targetSpeed_ne_zero _ _ _ (by simp)
      (fun p hp => ⟨hv p (hperm.mem_iff.1 hp), (hok p (hperm.mem_iff.1 hp)).speed⟩)
  have hrun : ¬ ((c.heap lead).distance = 0 ∨
      targetSpeed c.heap (lead :: slaves) lead = 0) := by
    rintro (h | h)
    · omega
    · exact hspeed h
  have hinit := moveInv_init lead slaves rest
    (startTimer E lead (targetSpeed c.heap (lead :: slaves) lead)
      (acceleration c.heap (lead :: slaves) lead) (sortedState c lead slaves rest))
    rfl rfl rfl hset
  rw [startTimer_sortedState_trace] at hinit
  have hD1 : ((0 : Nat) : Int) < (initHeap c.heap lead slaves lead).distance := by
    have := hset.pos
    simpa using this
  obtain ⟨c1, e1, hp, inv1⟩ := moveInv_tick E lead slaves rest _ _ _ 0 [] _ hset hinit hD1
  obtain ⟨c2, e2, hd, inv2⟩ := moveInv_delay E E.accLoopDelayChannel lead slaves rest _ _ _ _ _
    c1 inv1
  refine ⟨hset, c2, _, _, ?_, rfl, inv2⟩
  rw [doMove_run E c ptrs rest lead slaves hm hne hs hrun, hp]
  exact hd

/-! ## The running move (C1, C4, C5) -/

theorem axisAt0_ready (d v : Int) (a : Nat) (hd0 : 0 ≤ d) (hd : d < 2147483648)
    (hv : isInt32 v) : AxisReady (axisAt0 d v a) := by
  refine ⟨?_, ?_, ?_, hd0, Or.inl rfl, ?_, hv⟩
  · unfold isInt32 axisAt0; constructor <;> simp
  · unfold isInt32 axisAt0; constructor <;> simp <;> omega
  · unfold isInt32 axisAt0; constructor <;> simp <;> omega
  · simp [axisAt0]

theorem heap505010_ready : ∀ p ∈ [0, 1, 2], AxisReady (heap505010 p) := by
  intro p hp
  simp only [List.mem_cons, List.mem_singleton, List.not_mem_nil, or_false] at hp
  rcases hp with rfl | rfl | rfl
  · exact axisAt0_ready 50 1000 2000 (by decide) (by decide) (by unfold isInt32; decide)
  · exact axisAt0_ready 50 800 3000 (by decide) (by decide) (by unfold isInt32; decide)
  · exact axisAt0_ready 10 900 1500 (by decide) (by decide) (by unfold isInt32; decide)

/-- C1: for distinct staged axes, each with `distance = |target - current|`
and `doStep` moving it one unit toward its target, no `vMax` zero and a
positive lead distance `D`: `doMove` returns, and invoking the step handler
from there until it has stopped the timer (any fuel of at least `D - 1`
invocations suffices) ends with the timer stopped and every staged axis, lead
and slaves alike, at its original target. -/
theorem move_reaches_targets (E : Engine σ) (c : Control σ) (ptrs : List Ptr)
    (rest : List (Option Ptr)) (lead : Ptr) (slaves : List Ptr)
    (hm : c.motorList = ptrs.map some ++ none :: rest)
    (hnd : ptrs.Nodup) (hok : ∀ p ∈ ptrs, AxisReady (c.heap p))
    (hv : ∀ p ∈ ptrs, (c.heap p).vMax ≠ 0)
    (hs : stdSort (cmpDelta c.heap) ptrs = lead :: slaves)
    (hpos : 0 < (c.heap lead).distance) :
    ∃ c1, doMove E ptrs.length c = some c1 ∧
      ∀ fuel : Nat, (c.heap lead).distance ≤ (fuel : Int) + 1 →
        ∃ c2, runToStop E fuel c1 = some c2 ∧ c2.timer.running = false ∧
          ∀ p ∈ ptrs, (c2.heap p).current = (c2.heap p).target ∧
            (c2.heap p).target = (c.heap p).target := by
  obtain ⟨hset, c1, evs1, pre, hdo, -, inv1⟩ :=
    doMove_then_ticks E c ptrs rest lead slaves hm hnd hok hv hs hpos
  have hperm : (lead :: slaves).Perm ptrs := hs ▸ stdSort_perm (cmpDelta c.heap) ptrs
  have hDeq : (initHeap c.heap lead slaves lead).distance = (c.heap lead).distance :=
    (sameAxes_initHeap c.heap lead slaves lead).1
  refine ⟨c1, hdo, ?_⟩
  intro fuel hfuel
  have hDnat : (((c.heap lead).distance.toNat : Nat) : Int) =
      (initHeap c.heap lead slaves lead).distance := by
    rw [hDeq]
    exact Int.toNat_of_nonneg (le_of_lt hpos)
  obtain ⟨c2, evs2, hrun, inv2⟩ := moveInv_runToStop E lead slaves rest _ _ _ hset
    (c.heap lead).distance.toNat hDnat fuel 1 evs1 c1 inv1 (by omega) (by omega)
  refine ⟨c2, hrun, ?_, ?_⟩
  · rw [inv2.running, hDnat]
    simp
  · intro p hp
    have htgt : (c2.heap p).target = (c.heap p).target := by
      rw [(inv2.axes p).2.1, (sameAxes_initHeap c.heap lead slaves p).2.1]
    refine ⟨?_, htgt⟩
    rcases List.mem_cons.1 (hperm.mem_iff.2 hp) with rfl | hps
    · rw [inv2.leadCur, (inv2.axes p).2.1, hset.leadOK.geom, hDnat]
      ring
    · obtain ⟨ok, -, -⟩ := hset.slaveOK p hps
      obtain ⟨-, le_d, B_eq, -, B_hi, cur_eq⟩ := inv2.slave p hps
      rw [hDnat] at B_eq
      have hn := bres_final _ _ _ _ (Int.natCast_nonneg _) le_d B_eq B_hi hset.pos
      rw [cur_eq, (inv2.axes p).2.1, ok.geom, hn]
      ring

/-- C1 at the axes with distances 50, 50, 10. -/
theorem move_reaches_targets_witness :
    ∃ c1, doMove flatEngine 3 staged505010 = some c1 ∧
      ∀ fuel : Nat, (staged505010.heap 0).distance ≤ (fuel : Int) + 1 →
        ∃ c2, runToStop flatEngine fuel c1 = some c2 ∧ c2.timer.running = false ∧
          ∀ p ∈ [0, 1, 2], (c2.heap p).current = (c2.heap p).target ∧
            (c2.heap p).target = (staged505010.heap p).target :=
  move_reaches_targets flatEngine staged505010 [0, 1, 2] [none] 0 [1, 2] rfl (by decide)
    heap505010_ready (by decide) (by decide) (by decide)

/-- C4: in a move of distinct, ready axes with lead distance `D > 0`, after
`doMove` and `j` further step-handler invocations, `j + 1 ≤ D` invocations in
all since the error terms were initialised, every slave has emitted at most as
many steps as its distance (and at most one per invocation), and stands that
many steps from its start. -/
theorem slave_never_oversteps (E : Engine σ) (c : Control σ) (ptrs : List Ptr)
    (rest : List (Option Ptr)) (lead : Ptr) (slaves : List Ptr)
    (hm : c.motorList = ptrs.map some ++ none :: rest)
    (hnd : ptrs.Nodup) (hok : ∀ p ∈ ptrs, AxisReady (c.heap p))
    (hv : ∀ p ∈ ptrs, (c.heap p).vMax ≠ 0)
    (hs : stdSort (cmpDelta c.heap) ptrs = lead :: slaves)
    (hpos : 0 < (c.heap lead).distance)
    (j : Nat) (hj : (j : Int) + 1 ≤ (c.heap lead).distance) :
    ∃ c1 cj evs, doMove E ptrs.length c = some c1 ∧ pitISRs E j c1 = some cj ∧
      cj.trace = c.trace ++ evs ∧
      ∀ p ∈ slaves, (evs.count (Event.doStep p) : Int) ≤ (c.heap p).distance ∧
        evs.count (Event.doStep p) ≤ j + 1 ∧
        (cj.heap p).current =
          (c.heap p).current + (evs.count (Event.doStep p) : Int) * (c.heap p).dir := by
  obtain ⟨hset, c1, evs1, pre, hdo, hpre, inv1⟩ :=
    doMove_then_ticks E c ptrs rest lead slaves hm hnd hok hv hs hpos
  have hDeq : (initHeap c.heap lead slaves lead).distance = (c.heap lead).distance :=
    (sameAxes_initHeap c.heap lead slaves lead).1
  obtain ⟨cj, evs2, hticks, inv2⟩ := moveInv_ticks E lead slaves rest _ _ _ hset j 1 evs1 c1
    inv1 (by rw [hDeq]; push_cast; omega)
  refine ⟨c1, cj, pre ++ (evs1 ++ evs2), hdo, hticks, ?_, ?_⟩
  · rw [inv2.trace, List.append_assoc]
  · intro p hp
    have hcount : (pre ++ (evs1 ++ evs2)).count (Event.doStep p) =
        (evs1 ++ evs2).count (Event.doStep p) := by
      rw [List.count_append, hpre]
      simp [List.count_cons]
    obtain ⟨le_k, le_d, -, -, -, cur_eq⟩ := inv2.slave p hp
    rw [hcount]
    have hd := (sameAxes_initHeap c.heap lead slaves p).1
    have hdir := (sameAxes_initHeap c.heap lead slaves p).2.2.2.2
    have hcur := (initHeap_current c.heap lead slaves p).1
    rw [hd] at le_d
    rw [hdir, hcur] at cur_eq
    exact ⟨le_d, by omega, cur_eq⟩

/-- C4 at the axes with distances 50, 50, 10 after the 50 invocations. -/
theorem slave_never_oversteps_witness :
    ∃ c1 cj evs, doMove flatEngine 3 staged505010 = some c1 ∧
      pitISRs flatEngine 49 c1 = some cj ∧
      cj.trace = staged505010.trace ++ evs ∧
      ∀ p ∈ [1, 2], (evs.count (Event.doStep p) : Int) ≤ (staged505010.heap p).distance ∧
        evs.count (Event.doStep p) ≤ 49 + 1 ∧
        (cj.heap p).current = (staged505010.heap p).current +
          (evs.count (Event.doStep p) : Int) * (staged505010.heap p).dir :=
  slave_never_oversteps flatEngine staged505010 [0, 1, 2] [none] 0 [1, 2] rfl (by decide)
    heap505010_ready (by decide) (by decide) (by decide) 49 (by decide)

/-- C5: in a move of distinct, ready axes with lead distance `D > 0` and no
`vMax` zero, count the step-handler invocations from the synchronous one
inside `doMove`. After invocation `j + 1 ≤ D` the timer runs exactly when
`j + 1 < D`; the timer has been stopped once (by `doMove`, line 72) before
invocation `D` and twice after it; no callback has been invoked before
invocation `D`, and after it the registered callback has been invoked exactly
once, or nothing if none is registered. -/
theorem timer_stops_on_last_tick (E : Engine σ) (c : Control σ) (ptrs : List Ptr)
    (rest : List (Option Ptr)) (lead : Ptr) (slaves : List Ptr)
    (hm : c.motorList = ptrs.map some ++ none :: rest)
    (hnd : ptrs.Nodup) (hok : ∀ p ∈ ptrs, AxisReady (c.heap p))
    (hv : ∀ p ∈ ptrs, (c.heap p).vMax ≠ 0)
    (hs : stdSort (cmpDelta c.heap) ptrs = lead :: slaves)
    (hpos : 0 < (c.heap lead).distance)
    (j : Nat) (hj : (j : Int) + 1 ≤ (c.heap lead).distance) :
    ∃ c1 cj evs, doMove E ptrs.length c = some c1 ∧ pitISRs E j c1 = some cj ∧
      cj.trace = c.trace ++ evs ∧
      cj.timer.running = decide ((j : Int) + 1 < (c.heap lead).distance) ∧
      evs.count Event.timerStop = (if (j : Int) + 1 = (c.heap lead).distance then 2 else 1) ∧
      evs.count (Event.doStep lead) = j + 1 ∧
      evs.filter Event.isCallback =
        (if (j : Int) + 1 = (c.heap lead).distance then c.callback.toList.map Event.callback
         else []) := by
  obtain ⟨hset, c1, evs1, pre, hdo, hpre, inv1⟩ :=
    doMove_then_ticks E c ptrs rest lead slaves hm hnd hok hv hs hpos
  have hDeq : (initHeap c.heap lead slaves lead).distance = (c.heap lead).distance :=
    (sameAxes_initHeap c.heap lead slaves lead).1
  obtain ⟨cj, evs2, hticks, inv2⟩ := moveInv_ticks E lead slaves rest _ _ _ hset j 1 evs1 c1
    inv1 (by rw [hDeq]; push_cast; omega)
  have hcast : (((1 + j : Nat) : Nat) : Int) = (j : Int) + 1 := by push_cast; ring
  refine ⟨c1, cj, pre ++ (evs1 ++ evs2), hdo, hticks, ?_, ?_, ?_, ?_, ?_⟩
  · rw [inv2.trace, List.append_assoc]
  · rw [inv2.running, hDeq, hcast]
  · rw [List.count_append, inv2.stops, hDeq, hcast, hpre]
    by_cases h : (j : Int) + 1 = (c.heap lead).distance <;> simp [h, List.count_cons]
  · rw [List.count_append, inv2.leadSteps, hpre]
    simp [List.count_cons]
    omega
  · rw [List.filter_append, inv2.callbacks, hDeq, hcast, hpre]
    simp [List.filter_cons, Event.isCallback]

/-- C5 at the axes with distances 50, 50, 10: the 50th invocation stops the
timer and invokes callback 7. -/
theorem timer_stops_on_last_tick_witness :
    ∃ c1 cj evs, doMove flatEngine 3 staged505010 = some c1 ∧
      pitISRs flatEngine 49 c1 = some cj ∧
      cj.trace = staged505010.trace ++ evs ∧
      cj.timer.running = decide (((49 : Nat) : Int) + 1 < (staged505010.heap 0).distance) ∧
      evs.count Event.timerStop =
        (if ((49 : Nat) : Int) + 1 = (staged505010.heap 0).distance then 2 else 1) ∧
      evs.count (Event.doStep 0) = 49 + 1 ∧
      evs.filter Event.isCallback =
        (if ((49 : Nat) : Int) + 1 = (staged505010.heap 0).distance then
          staged505010.callback.toList.map Event.callback
         else []) :=
  timer_stops_on_last_tick flatEngine staged505010 [0, 1, 2] [none] 0 [1, 2] rfl (by decide)
    heap505010_ready (by decide) (by decide) (by decide) 49 (by decide)

/-! ## The acceleration branch of `delayISR` -/

theorem delayISR_acc_running (E : Engine σ) (c : Control σ) (lead : Ptr)
    (hch : E.pinResetDelayChannel ≠ E.accLoopDelayChannel)
    (hr : c.timer.running = true) (hl : c.leadMotor = some lead) :
    delayISR E E.accLoopDelayChannel c = some
      { c with
        trace := c.trace ++ accEvents E (c.heap lead).current
          (E.hooks.updateSpeed c.profile (c.heap lead).current).1,
        timer := { c.timer with
          frequency := (E.hooks.updateSpeed c.profile (c.heap lead).current).1 },
        profile := (E.hooks.updateSpeed c.profile (c.heap lead).current).2 } := by
  have hch' : ¬ E.accLoopDelayChannel = E.pinResetDelayChannel := fun h => hch h.symm
  unfold delayISR accLoop accEvents
  simp only [if_neg hch', if_true, hr, hl, Control.emit, Control.timerSetFrequency,
    List.append_assoc, List.singleton_append, List.cons_append, List.nil_append]

theorem delayISR_acc_stopped (E : Engine σ) (c : Control σ)
    (hch : E.pinResetDelayChannel ≠ E.accLoopDelayChannel)
    (hr : c.timer.running = false) :
    delayISR E E.accLoopDelayChannel c = some c := by
  have hch' : ¬ E.accLoopDelayChannel = E.pinResetDelayChannel := fun h => hch h.symm
  unfold delayISR accLoop
  simp [hch', hr]

/-! ## The handlers, one invocation (C14, C15, C16) -/

/-- C15: an invocation of `pitISR` on a list with its sentinel emits, in this
order, the lead's step, steps of slaves only, one trigger of the pin-reset
channel with `pulseWidth` ticks, and the events of the completion check (a
timer stop and the callback, or nothing); it emits no other trigger, whether
or not the move completes on this invocation. -/
theorem pitISR_triggers_pin_reset (E : Engine σ) (c : Control σ) (lead : Ptr)
    (x : Option Ptr) (slaves : List Ptr) (rest : List (Option Ptr))
    (hl : c.leadMotor = some lead)
    (hm : c.motorList = x :: (slaves.map some ++ none :: rest)) :
    ∃ c' steps, pitISR E c = some c' ∧
      c'.trace = c.trace ++ (Event.doStep lead :: steps ++
        Event.trigger E.pulseWidth E.pinResetDelayChannel :: completionEvents c' lead) ∧
      (∀ e ∈ steps, ∃ p ∈ slaves, e = Event.doStep p) ∧
      (∀ e ∈ completionEvents c' lead, e = Event.timerStop ∨ ∃ f, e = Event.callback f) ∧
      (Event.doStep lead :: steps ++
        Event.trigger E.pulseWidth E.pinResetDelayChannel ::
          completionEvents c' lead).countP Event.isTrigger = 1 := by
  obtain ⟨c', steps, p1, -, -, -, -, -, -, p8, p9, -⟩ :=
    pitISR_general E c lead x slaves rest hl hm
  have hcomp : ∀ e ∈ completionEvents c' lead,
      e = Event.timerStop ∨ ∃ f, e = Event.callback f := by
    intro e he
    unfold completionEvents at he
    split at he
    · rcases List.mem_cons.1 he with rfl | he
      · exact Or.inl rfl
      · obtain ⟨f, -, rfl⟩ := List.mem_map.1 he
        exact Or.inr ⟨f, rfl⟩
    · simp at he
  refine ⟨c', steps, p1, p8, p9, hcomp, ?_⟩
  have h1 : steps.countP Event.isTrigger = 0 := by
    rw [List.countP_eq_zero]
    intro e he
    obtain ⟨q, -, rfl⟩ := p9 e he
    simp [Event.isTrigger]
  have h2 : (completionEvents c' lead).countP Event.isTrigger = 0 := by
    rw [List.countP_eq_zero]
    intro e he
    rcases hcomp e he with rfl | ⟨f, rfl⟩ <;> simp [Event.isTrigger]
  simp [List.countP_append, List.countP_cons, h1, h2, Event.isTrigger]

/-- C15 at the move of one axis by 10 steps, under way. -/
theorem pitISR_triggers_pin_reset_witness :
    ∃ c' steps, pitISR flatEngine runningTen = some c' ∧
      c'.trace = runningTen.trace ++ (Event.doStep 0 :: steps ++
        Event.trigger flatEngine.pulseWidth flatEngine.pinResetDelayChannel ::
          completionEvents c' 0) ∧
      (∀ e ∈ steps, ∃ p ∈ ([] : List Ptr), e = Event.doStep p) ∧
      (∀ e ∈ completionEvents c' 0, e = Event.timerStop ∨ ∃ f, e = Event.callback f) ∧
      (Event.doStep 0 :: steps ++
        Event.trigger flatEngine.pulseWidth flatEngine.pinResetDelayChannel ::
          completionEvents c' 0).countP Event.isTrigger = 1 :=
  pitISR_triggers_pin_reset flatEngine runningTen 0 (some 0) [] [none] rfl rfl

theorem clearLoop_eq (L : List Ptr) (rest : List (Option Ptr)) (c : Control σ) :
    clearLoop (L.map some ++ none :: rest) c =
      some { c with heap := fun q => if q ∈ L then (c.heap q).clearStepPin else c.heap q,
                    trace := c.trace ++ L.map Event.clearStepPin } := by
  induction L generalizing c with
  | nil => simp [clearLoop]
  | cons p L ih =>
    show clearLoop (L.map some ++ none :: rest)
      { c with heap := c.heap.set p (c.heap p).clearStepPin,
               trace := c.trace ++ [Event.clearStepPin p] } = _
    rw [ih]
    simp only [List.map_cons, List.append_assoc, List.singleton_append]
    congr 2
    funext q
    by_cases hq : q = p
    · subst hq
      by_cases hL : q ∈ L <;> simp [Heap.set_same, hL, Stepper.clearStepPin]
    · by_cases hL : q ∈ L <;> simp [Heap.set_ne _ _ _ _ hq, hL, hq]

/-- C16: on the pin-reset channel (distinct from the acceleration channel) the
delay handler deasserts the step pin of every axis of the list from slot 0 to
the sentinel and changes nothing else: every other field of every axis, the
timer, the list, the lead reference, the callback, `mCnt` and the profile are
as before, and its only events are the pin deassertions (no trigger). -/
theorem delayISR_pin_reset_only_clears (E : Engine σ) (c : Control σ) (L : List Ptr)
    (rest : List (Option Ptr))
    (hch : E.pinResetDelayChannel ≠ E.accLoopDelayChannel)
    (hm : c.motorList = L.map some ++ none :: rest) :
    ∃ c', delayISR E E.pinResetDelayChannel c = some c' ∧
      c'.trace = c.trace ++ L.map Event.clearStepPin ∧
      (∀ q, c'.heap q = if q ∈ L then { c.heap q with stepPin := false } else c.heap q) ∧
      c'.timer = c.timer ∧ c'.motorList = c.motorList ∧ c'.leadMotor = c.leadMotor ∧
      c'.callback = c.callback ∧ c'.mCnt = c.mCnt ∧ c'.profile = c.profile := by
  refine ⟨{ c with heap := fun q => if q ∈ L then (c.heap q).clearStepPin else c.heap q,
                   trace := c.trace ++ L.map Event.clearStepPin }, ?_, rfl, fun _ => rfl,
    rfl, rfl, rfl, rfl, rfl, rfl⟩
  unfold delayISR
  simp only [if_true, hm, clearLoop_eq, if_neg hch]

/-- C16 at the axes with distances 50, 50, 10. -/
theorem delayISR_pin_reset_only_clears_witness :
    ∃ c', delayISR flatEngine flatEngine.pinResetDelayChannel staged505010 = some c' ∧
      c'.trace = staged505010.trace ++ [0, 1, 2].map Event.clearStepPin ∧
      (∀ q, c'.heap q = if q ∈ [0, 1, 2] then { staged505010.heap q with stepPin := false }
        else staged505010.heap q) ∧
      c'.timer = staged505010.timer ∧ c'.motorList = staged505010.motorList ∧
      c'.leadMotor = staged505010.leadMotor ∧ c'.callback = staged505010.callback ∧
      c'.mCnt = staged505010.mCnt ∧ c'.profile = staged505010.profile :=
  delayISR_pin_reset_only_clears flatEngine staged505010 [0, 1, 2] [none] (by decide) rfl

/-- C14: on the acceleration channel (distinct from the pin-reset channel) the
delay handler, when the timer runs, triggers that channel once with
`accUpdatePeriod` ticks inside the interrupt-free section, calls
`updateSpeed(lead.current)` and programs the timer with the result, touching
nothing else of the engine; when the timer does not run it returns the state
as it was, with no event at all. -/
theorem delayISR_acc_iff_running (E : Engine σ) (c : Control σ)
    (hch : E.pinResetDelayChannel ≠ E.accLoopDelayChannel) :
    (∀ lead, c.timer.running = true → c.leadMotor = some lead →
      delayISR E E.accLoopDelayChannel c = some
        { c with
          trace := c.trace ++ [Event.noInterrupts,
            Event.trigger E.accUpdatePeriod E.accLoopDelayChannel, Event.interrupts,
            Event.updateSpeed (c.heap lead).current,
            Event.timerSetFrequency (E.hooks.updateSpeed c.profile (c.heap lead).current).1],
          timer := { c.timer with
            frequency := (E.hooks.updateSpeed c.profile (c.heap lead).current).1 },
          profile := (E.hooks.updateSpeed c.profile (c.heap lead).current).2 }) ∧
    (c.timer.running = false → delayISR E E.accLoopDelayChannel c = some c) :=
  ⟨fun lead hr hl => delayISR_acc_running E c lead hch hr hl,
    fun hr => delayISR_acc_stopped E c hch hr⟩

/-- C14 at the move of one axis by 10 steps, under way. -/
theorem delayISR_acc_iff_running_witness :
    (∀ lead, runningTen.timer.running = true → runningTen.leadMotor = some lead →
      delayISR flatEngine flatEngine.accLoopDelayChannel runningTen = some
        { runningTen with
          trace := runningTen.trace ++ [Event.noInterrupts,
            Event.trigger flatEngine.accUpdatePeriod flatEngine.accLoopDelayChannel,
            Event.interrupts,
            Event.updateSpeed (runningTen.heap lead).current,
            Event.timerSetFrequency (flatEngine.hooks.updateSpeed runningTen.profile
              (runningTen.heap lead).current).1],
          timer := { runningTen.timer with
            frequency := (flatEngine.hooks.updateSpeed runningTen.profile
              (runningTen.heap lead).current).1 },
          profile := (flatEngine.hooks.updateSpeed runningTen.profile
            (runningTen.heap lead).current).2 }) ∧
    (runningTen.timer.running = false →
      delayISR flatEngine flatEngine.accLoopDelayChannel runningTen = some runningTen) :=
  delayISR_acc_iff_running flatEngine runningTen (by decide)

/-! ## The first step cycle (C13) -/

/-- C13, refuted as stated: one axis with distance 1 and `vMax` 1000. The move
is not degenerate, `doMove` makes the one step, which completes the move and
stops the timer, and the acceleration channel is not triggered. -/
theorem doMove_single_step_no_acc_trigger :
    (stagedOne.heap 0).distance = 1 ∧ targetSpeed stagedOne.heap [0] 0 = 1000 ∧
    Option.map (fun c => (c.trace.count (Event.doStep 0), c.timer.running,
        c.trace.countP Event.isTrigger,
        c.trace.count (Event.trigger flatEngine.accUpdatePeriod
          flatEngine.accLoopDelayChannel)))
      (doMove flatEngine 1 stagedOne) = some (1, false, 1, 0) := by
  refine ⟨?_, ?_, ?_⟩ <;> decide

/-- C13, amended: on a non-degenerate move of distinct, ready axes with lead
distance `D ≥ 1` (and distinct channel ids), when `doMove` returns the lead has
made exactly one step and stands one unit from its start; if `D ≥ 2` the timer
runs and the last events are those of the acceleration branch, with one
trigger of the acceleration channel with `accUpdatePeriod` ticks; if `D = 1`
that step has completed the move, the timer is stopped and the acceleration
channel has not been triggered. -/
theorem doMove_first_step_cycle (E : Engine σ) (c : Control σ) (ptrs : List Ptr)
    (rest : List (Option Ptr)) (lead : Ptr) (slaves : List Ptr)
    (hch : E.pinResetDelayChannel ≠ E.accLoopDelayChannel)
    (hm : c.motorList = ptrs.map some ++ none :: rest)
    (hnd : ptrs.Nodup) (hok : ∀ p ∈ ptrs, AxisReady (c.heap p))
    (hv : ∀ p ∈ ptrs, (c.heap p).vMax ≠ 0)
    (hs : stdSort (cmpDelta c.heap) ptrs = lead :: slaves)
    (hpos : 0 < (c.heap lead).distance) :
    ∃ c1 evs f, doMove E ptrs.length c = some c1 ∧
      c1.trace = c.trace ++ evs ++
        (if 1 < (c.heap lead).distance then
          accEvents E ((c.heap lead).current + (c.heap lead).dir) f else []) ∧
      evs.count (Event.doStep lead) = 1 ∧
      evs.count (Event.trigger E.accUpdatePeriod E.accLoopDelayChannel) = 0 ∧
      (c1.heap lead).current = (c.heap lead).current + (c.heap lead).dir ∧
      c1.timer.running = decide (1 < (c.heap lead).distance) := by
  have hne : ptrs ≠ [] := by
    intro h
    rw [h] at hs
    cases hs
  have hperm : (lead :: slaves).Perm ptrs := hs ▸ stdSort_perm (cmpDelta c.heap) ptrs
  have hset := moveSetup_of_sorted c ptrs lead slaves hnd hok hs hpos
  have hspeed : targetSpeed c.heap (lead :: slaves) lead ≠ 0 :=
    targetSpeed_ne_zero _ _ _ (by simp)
      (fun p hp => ⟨hv p (hperm.mem_iff.1 hp), (hok p (hperm.mem_iff.1 hp)).speed⟩)
  have hrun : ¬ ((c.heap lead).distance = 0 ∨
      targetSpeed c.heap (lead :: slaves) lead = 0) := by
    rintro (h | h)
    · omega
    · exact hspeed h
  have hinit := moveInv_init lead slaves rest
    (startTimer E lead (targetSpeed c.heap (lead :: slaves) lead)
      (acceleration c.heap (lead :: slaves) lead) (sortedState c lead slaves rest))
    rfl rfl rfl hset
  have hD1 : ((0 : Nat) : Int) < (initHeap c.heap lead slaves lead).distance := by
    have := hset.pos
    simpa using this
  have hDeq : (initHeap c.heap lead slaves lead).distance = (c.heap lead).distance :=
    (sameAxes_initHeap c.heap lead slaves lead).1
  have hcur0 : (initHeap c.heap lead slaves lead).current = (c.heap lead).current :=
    (initHeap_current c.heap lead slaves lead).1
  have hdir0 : (initHeap c.heap lead slaves lead).dir = (c.heap lead).dir :=
    (sameAxes_initHeap c.heap lead slaves lead).2.2.2.2
  obtain ⟨ct, e1, hp, inv1⟩ := moveInv_tick E lead slaves rest _ _ _ 0 [] _ hset hinit hD1
  obtain ⟨ct', steps, g1, -, -, -, -, -, -, g8, g9, -⟩ := pitISR_general E
    (startTimer E lead (targetSpeed c.heap (lead :: slaves) lead)
      (acceleration c.heap (lead :: slaves) lead) (sortedState c lead slaves rest))
    lead (some lead) slaves rest rfl rfl
  rw [hp] at g1
  injection g1 with g1
  subst g1
  have htr := inv1.trace
  rw [startTimer_sortedState_trace] at htr g8
  have he1 : e1 = Event.doStep lead :: steps ++
      Event.trigger E.pulseWidth E.pinResetDelayChannel :: completionEvents ct lead := by
    have := htr.symm.trans g8
    simpa using this
  have hcurt : (ct.heap lead).current = (c.heap lead).current + (c.heap lead).dir := by
    rw [inv1.leadCur, hcur0, hdir0]
    push_cast
    ring
  have hrunning : ct.timer.running = decide (1 < (c.heap lead).distance) := by
    rw [inv1.running, hDeq]
    simp
  have hcount1 : ([] ++ e1).count (Event.doStep lead) = 1 := inv1.leadSteps
  have hnoacc : e1.count (Event.trigger E.accUpdatePeriod E.accLoopDelayChannel) = 0 := by
    rw [List.count_eq_zero, he1]
    intro hmem
    rcases List.mem_append.1 hmem with h | h
    · rcases List.mem_cons.1 h with h | h
      · cases h
      · obtain ⟨q, -, hq⟩ := g9 _ h
        cases hq
    · rcases List.mem_cons.1 h with h | h
      · injection h with _ h2
        exact hch h2.symm
      · unfold completionEvents at h
        split at h
        · rcases List.mem_cons.1 h with h | h
          · cases h
          · obtain ⟨f, -, hf⟩ := List.mem_map.1 h
            cases hf
        · simp at h
  have hdo : doMove E ptrs.length c = delayISR E E.accLoopDelayChannel ct := by
    rw [doMove_run E c ptrs rest lead slaves hm hne hs hrun, hp]
  by_cases hD : 1 < (c.heap lead).distance
  · have hr : ct.timer.running = true := by rw [hrunning]; simp [hD]
    refine ⟨_, [Event.timerStop,
        Event.prepareMovement (c.heap lead).current (c.heap lead).target
          (targetSpeed c.heap (lead :: slaves) lead) (acceleration c.heap (lead :: slaves) lead),
        Event.timerSetFrequency (E.hooks.prepareMovement c.profile (c.heap lead).current
          (c.heap lead).target (targetSpeed c.heap (lead :: slaves) lead)
          (acceleration c.heap (lead :: slaves) lead)).1,
        Event.timerStart] ++ e1, (E.hooks.updateSpeed ct.profile (ct.heap lead).current).1,
      hdo.trans (delayISR_acc_running E ct lead hch hr inv1.leadMotor), ?_, ?_, ?_, hcurt, ?_⟩
    · simp only [htr, hD, if_true, hcurt, List.append_assoc, List.nil_append]
    · rw [List.count_append]
      simp only [List.nil_append] at hcount1
      rw [hcount1]
      simp [List.count_cons]
    · rw [List.count_append, hnoacc]
      simp [List.count_cons]
    · simp [hD, hr]
  · have hr : ct.timer.running = false := by rw [hrunning]; simp [hD]
    refine ⟨ct, [Event.timerStop,
        Event.prepareMovement (c.heap lead).current (c.heap lead).target
          (targetSpeed c.heap (lead :: slaves) lead) (acceleration c.heap (lead :: slaves) lead),
        Event.timerSetFrequency (E.hooks.prepareMovement c.profile (c.heap lead).current
          (c.heap lead).target (targetSpeed c.heap (lead :: slaves) lead)
          (acceleration c.heap (lead :: slaves) lead)).1,
        Event.timerStart] ++ e1, 0,
      hdo.trans (delayISR_acc_stopped E ct hch hr), ?_, ?_, ?_, hcurt, ?_⟩
    · simp only [htr, hD, if_false, List.append_assoc, List.nil_append, List.append_nil]
    · rw [List.count_append]
      simp only [List.nil_append] at hcount1
      rw [hcount1]
      simp [List.count_cons]
    · rw [List.count_append, hnoacc]
      simp [List.count_cons]
    · simp [hD, hr]

/-- C13, amended, at the axes with distances 50, 50, 10. -/
theorem doMove_first_step_cycle_witness :
    ∃ c1 evs f, doMove flatEngine 3 staged505010 = some c1 ∧
      c1.trace = staged505010.trace ++ evs ++
        (if 1 < (staged505010.heap 0).distance then
          accEvents flatEngine ((staged505010.heap 0).current + (staged505010.heap 0).dir) f
         else []) ∧
      evs.count (Event.doStep 0) = 1 ∧
      evs.count (Event.trigger flatEngine.accUpdatePeriod flatEngine.accLoopDelayChannel) = 0 ∧
      (c1.heap 0).current = (staged505010.heap 0).current + (staged505010.heap 0).dir ∧
      c1.timer.running = decide (1 < (staged505010.heap 0).distance) :=
  doMove_first_step_cycle flatEngine staged505010 [0, 1, 2] [none] 0 [1, 2] (by decide) rfl
    (by decide) heap505010_ready (by decide) (by decide) (by decide)

/-! ## The closed form of the slave schedule -/

theorem slaveTick_lt (D : Int) (s0 s : Stepper) (k n : Nat) (hs0 : AxisReady s0)
    (hdD : s0.distance < D) (hD : isInt32 D) (hdist : s.distance = s0.distance)
    (inv : SlaveInv D s0 k n s) : (slaveTick D s).B < s0.distance := by
  obtain ⟨-, -, -, B_lo, B_hi, -⟩ := inv
  have hd0 := hs0.nonneg
  have hDr := hD
  unfold isInt32 at hDr
  by_cases hB : 0 ≤ s.B
  · have hw1 : wrapInt32 (s.B - D) = s.B - D :=
      wrapInt32_id _ (by unfold isInt32; constructor <;> omega)
    have hw2 : wrapInt32 (s.B - D + s0.distance) = s.B - D + s0.distance :=
      wrapInt32_id _ (by unfold isInt32; constructor <;> omega)
    rw [(slaveTick_step D s hB).1, hdist, hw1, hw2]
    omega
  · have hw : wrapInt32 (s.B + s0.distance) = s.B + s0.distance :=
      wrapInt32_id _ (by unfold isInt32; constructor <;> omega)
    rw [(slaveTick_rest D s hB).1, hdist, hw]
    omega

/-- The step count of a slave from the invariant and the strict upper bound of
its error term: `min k ((k + 1) * d / D)`, less than one step from `k * d / D`. -/
theorem schedule_closed_form (D d B : Int) (k n : Nat) (hD : 0 < D) (hd0 : 0 ≤ d)
    (hdD : d ≤ D) (hnk : n ≤ k) (hB : B = ((k : Int) + 2) * d - D - (n : Int) * D)
    (hlo : d - D ≤ B) (hhi : B ≤ d) (hlt : d < D → B < d) :
    (n : Int) = min (k : Int) ((((k : Int) + 1) * d) / D) ∧
    |(n : Int) * D - (k : Int) * d| < D := by
  have hnk' : (n : Int) ≤ (k : Int) := by exact_mod_cast hnk
  have hkd : 0 ≤ (k : Int) * d := mul_nonneg (Int.natCast_nonneg _) hd0
  by_cases hdeq : d = D
  · subst hdeq
    have h1 : ((k : Int) + 1 - n) * d ≤ 1 * d := by nlinarith
    have h2 : (k : Int) + 1 - n ≤ 1 := le_of_mul_le_mul_right h1 hD
    have hn : (n : Int) = k := by omega
    have hq : (((k : Int) + 1) * d) / d = (k : Int) + 1 :=
      Int.mul_ediv_cancel _ (ne_of_gt hD)
    rw [hq, hn]
    refine ⟨by rw [min_eq_left]; omega, ?_⟩
    simp [hD]
  · have hlt' : B < d := hlt (by omega)
    have hup : (n : Int) * D ≤ ((k : Int) + 1) * d := by nlinarith
    have hdn : ((k : Int) + 1) * d < ((n : Int) + 1) * D := by nlinarith
    have hq : (((k : Int) + 1) * d) / D = (n : Int) := by
      apply le_antisymm
      · exact Int.lt_add_one_iff.1 (Int.ediv_lt_of_lt_mul hD hdn)
      · exact Int.le_ediv_of_mul_le hD hup
    rw [hq]
    refine ⟨by rw [min_eq_right hnk'], ?_⟩
    rw [abs_lt]
    constructor <;> nlinarith

/-- One step-handler invocation keeps the invariant and leaves the error term
of every slave shorter than the lead strictly below the slave's distance. -/
theorem moveInv_tick_strict (E : Engine σ) (lead : Ptr) (slaves : List Ptr)
    (rest : List (Option Ptr)) (h0 : Heap) (cb : Option Nat) (t0 : List Event) (k : Nat)
    (evs : List Event) (c : Control σ) (hset : MoveSetup lead slaves h0)
    (inv : MoveInv lead slaves rest h0 cb t0 k evs c) (hk : (k : Int) < (h0 lead).distance) :
    ∃ c' evs', pitISR E c = some c' ∧
      MoveInv lead slaves rest h0 cb t0 (k + 1) (evs ++ evs') c' ∧
      ∀ p ∈ slaves, (h0 p).distance < (h0 lead).distance →
        (c'.heap p).B < (h0 p).distance := by
  obtain ⟨c', evs', hp, inv'⟩ := moveInv_tick E lead slaves rest h0 cb t0 k evs c hset inv hk
  refine ⟨c', evs', hp, inv', ?_⟩
  intro p hps hlt
  have hp2 := pitISR_eq_tick E c lead (some lead) slaves rest inv.leadMotor inv.motorList
    hset.lead_notin hset.nodup
  rw [hp] at hp2
  injection hp2 with hp2
  have hpl : p ≠ lead := fun h => hset.lead_notin (h ▸ hps)
  have hheap : c'.heap p = slaveTick (h0 lead).distance (c.heap p) := by
    rw [hp2, (tick_spec E lead slaves c).1]
    simp [tickHeap, hpl, hps, (inv.axes lead).1]
  rw [hheap]
  exact slaveTick_lt _ (h0 p) (c.heap p) k _ (hset.slaveOK p hps).1 hlt hset.leadOK.dist
    (inv.axes p).1 (inv.slave p hps)

/-- The delay handler keeps the invariant and the error terms. -/
theorem moveInv_delay_strict (E : Engine σ) (channel : Nat) (lead : Ptr) (slaves : List Ptr)
    (rest : List (Option Ptr)) (h0 : Heap) (cb : Option Nat) (t0 : List Event) (k : Nat)
    (evs : List Event) (c : Control σ)
    (inv : MoveInv lead slaves rest h0 cb t0 k evs c) :
    ∃ c' evs', delayISR E channel c = some c' ∧
      MoveInv lead slaves rest h0 cb t0 k (evs ++ evs') c' ∧
      ∀ p, (c'.heap p).B = (c.heap p).B := by
  obtain ⟨c', evs', hd, inv'⟩ := moveInv_delay E channel lead slaves rest h0 cb t0 k evs c inv
  obtain ⟨c'', -, d1, -, -, -, -, -, d7, -, -⟩ := delayISR_staged E channel c lead
    (lead :: slaves) rest inv.leadMotor inv.motorList
  rw [hd] at d1
  injection d1 with d1
  subst d1
  exact ⟨c', evs', hd, inv', fun p => (d7.2 p).2⟩

/-- Any number of step-handler invocations up to the lead's last step keeps
the invariant and the strict bound of the error terms. -/
theorem moveInv_ticks_strict (E : Engine σ) (lead : Ptr) (slaves : List Ptr)
    (rest : List (Option Ptr)) (h0 : Heap) (cb : Option Nat) (t0 : List Event)
    (hset : MoveSetup lead slaves h0) (j : Nat) :
    ∀ (k : Nat) (evs : List Event) (c : Control σ),
      MoveInv lead slaves rest h0 cb t0 k evs c →
      (∀ p ∈ slaves, (h0 p).distance < (h0 lead).distance →
        (c.heap p).B < (h0 p).distance) →
      ((k + j : Nat) : Int) ≤ (h0 lead).distance →
      ∃ c' evs', pitISRs E j c = some c' ∧
        MoveInv lead slaves rest h0 cb t0 (k + j) (evs ++ evs') c' ∧
        ∀ p ∈ slaves, (h0 p).distance < (h0 lead).distance →
          (c'.heap p).B < (h0 p).distance := by
  induction j with
  | zero =>
    intro k evs c inv hst _
    exact ⟨c, [], rfl, by simpa using inv, hst⟩
  | succ j ih =>
    intro k evs c inv _ hk
    obtain ⟨c1, e1, hp, inv1, hst1⟩ := moveInv_tick_strict E lead slaves rest h0 cb t0 k evs c
      hset inv (by push_cast at hk; omega)
    obtain ⟨c2, e2, hp2, inv2, hst2⟩ := ih (k + 1) (evs ++ e1) c1 inv1 hst1
      (by push_cast at hk ⊢; omega)
    refine ⟨c2, e1 ++ e2, ?_, ?_, hst2⟩
    · simp only [pitISRs, hp]
      exact hp2
    · have : k + (j + 1) = k + 1 + j := by omega
      rw [this, ← List.append_assoc]
      exact inv2

/-- A non-degenerate `doMove` of distinct, ready axes followed by `j` further
step-handler invocations, `j + 1` in all and the lead's last step not passed:
the invariant holds, and every slave has made `min k ((k + 1) * d / D)` steps
for `k = j + 1`. -/
theorem doMove_ticks_closed_form (E : Engine σ) (c : Control σ) (ptrs : List Ptr)
    (rest : List (Option Ptr)) (lead : Ptr) (slaves : List Ptr)
    (hm : c.motorList = ptrs.map some ++ none :: rest)
    (hnd : ptrs.Nodup) (hok : ∀ p ∈ ptrs, AxisReady (c.heap p))
    (hv : ∀ p ∈ ptrs, (c.heap p).vMax ≠ 0)
    (hs : stdSort (cmpDelta c.heap) ptrs = lead :: slaves)
    (hpos : 0 < (c.heap lead).distance)
    (j : Nat) (hj : (j : Int) + 1 ≤ (c.heap lead).distance) :
    ∃ c1 cj evs pre, doMove E ptrs.length c = some c1 ∧ pitISRs E j c1 = some cj ∧
      MoveSetup lead slaves (initHeap c.heap lead slaves) ∧
      MoveInv lead slaves rest (initHeap c.heap lead slaves) c.callback (c.trace ++ pre)
        (j + 1) evs cj ∧
      (∀ p, pre.count (Event.doStep p) = 0) ∧
      ∀ p ∈ slaves,
        (evs.count (Event.doStep p) : Int) =
          min ((j : Int) + 1)
            ((((j : Int) + 1 + 1) * (c.heap p).distance) / (c.heap lead).distance) ∧
        |(evs.count (Event.doStep p) : Int) * (c.heap lead).distance -
          ((j : Int) + 1) * (c.heap p).distance| < (c.heap lead).distance := by
  have hne : ptrs ≠ [] := by
    intro h
    rw [h] at hs
    cases hs
  have hperm : (lead :: slaves).Perm ptrs := hs ▸ stdSort_perm (cmpDelta c.heap) ptrs
  have hset := moveSetup_of_sorted c ptrs lead slaves hnd hok hs hpos
  have hspeed : targetSpeed c.heap (lead :: slaves) lead ≠ 0 :=
    targetSpeed_ne_zero _ _ _ (by simp)
      (fun p hp => ⟨hv p (hperm.mem_iff.1 hp), (hok p (hperm.mem_iff.1 hp)).speed⟩)
  have hrun : ¬ ((c.heap lead).distance = 0 ∨
      targetSpeed c.heap (lead :: slaves) lead = 0) := by
    rintro (h | h)
    · omega
    · exact hspeed h
  have hinit := moveInv_init lead slaves rest
    (startTimer E lead (targetSpeed c.heap (lead :: slaves) lead)
      (acceleration c.heap (lead :: slaves) lead) (sortedState c lead slaves rest))
    rfl rfl rfl hset
  rw [startTimer_sortedState_trace] at hinit
  have hDeq : (initHeap c.heap lead slaves lead).distance = (c.heap lead).distance :=
    (sameAxes_initHeap c.heap lead slaves lead).1
  have hD1 : ((0 : Nat) : Int) < (initHeap c.heap lead slaves lead).distance := by
    have := hset.pos
    simpa using this
  obtain ⟨ct, e1, hp, inv1, hst1⟩ := moveInv_tick_strict E lead slaves rest _ _ _ 0 [] _ hset
    hinit hD1
  obtain ⟨c1, e2, hd, inv2, hB2⟩ := moveInv_delay_strict E E.accLoopDelayChannel lead slaves
    rest _ _ _ _ _ ct inv1
  have hst2 : ∀ p ∈ slaves, (initHeap c.heap lead slaves p).distance <
      (initHeap c.heap lead slaves lead).distance →
      (c1.heap p).B < (initHeap c.heap lead slaves p).distance := by
    intro p hp hlt
    rw [hB2 p]
    exact hst1 p hp hlt
  obtain ⟨cj, e3, hticks, inv3, hst3⟩ := moveInv_ticks_strict E lead slaves rest _ _ _ hset j
    (0 + 1) _ c1 inv2 hst2 (by rw [hDeq]; push_cast; omega)
  have h1j : 0 + 1 + j = j + 1 := by omega
  rw [h1j] at inv3
  refine ⟨c1, cj, _, _, ?_, hticks, hset, inv3, ?_, ?_⟩
  · rw [doMove_run E c ptrs rest lead slaves hm hne hs hrun, hp]
    exact hd
  · intro p
    simp [List.count_cons]
  · intro p hps
    obtain ⟨ok, hle, -⟩ := hset.slaveOK p hps
    obtain ⟨le_k, -, B_eq, B_lo, B_hi, -⟩ := inv3.slave p hps
    have hdp : (initHeap c.heap lead slaves p).distance = (c.heap p).distance :=
      (sameAxes_initHeap c.heap lead slaves p).1
    have := schedule_closed_form (initHeap c.heap lead slaves lead).distance
      (initHeap c.heap lead slaves p).distance (cj.heap p).B (j + 1) _ hset.pos ok.nonneg hle
      le_k B_eq B_lo B_hi (hst3 p hps)
    rw [hDeq, hdp] at this
    push_cast at this
    exact this

/-- What a non-degenerate move of distinct, ready axes looks like after
`doMove` and `j` further step-handler invocations, `k = j + 1 ≤ D` in all: the
timer runs exactly when `k < D`, the lead stands `k` steps from its start, and
every slave has made `min k ((k + 1) * d / D)` steps and stands that many
steps from its start. -/
theorem doMove_ticks_report (E : Engine σ) (c : Control σ) (ptrs : List Ptr)
    (rest : List (Option Ptr)) (lead : Ptr) (slaves : List Ptr)
    (hm : c.motorList = ptrs.map some ++ none :: rest)
    (hnd : ptrs.Nodup) (hok : ∀ p ∈ ptrs, AxisReady (c.heap p))
    (hv : ∀ p ∈ ptrs, (c.heap p).vMax ≠ 0)
    (hs : stdSort (cmpDelta c.heap) ptrs = lead :: slaves)
    (hpos : 0 < (c.heap lead).distance)
    (j : Nat) (hj : (j : Int) + 1 ≤ (c.heap lead).distance) :
    ∃ c1 cj evs, doMove E ptrs.length c = some c1 ∧ pitISRs E j c1 = some cj ∧
      cj.trace = c.trace ++ evs ∧
      cj.timer.running = decide ((j : Int) + 1 < (c.heap lead).distance) ∧
      (cj.heap lead).current = (c.heap lead).current + ((j : Int) + 1) * (c.heap lead).dir ∧
      (cj.heap lead).target = (c.heap lead).target ∧
      ∀ p ∈ slaves,
        (evs.count (Event.doStep p) : Int) =
          min ((j : Int) + 1)
            ((((j : Int) + 1 + 1) * (c.heap p).distance) / (c.heap lead).distance) ∧
        |(evs.count (Event.doStep p) : Int) * (c.heap lead).distance -
          ((j : Int) + 1) * (c.heap p).distance| < (c.heap lead).distance ∧
        (cj.heap p).current =
          (c.heap p).current + (evs.count (Event.doStep p) : Int) * (c.heap p).dir ∧
        (cj.heap p).target = (c.heap p).target := by
  obtain ⟨c1, cj, evs, pre, hdo, hticks, -, inv, hpre, hcf⟩ :=
    doMove_ticks_closed_form E c ptrs rest lead slaves hm hnd hok hv hs hpos j hj
  have hax := sameAxes_initHeap c.heap lead slaves
  have hcur := initHeap_current c.heap lead slaves
  refine ⟨c1, cj, pre ++ evs, hdo, hticks, ?_, ?_, ?_, ?_, ?_⟩
  · rw [inv.trace, List.append_assoc]
  · rw [inv.running, (hax lead).1]
    push_cast
    rfl
  · rw [inv.leadCur, (hcur lead).1, (hax lead).2.2.2.2]
    push_cast
    rfl
  · rw [(inv.axes lead).2.1, (hax lead).2.1]
  · intro p hp
    have hcount : (pre ++ evs).count (Event.doStep p) = evs.count (Event.doStep p) := by
      rw [List.count_append, hpre p, Nat.zero_add]
    rw [hcount]
    refine ⟨(hcf p hp).1, (hcf p hp).2, ?_, ?_⟩
    · rw [(inv.slave p hp).cur_eq, (hcur p).1, (hax p).2.2.2.2]
    · rw [(inv.axes p).2.1, (hax p).2.1]

/-! ## The slave schedule (C11, C17, C19) -/

/-- C17: in a move of distinct, ready axes with lead distance `D > 0`, after
`doMove` and `j` further step-handler invocations, `k = j + 1 ≤ D` in all,
a slave of distance `d` has emitted `min k (floor ((k + 1) * d / D))` steps,
which is less than one step from `k * d / D`. -/
theorem slave_schedule_closed_form (E : Engine σ) (c : Control σ) (ptrs : List Ptr)
    (rest : List (Option Ptr)) (lead : Ptr) (slaves : List Ptr)
    (hm : c.motorList = ptrs.map some ++ none :: rest)
    (hnd : ptrs.Nodup) (hok : ∀ p ∈ ptrs, AxisReady (c.heap p))
    (hv : ∀ p ∈ ptrs, (c.heap p).vMax ≠ 0)
    (hs : stdSort (cmpDelta c.heap) ptrs = lead :: slaves)
    (hpos : 0 < (c.heap lead).distance)
    (j : Nat) (hj : (j : Int) + 1 ≤ (c.heap lead).distance) :
    ∃ c1 cj evs, doMove E ptrs.length c = some c1 ∧ pitISRs E j c1 = some cj ∧
      cj.trace = c.trace ++ evs ∧
      ∀ p ∈ slaves,
        (evs.count (Event.doStep p) : Int) =
          min ((j : Int) + 1)
            ((((j : Int) + 1 + 1) * (c.heap p).distance) / (c.heap lead).distance) ∧
        |(evs.count (Event.doStep p) : Int) * (c.heap lead).distance -
          ((j : Int) + 1) * (c.heap p).distance| < (c.heap lead).distance := by
  obtain ⟨c1, cj, evs, hdo, hticks, htr, -, -, -, hsl⟩ :=
    doMove_ticks_report E c ptrs rest lead slaves hm hnd hok hv hs hpos j hj
  exact ⟨c1, cj, evs, hdo, hticks, htr, fun p hp => ⟨(hsl p hp).1, (hsl p hp).2.1⟩⟩

/-- C17 at the axes with distances 50, 50, 10 after 24 invocations. -/
theorem slave_schedule_closed_form_witness :
    ∃ c1 cj evs, doMove flatEngine 3 staged505010 = some c1 ∧
      pitISRs flatEngine 23 c1 = some cj ∧
      cj.trace = staged505010.trace ++ evs ∧
      ∀ p ∈ [1, 2],
        (evs.count (Event.doStep p) : Int) =
          min (((23 : Nat) : Int) + 1)
            (((((23 : Nat) : Int) + 1 + 1) * (staged505010.heap p).distance) /
              (staged505010.heap 0).distance) ∧
        |(evs.count (Event.doStep p) : Int) * (staged505010.heap 0).distance -
          (((23 : Nat) : Int) + 1) * (staged505010.heap p).distance| <
            (staged505010.heap 0).distance :=
  slave_schedule_closed_form flatEngine staged505010 [0, 1, 2] [none] 0 [1, 2] rfl (by decide)
    heap505010_ready (by decide) (by decide) (by decide) 23 (by decide)

theorem heap10030_ready : ∀ p ∈ [0, 1], AxisReady (heap10030 p) := by
  intro p hp
  simp only [List.mem_cons, List.mem_singleton, List.not_mem_nil, or_false] at hp
  rcases hp with rfl | rfl
  · exact axisAt0_ready 100 1000 2000 (by decide) (by decide) (by unfold isInt32; decide)
  · exact axisAt0_ready 30 1000 2000 (by decide) (by decide) (by unfold isInt32; decide)

/-- C11, refuted as stated: two axes with distances 100 and 30, equal `vMax`
and acceleration. After the 99th step-handler invocation the distance-30 axis
has made its 30 steps and is at its target, while the lead is not at its
target and the timer still runs. -/
theorem slave_30_done_on_invocation_99 :
    ∃ c1 c99 evs, doMove flatEngine 2 staged10030 = some c1 ∧
      pitISRs flatEngine 98 c1 = some c99 ∧ c99.trace = staged10030.trace ++ evs ∧
      evs.count (Event.doStep 1) = 30 ∧ (c99.heap 1).current = (c99.heap 1).target ∧
      (c99.heap 0).current ≠ (c99.heap 0).target ∧ c99.timer.running = true := by
  obtain ⟨c1, cj, evs, hdo, hticks, htr, hr, hlc, hlt, hsl⟩ :=
    doMove_ticks_report flatEngine staged10030 [0, 1] [] 0 [1] rfl (by decide)
      heap10030_ready (by decide) (by decide) (by decide) 98 (by decide)
  obtain ⟨hn, -, hsc, hst⟩ := hsl 1 (List.mem_singleton_self 1)
  have hn30 : (evs.count (Event.doStep 1) : Int) = 30 := by
    rw [hn]
    decide
  refine ⟨c1, cj, evs, hdo, hticks, htr, by exact_mod_cast hn30, ?_, ?_, ?_⟩
  · rw [hsc, hst, hn30]
    decide
  · rw [hlc, hlt]
    decide
  · rw [hr]
    decide

/-- C11, amended: in a move of two distinct, ready axes with distances 100
(the lead) and 30, the slave has made 29 steps after the 98th step-handler
invocation; on the 99th it makes its 30th and last step and is at its target
while the lead is not and the timer runs; on the 100th the lead reaches its
target, the timer is stopped and both axes are at their targets. -/
theorem two_axes_100_30_schedule (E : Engine σ) (c : Control σ) (ptrs : List Ptr)
    (rest : List (Option Ptr)) (lead slave : Ptr)
    (hm : c.motorList = ptrs.map some ++ none :: rest)
    (hnd : ptrs.Nodup) (hok : ∀ p ∈ ptrs, AxisReady (c.heap p))
    (hv : ∀ p ∈ ptrs, (c.heap p).vMax ≠ 0)
    (hs : stdSort (cmpDelta c.heap) ptrs = [lead, slave])
    (hD : (c.heap lead).distance = 100) (hd : (c.heap slave).distance = 30) :
    (∃ c1 c98 evs, doMove E ptrs.length c = some c1 ∧ pitISRs E 97 c1 = some c98 ∧
      c98.trace = c.trace ++ evs ∧ evs.count (Event.doStep slave) = 29) ∧
    (∃ c1 c99 evs, doMove E ptrs.length c = some c1 ∧ pitISRs E 98 c1 = some c99 ∧
      c99.trace = c.trace ++ evs ∧ evs.count (Event.doStep slave) = 30 ∧
      (c99.heap slave).current = (c99.heap slave).target ∧
      (c99.heap lead).current ≠ (c99.heap lead).target ∧ c99.timer.running = true) ∧
    (∃ c1 c100 evs, doMove E ptrs.length c = some c1 ∧ pitISRs E 99 c1 = some c100 ∧
      c100.trace = c.trace ++ evs ∧ evs.count (Event.doStep slave) = 30 ∧
      (c100.heap slave).current = (c100.heap slave).target ∧
      (c100.heap lead).current = (c100.heap lead).target ∧
      c100.timer.running = false) := by
  have hperm : [lead, slave].Perm ptrs := hs ▸ stdSort_perm (cmpDelta c.heap) ptrs
  have hokL := hok lead (hperm.mem_iff.1 (by simp))
  have hokS := hok slave (hperm.mem_iff.1 (by simp))
  have hgL := hokL.geom
  have hgS := hokS.geom
  have hdirL := hokL.dir
  rw [hD] at hgL
  rw [hd] at hgS
  have key : ∀ j : Nat, (j : Int) + 1 ≤ 100 →
      ∃ c1 cj evs, doMove E ptrs.length c = some c1 ∧ pitISRs E j c1 = some cj ∧
        cj.trace = c.trace ++ evs ∧
        cj.timer.running = decide ((j : Int) + 1 < 100) ∧
        (cj.heap lead).current = (c.heap lead).current + ((j : Int) + 1) * (c.heap lead).dir ∧
        (cj.heap lead).target = (c.heap lead).target ∧
        (evs.count (Event.doStep slave) : Int) =
          min ((j : Int) + 1) ((((j : Int) + 1 + 1) * 30) / 100) ∧
        (cj.heap slave).current =
          (c.heap slave).current + (evs.count (Event.doStep slave) : Int) * (c.heap slave).dir ∧
        (cj.heap slave).target = (c.heap slave).target := by
    intro j hj
    obtain ⟨c1, cj, evs, hdo, hticks, htr, hr, hlc, hlt, hsl⟩ :=
      doMove_ticks_report E c ptrs rest lead [slave] hm hnd hok hv hs (by omega) j (by omega)
    obtain ⟨hn, -, hsc, hst⟩ := hsl slave (List.mem_singleton_self slave)
    rw [hD] at hr
    rw [hD, hd] at hn
    exact ⟨c1, cj, evs, hdo, hticks, htr, hr, hlc, hlt, hn, hsc, hst⟩
  refine ⟨?_, ?_, ?_⟩
  · obtain ⟨c1, cj, evs, hdo, hticks, htr, -, -, -, hn, -, -⟩ := key 97 (by decide)
    have hn29 : (evs.count (Event.doStep slave) : Int) = 29 := by
      rw [hn]
      decide
    exact ⟨c1, cj, evs, hdo, hticks, htr, by exact_mod_cast hn29⟩
  · obtain ⟨c1, cj, evs, hdo, hticks, htr, hr, hlc, hlt, hn, hsc, hst⟩ := key 98 (by decide)
    have hn30 : (evs.count (Event.doStep slave) : Int) = 30 := by
      rw [hn]
      decide
    refine ⟨c1, cj, evs, hdo, hticks, htr, by exact_mod_cast hn30, ?_, ?_, ?_⟩
    · rw [hsc, hst, hn30, hgS]
      ring
    · rw [hlc, hlt, hgL]
      push_cast
      rcases hdirL with h | h <;> rw [h] <;> omega
    · rw [hr]
      decide
  · obtain ⟨c1, cj, evs, hdo, hticks, htr, hr, hlc, hlt, hn, hsc, hst⟩ := key 99 (by decide)
    have hn30 : (evs.count (Event.doStep slave) : Int) = 30 := by
      rw [hn]
      decide
    refine ⟨c1, cj, evs, hdo, hticks, htr, by exact_mod_cast hn30, ?_, ?_, ?_⟩
    · rw [hsc, hst, hn30, hgS]
      ring
    · rw [hlc, hlt, hgL]
      push_cast
      ring
    · rw [hr]
      decide

/-- C11, amended, at the two axes with distances 100 and 30, `vMax` 1000 and
acceleration 2000 each. -/
theorem two_axes_100_30_schedule_witness :
    (∃ c1 c98 evs, doMove flatEngine 2 staged10030 = some c1 ∧
      pitISRs flatEngine 97 c1 = some c98 ∧
      c98.trace = staged10030.trace ++ evs ∧ evs.count (Event.doStep 1) = 29) ∧
    (∃ c1 c99 evs, doMove flatEngine 2 staged10030 = some c1 ∧
      pitISRs flatEngine 98 c1 = some c99 ∧
      c99.trace = staged10030.trace ++ evs ∧ evs.count (Event.doStep 1) = 30 ∧
      (c99.heap 1).current = (c99.heap 1).target ∧
      (c99.heap 0).current ≠ (c99.heap 0).target ∧ c99.timer.running = true) ∧
    (∃ c1 c100 evs, doMove flatEngine 2 staged10030 = some c1 ∧
      pitISRs flatEngine 99 c1 = some c100 ∧
      c100.trace = staged10030.trace ++ evs ∧ evs.count (Event.doStep 1) = 30 ∧
      (c100.heap 1).current = (c100.heap 1).target ∧
      (c100.heap 0).current = (c100.heap 0).target ∧
      c100.timer.running = false) :=
  two_axes_100_30_schedule flatEngine staged10030 [0, 1] [] 0 1 rfl (by decide)
    heap10030_ready (by decide) (by decide) rfl rfl

theorem errorTermSafe_of_bounds (d D B : Int) (hd0 : 0 ≤ d) (hdD : d ≤ D) (hD : isInt32 D)
    (hlo : d - D ≤ B) (hhi : B ≤ d) : ErrorTermSafe d D B := by
  unfold isInt32 at hD
  refine ⟨hlo, hhi, fun hB => ⟨by omega, by omega, ?_, ?_⟩, fun hB => ?_⟩
  · exact wrapInt32_id _ (by unfold isInt32; constructor <;> omega)
  · exact wrapInt32_id _ (by unfold isInt32; constructor <;> omega)
  · exact wrapInt32_id _ (by unfold isInt32; constructor <;> omega)

/-- C19: in a move of distinct, ready axes with lead distance `0 < D < 2^30`,
for every slave of distance `d`: `2 * d` and `2 * d - D` fit `int32_t`, the
error term `doMove` initialises is exactly `2 * d - D`, and both this value
and the error term after `doMove` and `j` further step-handler invocations
(`j + 1 ≤ D` in all) lie in `[d - D, d]`, with the intermediate `B - D` in
`[-D, d]` and the computations `B - D`, `+ d` and `B + d` on them exact. -/
theorem error_term_never_overflows (E : Engine σ) (c : Control σ) (ptrs : List Ptr)
    (rest : List (Option Ptr)) (lead : Ptr) (slaves : List Ptr)
    (hm : c.motorList = ptrs.map some ++ none :: rest)
    (hnd : ptrs.Nodup) (hok : ∀ p ∈ ptrs, AxisReady (c.heap p))
    (hv : ∀ p ∈ ptrs, (c.heap p).vMax ≠ 0)
    (hs : stdSort (cmpDelta c.heap) ptrs = lead :: slaves)
    (hpos : 0 < (c.heap lead).distance)
    (hD30 : (c.heap lead).distance < 1073741824)
    (j : Nat) (hj : (j : Int) + 1 ≤ (c.heap lead).distance) :
    ∃ c0 c1 cj, doMoveBresenham ptrs.length c = some (c0, lead :: slaves, lead) ∧
      doMove E ptrs.length c = some c1 ∧ pitISRs E j c1 = some cj ∧
      ∀ p ∈ slaves,
        wrapInt32 (2 * (c.heap p).distance) = 2 * (c.heap p).distance ∧
        wrapInt32 (2 * (c.heap p).distance - (c.heap lead).distance) =
          2 * (c.heap p).distance - (c.heap lead).distance ∧
        (c0.heap p).B = 2 * (c.heap p).distance - (c.heap lead).distance ∧
        ErrorTermSafe (c.heap p).distance (c.heap lead).distance (c0.heap p).B ∧
        ErrorTermSafe (c.heap p).distance (c.heap lead).distance (cj.heap p).B := by
  have hne : ptrs ≠ [] := by
    intro h
    rw [h] at hs
    cases hs
  obtain ⟨c1, cj, evs, pre, hdo, hticks, hset, inv, -, -⟩ :=
    doMove_ticks_closed_form E c ptrs rest lead slaves hm hnd hok hv hs hpos j hj
  have hax := sameAxes_initHeap c.heap lead slaves
  refine ⟨sortedState c lead slaves rest, c1, cj,
    doMoveBresenham_sorted c ptrs rest lead slaves hm hne hs, hdo, hticks, ?_⟩
  intro p hp
  obtain ⟨ok, hle, hB0⟩ := hset.slaveOK p hp
  have hd0 := ok.nonneg
  rw [(hax p).1] at hd0
  rw [(hax p).1, (hax lead).1] at hle hB0
  have hDr : isInt32 (c.heap lead).distance := by unfold isInt32; constructor <;> omega
  obtain ⟨-, -, -, B_lo, B_hi, -⟩ := inv.slave p hp
  rw [(hax p).1, (hax lead).1] at B_lo
  rw [(hax p).1] at B_hi
  have hB0' : ((sortedState c lead slaves rest).heap p).B =
      2 * (c.heap p).distance - (c.heap lead).distance := hB0
  refine ⟨wrapInt32_id _ (by unfold isInt32; constructor <;> omega),
    wrapInt32_id _ (by unfold isInt32; constructor <;> omega), hB0', ?_, ?_⟩
  · exact errorTermSafe_of_bounds _ _ _ hd0 hle hDr (by rw [hB0']; omega) (by rw [hB0']; omega)
  · exact errorTermSafe_of_bounds _ _ _ hd0 hle hDr B_lo B_hi

/-- C19 at the axes with distances 50, 50, 10 after the 50 invocations. -/
theorem error_term_never_overflows_witness :
    ∃ c0 c1 cj, doMoveBresenham 3 staged505010 = some (c0, [0, 1, 2], 0) ∧
      doMove flatEngine 3 staged505010 = some c1 ∧ pitISRs flatEngine 49 c1 = some cj ∧
      ∀ p ∈ [1, 2],
        wrapInt32 (2 * (staged505010.heap p).distance) = 2 * (staged505010.heap p).distance ∧
        wrapInt32 (2 * (staged505010.heap p).distance - (staged505010.heap 0).distance) =
          2 * (staged505010.heap p).distance - (staged505010.heap 0).distance ∧
        (c0.heap p).B = 2 * (staged505010.heap p).distance - (staged505010.heap 0).distance ∧
        ErrorTermSafe (staged505010.heap p).distance (staged505010.heap 0).distance
          (c0.heap p).B ∧
        ErrorTermSafe (staged505010.heap p).distance (staged505010.heap 0).distance
          (cj.heap p).B :=
  error_term_never_overflows flatEngine staged505010 [0, 1, 2] [none] 0 [1, 2] rfl (by decide)
    heap505010_ready (by decide) (by decide) (by decide) (by decide) 49 (by decide)

/-! ## `mCnt` is not read by the engine -/

theorem slaveLoop_withMCnt (lead : Ptr) (m : Nat) (L : List (Option Ptr)) (c : Control σ) :
    slaveLoop lead L (c.withMCnt m) = (slaveLoop lead L c).map (fun c' => c'.withMCnt m) := by
  induction L generalizing c with
  | nil => rfl
  | cons x L ih =>
    cases x with
    | none => rfl
    | some p =>
      have h : slaveBody lead p (c.withMCnt m) = (slaveBody lead p c).withMCnt m := by
        unfold slaveBody
        by_cases hB : 0 ≤ (c.heap p).B
        · simp only [Control.withMCnt, hB, if_true]
          rfl
        · simp only [Control.withMCnt, hB, if_false]
          rfl
      simp only [slaveLoop, h, ih]

theorem completionCheck_withMCnt (lead : Ptr) (m : Nat) (c : Control σ) :
    completionCheck lead (c.withMCnt m) = (completionCheck lead c).withMCnt m := by
  unfold completionCheck
  by_cases h : (c.heap lead).current = (c.heap lead).target
  · simp only [Control.withMCnt, h, if_true, Control.timerStop]
    cases c.callback <;> rfl
  · simp only [Control.withMCnt, h, if_false]

theorem pitISR_withMCnt (E : Engine σ) (m : Nat) (c : Control σ) :
    pitISR E (c.withMCnt m) = (pitISR E c).map (fun c' => c'.withMCnt m) := by
  unfold pitISR
  cases hl : c.leadMotor with
  | none => simp [Control.withMCnt, hl]
  | some lead =>
    have h1 : (c.withMCnt m).leadMotor = some lead := hl
    have h2 : (c.withMCnt m).doStep lead = (c.doStep lead).withMCnt m := rfl
    have h3 : (c.withMCnt m).motorList = c.motorList := rfl
    rw [h1]
    dsimp only
    rw [h2, h3]
    simp only [slaveLoop_withMCnt]
    cases slaveLoop lead (c.motorList.drop 1) (c.doStep lead) with
    | none => rfl
    | some c1 =>
      simp only [Option.map_some']
      exact congrArg some (completionCheck_withMCnt lead m
        (c1.emit (Event.trigger E.pulseWidth E.pinResetDelayChannel)))

theorem clearLoop_withMCnt (m : Nat) (L : List (Option Ptr)) (c : Control σ) :
    clearLoop L (c.withMCnt m) = (clearLoop L c).map (fun c' => c'.withMCnt m) := by
  induction L generalizing c with
  | nil => rfl
  | cons x L ih =>
    cases x with
    | none => rfl
    | some p =>
      exact ih { c with heap := c.heap.set p (c.heap p).clearStepPin,
                        trace := c.trace ++ [Event.clearStepPin p] }

theorem delayISR_withMCnt (E : Engine σ) (channel m : Nat) (c : Control σ) :
    delayISR E channel (c.withMCnt m) =
      (delayISR E channel c).map (fun c' => c'.withMCnt m) := by
  have hacc : ∀ c1 : Control σ, accLoop E (c1.withMCnt m) =
      (accLoop E c1).map (fun c' => c'.withMCnt m) := by
    intro c1
    unfold accLoop
    by_cases hr : c1.timer.running = true
    · cases hl : c1.leadMotor with
      | none => simp [Control.withMCnt, hr, hl]
      | some lead => simp [Control.withMCnt, hr, hl, Control.emit, Control.timerSetFrequency]
    · simp [Control.withMCnt, hr]
  unfold delayISR
  have h3 : (c.withMCnt m).motorList = c.motorList := rfl
  rw [h3]
  by_cases hp : channel = E.pinResetDelayChannel
  · simp only [hp, if_true, clearLoop_withMCnt]
    cases clearLoop c.motorList c with
    | none => rfl
    | some c1 =>
      simp only [Option.map_some']
      by_cases ha : E.pinResetDelayChannel = E.accLoopDelayChannel
      · simp only [ha, if_true]
        exact hacc c1
      · simp only [ha, if_false, Option.map_some']
  · simp only [hp, if_false]
    by_cases ha : channel = E.accLoopDelayChannel
    · simp only [ha, if_true]
      exact hacc c
    · simp only [ha, if_false, Option.map_some']

theorem foldl_initB_withMCnt (lead : Ptr) (m : Nat) (L : List Ptr) (c : Control σ) :
    L.foldl (initB lead) (c.withMCnt m) = (L.foldl (initB lead) c).withMCnt m := by
  induction L generalizing c with
  | nil => rfl
  | cons p L ih => exact ih (initB lead c p)

/-- The engine never reads `mCnt`: `doMove` on a state with another `mCnt`
gives the same state with that `mCnt`. -/
theorem doMove_withMCnt (E : Engine σ) (N m : Nat) (c : Control σ) :
    doMove E N (c.withMCnt m) = (doMove E N c).map (fun c' => c'.withMCnt m) := by
  have hb : doMoveBresenham N (c.withMCnt m) =
      (doMoveBresenham N c).map (fun r => (r.1.withMCnt m, r.2)) := by
    unfold doMoveBresenham
    have h3 : (c.withMCnt m).motorList = c.motorList := rfl
    have h4 : (c.withMCnt m).heap = c.heap := rfl
    rw [h3, h4]
    by_cases hlen : c.motorList.length < N
    · simp [hlen]
    · simp only [hlen, if_false]
      cases allSome (c.motorList.take N) with
      | none => rfl
      | some ptrs =>
        simp only
        cases hh : (List.map some (stdSort (cmpDelta c.heap) ptrs) ++
            List.drop N c.motorList).head? with
        | none => simp
        | some x =>
          cases x with
          | none => simp
          | some lead =>
            simp only [Option.map_some']
            congr 2
            exact foldl_initB_withMCnt lead m _
              { c with motorList := List.map some (stdSort (cmpDelta c.heap) ptrs) ++
                         List.drop N c.motorList,
                       leadMotor := some lead }
  unfold doMove
  rw [hb]
  cases doMoveBresenham N c with
  | none => rfl
  | some r =>
    obtain ⟨c1, sorted, lead⟩ := r
    simp only [Option.map_some']
    have h4 : (c1.withMCnt m).heap = c1.heap := rfl
    rw [h4]
    by_cases hdeg : (c1.heap lead).distance = 0 ∨ targetSpeed c1.heap sorted lead = 0
    · simp only [hdeg, if_true, Option.map_some']
    · simp only [hdeg, if_false]
      have hst : startTimer E lead (targetSpeed c1.heap sorted lead)
          (acceleration c1.heap sorted lead) (c1.withMCnt m) =
          (startTimer E lead (targetSpeed c1.heap sorted lead)
            (acceleration c1.heap sorted lead) c1).withMCnt m := rfl
      rw [hst, pitISR_withMCnt]
      cases pitISR E (startTimer E lead (targetSpeed c1.heap sorted lead)
          (acceleration c1.heap sorted lead) c1) with
      | none => rfl
      | some c2 =>
        simp only [Option.map_some']
        exact delayISR_withMCnt E _ m c2

/-! ## Staging the axes (C12, C18) -/

theorem writeSlot_at (i : Nat) (v : Option Ptr) (c : Control σ) (pre old : List (Option Ptr))
    (o : Option Ptr) (hm : c.motorList = pre ++ o :: old) (hi : pre.length = i) :
    writeSlot i v c = some { c with motorList := pre ++ v :: old } := by
  unfold writeSlot
  have hlt : i < c.motorList.length := by
    rw [hm, List.length_append, List.length_cons]
    omega
  rw [if_pos hlt, hm, List.set_append_right _ _ (by omega), ← hi, Nat.sub_self, List.set_cons_zero]

theorem writeSlots_eq (vs : List (Option Ptr)) :
    ∀ (i : Nat) (c : Control σ) (pre old : List (Option Ptr)),
      c.motorList = pre ++ old → pre.length = i → vs.length ≤ old.length →
      writeSlots i vs c = some { c with motorList := pre ++ vs ++ old.drop vs.length } := by
  induction vs with
  | nil =>
    intro i c pre old hm _ _
    simp [writeSlots, ← hm]
  | cons v vs ih =>
    intro i c pre old hm hi hlen
    cases old with
    | nil => simp at hlen
    | cons o old =>
      simp only [List.length_cons, Nat.add_le_add_iff_right] at hlen
      simp only [writeSlots, writeSlot_at i v c pre old o hm hi]
      rw [ih (i + 1) _ (pre ++ [v]) old (by simp) (by simp [hi]) hlen]
      simp

/-- The array form stages the pointers, writes the sentinel and calls
`doMove`. -/
theorem moveAsyncArray_staged (E : Engine σ) (vs : List (Option Ptr)) (c : Control σ)
    (hk : vs.length + 1 ≤ c.motorList.length) :
    moveAsyncArray E vs c = doMove E vs.length
      { c with motorList := vs ++ none :: c.motorList.drop (vs.length + 1) } := by
  unfold moveAsyncArray
  rw [writeSlots_eq vs 0 c [] c.motorList rfl rfl (by omega)]
  have hdrop : ∃ o, c.motorList.drop vs.length = o :: c.motorList.drop (vs.length + 1) := by
    have hlt : vs.length < c.motorList.length := by omega
    exact ⟨c.motorList[vs.length], (List.drop_eq_getElem_cons hlt)⟩
  obtain ⟨o, ho⟩ := hdrop
  simp only [List.nil_append]
  rw [writeSlot_at vs.length none _ vs (c.motorList.drop (vs.length + 1)) o (by simp [ho]) rfl]

/-- The variadic form, started with `mCnt` slots already written, stages its
arguments behind them, writes the sentinel, calls `doMove` and resets `mCnt`. -/
theorem moveAsyncVariadic_staged (E : Engine σ) (steppers : List Ptr) :
    ∀ (a : Ptr) (c : Control σ) (pre old : List (Option Ptr)),
      c.motorList = pre ++ old → pre.length = c.mCnt → steppers.length + 2 ≤ old.length →
      moveAsyncVariadic E a steppers c =
        (doMove E (c.mCnt + steppers.length + 1)
          { c with motorList := pre ++ (a :: steppers).map some ++
                     none :: old.drop (steppers.length + 2),
                   mCnt := c.mCnt + steppers.length + 1 }).map
          (fun c' => c'.withMCnt 0) := by
  induction steppers with
  | nil =>
    intro a c pre old hm hi hlen
    match old, hlen with
    | o1 :: o2 :: old, _ =>
      unfold moveAsyncVariadic moveAsync
      rw [writeSlot_at c.mCnt (some a) c pre (o2 :: old) o1 hm hi]
      simp only
      rw [writeSlot_at (c.mCnt + 1) none _ (pre ++ [some a]) old o2 (by simp) (by simp [hi])]
      simp only [List.length_nil, Nat.add_zero, List.map_cons, List.map_nil, List.append_assoc,
        List.singleton_append, List.drop_succ_cons, List.drop_zero]
      cases doMove E (c.mCnt + 1)
        { c with motorList := pre ++ some a :: none :: old, mCnt := c.mCnt + 1 } <;> rfl
  | cons s steppers ih =>
    intro a c pre old hm hi hlen
    match old, hlen with
    | o1 :: old, hlen =>
      simp only [List.length_cons] at hlen
      unfold moveAsyncVariadic
      rw [writeSlot_at c.mCnt (some a) c pre old o1 hm hi]
      simp only
      rw [ih s _ (pre ++ [some a]) old (by simp) (by simp [hi]) (by omega)]
      simp only [List.length_cons, List.map_cons, List.append_assoc, List.singleton_append,
        List.drop_succ_cons]
      have h1 : c.mCnt + 1 + steppers.length + 1 = c.mCnt + (steppers.length + 1) + 1 := by
        omega
      rw [h1]

theorem doMove_mCnt_reset (E : Engine σ) (N k : Nat) (X : Control σ) (hX : X.mCnt = 0) :
    (doMove E N { X with mCnt := k }).map (fun c' => c'.withMCnt 0) = doMove E N X := by
  have h1 : ({ X with mCnt := k } : Control σ) = X.withMCnt k := rfl
  have h2 : X.withMCnt 0 = X := by
    cases X
    simp only [Control.withMCnt] at hX ⊢
    subst hX
    rfl
  rw [h1, doMove_withMCnt, Option.map_map]
  conv_rhs => rw [← h2, doMove_withMCnt]
  rfl

/-- From `mCnt == 0` and with room for the sentinel, the variadic and the
array form both are `doMove` on the list that holds the axes in the order
given and then the sentinel. -/
theorem moveAsync_forms_staged (E : Engine σ) (c : Control σ) (a : Ptr) (steppers : List Ptr)
    (hc : c.mCnt = 0) (hk : (a :: steppers).length + 1 ≤ c.motorList.length) :
    moveAsyncVariadic E a steppers c = doMove E (a :: steppers).length
      { c with motorList := (a :: steppers).map some ++
                 none :: c.motorList.drop ((a :: steppers).length + 1) } ∧
    moveAsyncArray E ((a :: steppers).map some) c = moveAsyncVariadic E a steppers c := by
  have hv := moveAsyncVariadic_staged E steppers a c [] c.motorList rfl hc.symm
    (by simpa using hk)
  have ha := moveAsyncArray_staged E ((a :: steppers).map some) c (by simpa using hk)
  simp only [List.length_map] at ha
  simp only [hc, Nat.zero_add, List.nil_append] at hv
  have hfirst : moveAsyncVariadic E a steppers c = doMove E (steppers.length + 1)
      { c with motorList := (a :: steppers).map some ++
                 none :: c.motorList.drop (steppers.length + 2) } := by
    rw [hv]
    exact doMove_mCnt_reset E _ _
      { c with motorList := (a :: steppers).map some ++
                 none :: c.motorList.drop (steppers.length + 2) } hc
  exact ⟨hfirst, ha.trans hfirst.symm⟩

/-- C12: from `mCnt == 0` and with `k + 1` slots at least, the variadic
`moveAsync(a1, ..., ak)` is `doMove(k)` on the list holding `a1 .. ak` in
slots `0 .. k-1` in the order given and the null sentinel in slot `k` (the
further slots as they were), and the array form on `[a1, ..., ak]` returns
exactly the same state. -/
theorem moveAsync_variadic_eq_array (E : Engine σ) (c : Control σ) (a : Ptr)
    (steppers : List Ptr) (hc : c.mCnt = 0)
    (hk : (a :: steppers).length + 1 ≤ c.motorList.length) :
    moveAsyncVariadic E a steppers c = doMove E (a :: steppers).length
      { c with motorList := (a :: steppers).map some ++
                 none :: c.motorList.drop ((a :: steppers).length + 1) } ∧
    moveAsyncArray E ((a :: steppers).map some) c = moveAsyncVariadic E a steppers c :=
  moveAsync_forms_staged E c a steppers hc hk

/-- C12 at three axes and a list of five slots. -/
theorem moveAsync_variadic_eq_array_witness :
    moveAsyncVariadic flatEngine 0 [1, 2] idleFive = doMove flatEngine [0, 1, 2].length
      { idleFive with motorList := [0, 1, 2].map some ++
                 none :: idleFive.motorList.drop ([0, 1, 2].length + 1) } ∧
    moveAsyncArray flatEngine ([0, 1, 2].map some) idleFive =
      moveAsyncVariadic flatEngine 0 [1, 2] idleFive :=
  moveAsync_variadic_eq_array flatEngine idleFive 0 [1, 2] rfl (by decide)

/-- C18: from `mCnt == 0`, a `moveAsync` call with `k` axes (variadic, array,
or single for `k = 1`) on a list of at least `k + 1` slots returns, also when
the move is degenerate; afterwards slots `0 .. k-1` hold the staged axes (in
sorted order), slot `k` the null sentinel, the slots beyond `k` and the length
of the list are as before (no write went past slot `k`), and `mCnt` is 0. -/
theorem moveAsync_list_well_formed (E : Engine σ) (c : Control σ) (a : Ptr)
    (steppers : List Ptr) (hc : c.mCnt = 0)
    (hk : (a :: steppers).length + 1 ≤ c.motorList.length) :
    ∃ (c' : Control σ) (sorted : List Ptr), moveAsyncVariadic E a steppers c = some c' ∧
      moveAsyncArray E ((a :: steppers).map some) c = some c' ∧
      (steppers = [] → moveAsync E a c = some c') ∧
      c'.motorList = sorted.map some ++
        none :: c.motorList.drop ((a :: steppers).length + 1) ∧
      sorted.Perm (a :: steppers) ∧ c'.mCnt = 0 ∧
      c'.motorList.length = c.motorList.length := by
  obtain ⟨hv, ha⟩ := moveAsync_forms_staged E c a steppers hc hk
  obtain ⟨lead, slaves, hs, -⟩ := doMoveBresenham_staged
    { c with motorList := (a :: steppers).map some ++
               none :: c.motorList.drop ((a :: steppers).length + 1) }
    (a :: steppers) (c.motorList.drop ((a :: steppers).length + 1)) rfl (by simp)
  obtain ⟨c', h1, h2, -, h4, -, -⟩ := doMove_frame E
    { c with motorList := (a :: steppers).map some ++
               none :: c.motorList.drop ((a :: steppers).length + 1) }
    (a :: steppers) (c.motorList.drop ((a :: steppers).length + 1)) lead slaves rfl (by simp) hs
  have hperm : (lead :: slaves).Perm (a :: steppers) := hs ▸ stdSort_perm _ _
  refine ⟨c', lead :: slaves, hv.trans h1, ha.trans (hv.trans h1), ?_, h2, hperm,
    h4.trans hc, ?_⟩
  · intro hnil
    subst hnil
    exact hv.trans h1
  · have hlen := hperm.length_eq
    rw [h2]
    simp only [List.length_append, List.length_map, List.length_cons, List.length_drop]
      at hk hlen ⊢
    omega

/-- C18 at three axes and a list of five slots. -/
theorem moveAsync_list_well_formed_witness :
    ∃ (c' : Control Unit) (sorted : List Ptr), moveAsyncVariadic flatEngine 0 [1, 2] idleFive = some c' ∧
      moveAsyncArray flatEngine ([0, 1, 2].map some) idleFive = some c' ∧
      (([1, 2] : List Ptr) = [] → moveAsync flatEngine 0 idleFive = some c') ∧
      c'.motorList = sorted.map some ++
        none :: idleFive.motorList.drop ([0, 1, 2].length + 1) ∧
      sorted.Perm [0, 1, 2] ∧ c'.mCnt = 0 ∧
      c'.motorList.length = idleFive.motorList.length :=
  moveAsync_list_well_formed flatEngine idleFive 0 [1, 2] rfl (by decide)

/-! ## More than 16 axes (C3) -/

/-- C3, refuted as stated: 17 axes are staged in the order 0, 1, ..., 16; axes
0 and 1 share the maximal distance 50, the others have distance 10. `doMove`
returns with axis 1 as the lead and in slot 0, not axis 0, the first axis of
maximal distance in input order. -/
theorem doMove_lead_of_17_is_second_max :
    (∀ q ∈ [1, 2, 3, 4, 5, 6, 7, 8, 9, 10, 11, 12, 13, 14, 15, 16],
      |(staged17.heap q).distance| ≤ |(staged17.heap 0).distance|) ∧
    ∃ c', doMove flatEngine 17 staged17 = some c' ∧
      c'.leadMotor = some 1 ∧ c'.motorList.head? = some (some 1) := by
  refine ⟨by decide, ?_⟩
  obtain ⟨c', h1, h2, h3, -⟩ := doMove_frame flatEngine staged17
    [0, 1, 2, 3, 4, 5, 6, 7, 8, 9, 10, 11, 12, 13, 14, 15, 16] [] 1
    [0, 16, 15, 14, 13, 12, 11, 10, 9, 8, 7, 6, 5, 4, 3, 2] rfl (by simp) (by decide)
  exact ⟨c', h1, h3, by rw [h2]; rfl⟩

/-! ## Completion after `stopAsync` (C9) -/

theorem isInt32_wrapInt32 (x : Int) : isInt32 (wrapInt32 x) := by
  unfold isInt32 wrapInt32
  omega

theorem slaveBody_heap_other (lead p q : Ptr) (c : Control σ) (hq : q ≠ p) :
    (slaveBody lead p c).heap q = c.heap q := by
  unfold slaveBody
  by_cases hB : 0 ≤ (c.heap p).B
  · simp only [hB, if_true, Control.setB, Control.doStep, Heap.set_ne _ _ _ _ hq]
  · simp only [hB, if_false, Control.setB, Heap.set_ne _ _ _ _ hq]

theorem slaveFold_heap_other (lead q : Ptr) (slaves : List Ptr) (c : Control σ)
    (hq : q ∉ slaves) : (slaveFold lead slaves c).heap q = c.heap q := by
  induction slaves generalizing c with
  | nil => rfl
  | cons p L ih =>
    have hf : slaveFold lead (p :: L) c = slaveFold lead L (slaveBody lead p c) := rfl
    rw [hf, ih _ (fun h => hq (List.mem_cons_of_mem _ h)),
      slaveBody_heap_other lead p q c (fun h => hq (h ▸ List.mem_cons_self _ _))]

/-- One invocation of the step handler in a state whose lead is `lead` and
whose callback is `f`: the callback is invoked once and the timer stopped when
the lead is found at its target, and neither happens otherwise; when the lead
is not also a slave it has advanced by one step. -/
theorem pitISR_completion (E : Engine σ) (c : Control σ) (lead : Ptr) (x : Option Ptr)
    (slaves : List Ptr) (rest : List (Option Ptr)) (f : Nat)
    (hl : c.leadMotor = some lead)
    (hm : c.motorList = x :: (slaves.map some ++ none :: rest))
    (hcb : c.callback = some f) :
    ∃ c' evs, pitISR E c = some c' ∧ c'.leadMotor = some lead ∧
      c'.motorList = x :: (slaves.map some ++ none :: rest) ∧ c'.callback = some f ∧
      (c'.heap lead).target = (c.heap lead).target ∧
      (c'.heap lead).dir = (c.heap lead).dir ∧
      c'.trace = c.trace ++ evs ∧
      evs.count (Event.callback f) =
        (if (c'.heap lead).current = (c'.heap lead).target then 1 else 0) ∧
      c'.timer.running =
        (if (c'.heap lead).current = (c'.heap lead).target then false
         else c.timer.running) ∧
      (lead ∉ slaves →
        (c'.heap lead).current = wrapInt32 ((c.heap lead).current + (c.heap lead).dir)) := by
  obtain ⟨c', evs1, p1, p2, p3, -, p5, -, p7, p8, p9, p10⟩ :=
    pitISR_general E c lead x slaves rest hl hm
  refine ⟨c', _, p1, p3.trans hl, p2.trans hm, p5.trans hcb, (p7 lead).2.1,
    (p7 lead).2.2.2.2, p8, ?_, p10, ?_⟩
  · have h1 : evs1.count (Event.callback f) = 0 := by
      rw [List.count_eq_zero]
      intro hmem
      obtain ⟨q, -, hq⟩ := p9 _ hmem
      cases hq
    have hc2 : c'.callback = some f := p5.trans hcb
    rw [List.count_append, List.count_cons, List.count_cons, h1]
    unfold completionEvents
    by_cases hat : (c'.heap lead).current = (c'.heap lead).target
    · simp [hat, hc2]
    · simp [hat]
  · intro hns
    have h := pitISR_staged E c lead x slaves rest hl hm
    rw [p1] at h
    have hc' := Option.some.inj h
    rw [hc', (completionCheck_frame lead _).2.2.2.2.1]
    show ((slaveFold lead slaves (c.doStep lead)).heap lead).current = _
    rw [slaveFold_heap_other lead lead slaves _ hns]
    simp only [Control.doStep, Heap.set_same, Stepper.doStep]

/-- Any number of invocations of the step handler keeps the lead reference,
the list, the callback and the lead's target and direction. -/
theorem pitISRs_frame (E : Engine σ) (lead : Ptr) (x : Option Ptr)
    (slaves : List Ptr) (rest : List (Option Ptr)) (f : Nat) (j : Nat) :
    ∀ c : Control σ, c.leadMotor = some lead →
      c.motorList = x :: (slaves.map some ++ none :: rest) → c.callback = some f →
      ∃ cj, pitISRs E j c = some cj ∧ cj.leadMotor = some lead ∧
        cj.motorList = x :: (slaves.map some ++ none :: rest) ∧ cj.callback = some f ∧
        (cj.heap lead).target = (c.heap lead).target ∧
        (cj.heap lead).dir = (c.heap lead).dir := by
  induction j with
  | zero => intro c hl hm hcb; exact ⟨c, rfl, hl, hm, hcb, rfl, rfl⟩
  | succ j ih =>
    intro c hl hm hcb
    obtain ⟨c1, -, a1, a2, a3, a4, a5, a6, -⟩ :=
      pitISR_completion E c lead x slaves rest f hl hm hcb
    obtain ⟨cj, b1, b2, b3, b4, b5, b6⟩ := ih c1 a2 a3 a4
    refine ⟨cj, ?_, b2, b3, b4, b5.trans a5, b6.trans a6⟩
    simp only [pitISRs, a1]
    exact b1

/-- The lead on its way to a target `n + 1` steps ahead: the first `n`
invocations of the step handler leave the timer running and invoke no
callback, the next one finds the lead at the target, stops the timer and
invokes the callback once. -/
theorem pitISRs_toward_target (E : Engine σ) (lead : Ptr) (x : Option Ptr)
    (slaves : List Ptr) (rest : List (Option Ptr)) (f : Nat) (hns : lead ∉ slaves)
    (i : Nat) :
    ∀ (n : Nat) (c : Control σ), c.leadMotor = some lead →
      c.motorList = x :: (slaves.map some ++ none :: rest) → c.callback = some f →
      c.timer.running = true → (c.heap lead).dir ≠ 0 →
      isInt32 (c.heap lead).current → isInt32 (c.heap lead).target →
      (c.heap lead).target = (c.heap lead).current + ((n : Int) + 1) * (c.heap lead).dir →
      i ≤ n + 1 →
      ∃ ci, pitISRs E i c = some ci ∧
        (ci.heap lead).current = (c.heap lead).current + (i : Int) * (c.heap lead).dir ∧
        ci.timer.running = decide (i ≤ n) ∧
        ci.trace.count (Event.callback f) =
          c.trace.count (Event.callback f) + (if i ≤ n then 0 else 1) := by
  induction i with
  | zero =>
    intro n c _ _ _ hrun _ _ _ _ _
    exact ⟨c, rfl, by simp, by simpa using hrun, by simp⟩
  | succ i ih =>
    intro n c hl hm hcb hrun hdir hcur htgt hT hi
    obtain ⟨c1, evs, a1, a2, a3, a4, a5, a6, a7, a8, a9, a10⟩ :=
      pitISR_completion E c lead x slaves rest f hl hm hcb
    have ha := a10 hns
    have hsign : (0 < (c.heap lead).dir → 0 ≤ (n : Int) * (c.heap lead).dir) ∧
        ((c.heap lead).dir < 0 → (n : Int) * (c.heap lead).dir ≤ 0) :=
      ⟨fun h => mul_nonneg (Int.ofNat_nonneg n) (le_of_lt h),
       fun h => mul_nonpos_of_nonneg_of_nonpos (Int.ofNat_nonneg n) (le_of_lt h)⟩
    have hT' : (c.heap lead).target =
        (c.heap lead).current + (c.heap lead).dir + (n : Int) * (c.heap lead).dir := by
      rw [hT]; ring
    have hrange : isInt32 ((c.heap lead).current + (c.heap lead).dir) := by
      unfold isInt32 at hcur htgt ⊢
      rcases lt_or_gt_of_ne hdir with hneg | hpos
      · have := hsign.2 hneg
        omega
      · have := hsign.1 hpos
        omega
    rw [wrapInt32_id _ hrange] at ha
    cases n with
    | zero =>
      have hi0 : i = 0 := by omega
      subst hi0
      have hat : (c1.heap lead).current = (c1.heap lead).target := by
        rw [ha, a5, hT']; simp
      refine ⟨c1, by simp only [pitISRs, a1], by rw [ha]; simp, ?_, ?_⟩
      · rw [a9, if_pos hat]; simp
      · rw [a7, List.count_append, a8, if_pos hat]; simp
    | succ n =>
      have hnat : (c1.heap lead).current ≠ (c1.heap lead).target := by
        rw [ha, a5, hT']
        intro h
        have h0 : ((n + 1 : Nat) : Int) * (c.heap lead).dir = 0 := by linarith
        rcases mul_eq_zero.1 h0 with h1 | h1
        · have : ((n + 1 : Nat) : Int) = (n : Int) + 1 := by push_cast; ring
          omega
        · exact hdir h1
      have hrun1 : c1.timer.running = true := by rw [a9, if_neg hnat]; exact hrun
      have hT1 : (c1.heap lead).target =
          (c1.heap lead).current + ((n : Int) + 1) * (c1.heap lead).dir := by
        rw [a5, a6, ha, hT]; push_cast; ring
      obtain ⟨ci, b1, b2, b3, b4⟩ := ih n c1 a2 a3 a4 hrun1 (by rw [a6]; exact hdir)
        (by rw [ha]; exact hrange) (by rw [a5]; exact htgt) hT1 (by omega)
      refine ⟨ci, ?_, ?_, ?_, ?_⟩
      · simp only [pitISRs, a1]; exact b1
      · rw [b2, ha, a6]; push_cast; ring
      · rw [b3]; simp
      · rw [b4, a7, List.count_append, a8, if_neg hnat]
        simp

/-- C9, amended: after a `stopAsync` during a move, every invocation of the
step handler invokes the registered callback once, and stops the timer,
exactly when it finds the lead at the target `stopAsync` redirected, and
invokes no callback and leaves the timer as it is when it does not; when the
redirected target lies `m + 1` steps ahead of the lead, the first `m`
invocations after `stopAsync` leave the timer running without a callback and
invocation `m + 1` finds the lead there, stops the timer and invokes the
callback once. -/
theorem callback_on_redirected_target (E : Engine σ) (c : Control σ) (lead : Ptr)
    (x : Option Ptr) (slaves : List Ptr) (rest : List (Option Ptr)) (f m : Nat)
    (hl : c.leadMotor = some lead)
    (hm : c.motorList = x :: (slaves.map some ++ none :: rest))
    (hcb : c.callback = some f) (hns : lead ∉ slaves)
    (hrun : c.timer.running = true) (hcur : isInt32 (c.heap lead).current)
    (hdir : (c.heap lead).dir ≠ 0)
    (hT : wrapInt32 (wrapUInt32 (E.hooks.initiateStopping c.profile (c.heap lead).current).1) =
      (c.heap lead).current + ((m : Int) + 1) * (c.heap lead).dir) :
    ∃ c1, stopAsync E c = some c1 ∧
      (c1.heap lead).target = wrapInt32
        (wrapUInt32 (E.hooks.initiateStopping c.profile (c.heap lead).current).1) ∧
      (∀ j, ∃ cj cj' evs, pitISRs E j c1 = some cj ∧ pitISR E cj = some cj' ∧
        cj'.trace = cj.trace ++ evs ∧
        (cj'.heap lead).target = (c1.heap lead).target ∧
        evs.count (Event.callback f) =
          (if (cj'.heap lead).current = (c1.heap lead).target then 1 else 0) ∧
        cj'.timer.running =
          (if (cj'.heap lead).current = (c1.heap lead).target then false
           else cj.timer.running)) ∧
      (∀ i, i ≤ m → ∃ ci, pitISRs E i c1 = some ci ∧
        (ci.heap lead).current = (c.heap lead).current + (i : Int) * (c.heap lead).dir ∧
        ci.timer.running = true ∧
        ci.trace.count (Event.callback f) = c1.trace.count (Event.callback f)) ∧
      ∃ c2, pitISRs E (m + 1) c1 = some c2 ∧
        (c2.heap lead).current = (c1.heap lead).target ∧
        c2.timer.running = false ∧
        c2.trace.count (Event.callback f) = c1.trace.count (Event.callback f) + 1 := by
  have hsetT : ∀ t : Int,
      ((c.heap.set lead { c.heap lead with target := t }) lead).target = t :=
    fun t => by rw [Heap.set_same]
  have hsetC : ∀ t : Int, ((c.heap.set lead { c.heap lead with target := t }) lead).current =
      (c.heap lead).current := fun t => by rw [Heap.set_same]
  have hsetD : ∀ t : Int, ((c.heap.set lead { c.heap lead with target := t }) lead).dir =
      (c.heap lead).dir := fun t => by rw [Heap.set_same]
  obtain ⟨c1, s1, s2, s3, s4, s5, s6, s7, s8⟩ : ∃ c1, stopAsync E c = some c1 ∧
      c1.leadMotor = some lead ∧ c1.motorList = c.motorList ∧ c1.callback = c.callback ∧
      c1.timer = c.timer ∧ (c1.heap lead).target = wrapInt32
        (wrapUInt32 (E.hooks.initiateStopping c.profile (c.heap lead).current).1) ∧
      (c1.heap lead).current = (c.heap lead).current ∧
      (c1.heap lead).dir = (c.heap lead).dir :=
    ⟨_, stopAsync_eq E c lead hl, hl, rfl, rfl, rfl, hsetT _, hsetC _, hsetD _⟩
  have hrun1 : c1.timer.running = true := by rw [s5]; exact hrun
  have hT1 : (c1.heap lead).target =
      (c1.heap lead).current + ((m : Int) + 1) * (c1.heap lead).dir := by
    rw [s6, s7, s8]; exact hT
  have htgt : isInt32 (c1.heap lead).target := by rw [s6]; exact isInt32_wrapInt32 _
  refine ⟨c1, s1, s6, ?_, ?_, ?_⟩
  · intro j
    obtain ⟨cj, b1, b2, b3, b4, b5, -⟩ :=
      pitISRs_frame E lead x slaves rest f j c1 s2 (s3.trans hm) (s4.trans hcb)
    obtain ⟨cj', evs, a1, -, -, -, a5, -, a7, a8, a9, -⟩ :=
      pitISR_completion E cj lead x slaves rest f b2 b3 b4
    refine ⟨cj, cj', evs, b1, a1, a7, a5.trans b5, ?_, ?_⟩
    · rw [a8, a5, b5]
    · rw [a9, a5, b5]
  · intro i hi
    obtain ⟨ci, b1, b2, b3, b4⟩ := pitISRs_toward_target E lead x slaves rest f hns i m c1
      s2 (s3.trans hm) (s4.trans hcb) hrun1 (by rw [s8]; exact hdir)
      (by rw [s7]; exact hcur) htgt hT1 (by omega)
    refine ⟨ci, b1, by rw [b2, s7, s8], by rw [b3]; simpa using hi, ?_⟩
    rw [b4, if_pos hi]
    rfl
  · obtain ⟨c2, b1, b2, b3, b4⟩ := pitISRs_toward_target E lead x slaves rest f hns (m + 1) m
      c1 s2 (s3.trans hm) (s4.trans hcb) hrun1 (by rw [s8]; exact hdir)
      (by rw [s7]; exact hcur) htgt hT1 (by omega)
    refine ⟨c2, b1, ?_, by rw [b3]; simp, ?_⟩
    · rw [b2, hT1]; push_cast; ring
    · rw [b4, if_neg (by omega)]

/-- C9, amended, at the move of one axis by 10 steps stopped after its first
step by a profile that stops three steps ahead: the callback is invoked on the
third invocation after `stopAsync`. -/
theorem callback_on_redirected_target_witness :
    ∃ c0, doMove aheadEngine 1 stagedTen = some c0 ∧
    ∃ c1, stopAsync aheadEngine c0 = some c1 ∧
      (c1.heap 0).target = wrapInt32
        (wrapUInt32 (aheadEngine.hooks.initiateStopping c0.profile (c0.heap 0).current).1) ∧
      (∀ j, ∃ cj cj' evs, pitISRs aheadEngine j c1 = some cj ∧
        pitISR aheadEngine cj = some cj' ∧
        cj'.trace = cj.trace ++ evs ∧
        (cj'.heap 0).target = (c1.heap 0).target ∧
        evs.count (Event.callback 7) =
          (if (cj'.heap 0).current = (c1.heap 0).target then 1 else 0) ∧
        cj'.timer.running =
          (if (cj'.heap 0).current = (c1.heap 0).target then false
           else cj.timer.running)) ∧
      (∀ i, i ≤ 2 → ∃ ci, pitISRs aheadEngine i c1 = some ci ∧
        (ci.heap 0).current = (c0.heap 0).current + (i : Int) * (c0.heap 0).dir ∧
        ci.timer.running = true ∧
        ci.trace.count (Event.callback 7) = c1.trace.count (Event.callback 7)) ∧
      ∃ c2, pitISRs aheadEngine (2 + 1) c1 = some c2 ∧
        (c2.heap 0).current = (c1.heap 0).target ∧
        c2.timer.running = false ∧
        c2.trace.count (Event.callback 7) = c1.trace.count (Event.callback 7) + 1 :=
  ⟨_, rfl, callback_on_redirected_target aheadEngine _ 0 (some 0) [] [none] 7 2 rfl rfl rfl
    (by simp) rfl ⟨by decide, by decide⟩ (by decide) (by decide)⟩

end TeensyStep
